import Mathlib

/-!
Verification of the Phrazagram grid solver
(`python_scripts/word_grid_solver_general_V10.py`).

The Python source is shallowly embedded below: strings become `List Char`,
Python `dict`s become association lists with insertion-order semantics,
`collections.Counter` objects become integer-valued functions, and the
mutable solver state of `find_solutions_for_grid` becomes an explicit
state record threaded through a well-founded recursive search.
Wall-clock deadline checks of the source are omitted: we model the
`per_grid_time <= 0` configuration, in which the source sets the deadline
to infinity and every `time.time() >= deadline` test is `False`.
-/

set_option maxHeartbeats 2000000

abbrev Str := List Char
abbrev Cell := Nat × Nat

/-- Python string `<` (lexicographic by code point). -/
def strLt : Str → Str → Bool
  | [], [] => false
  | [], _ :: _ => true
  | _ :: _, [] => false
  | a :: as, b :: bs => if a < b then true else if b < a then false else strLt as bs

/-- Lookup in an association list (Python `dict[key]`, first match). -/
def dlookup {κ ν : Type} [DecidableEq κ] : List (κ × ν) → κ → Option ν
  | [], _ => none
  | p :: ps, k => if p.1 = k then some p.2 else dlookup ps k

/-- Python `dict[key] = value`: overwrite in place if the key exists,
else append (insertion order is preserved). -/
def dinsert {κ ν : Type} [DecidableEq κ] (l : List (κ × ν)) (k : κ) (v : ν) :
    List (κ × ν) :=
  if (dlookup l k).isSome then l.map (fun p => if p.1 = k then (k, v) else p)
  else l ++ [(k, v)]

/-- Python `del dict[key]`: remove the (unique) entry with the given key. -/
def derase {κ ν : Type} [DecidableEq κ] : List (κ × ν) → κ → List (κ × ν)
  | [], _ => []
  | p :: ps, k => if p.1 = k then ps else p :: derase ps k

/-- Stable insertion used to model Python's stable `sorted`:
`x` is inserted after all existing elements strictly below it and
before the first element not strictly below it. -/
def insSorted (lt : α → α → Bool) (x : α) : List α → List α
  | [] => [x]
  | y :: ys => if lt y x then y :: insSorted lt x ys else x :: y :: ys

/-- Model of Python's stable `sorted` with strict comparison `lt`. -/
def isort (lt : α → α → Bool) (l : List α) : List α :=
  l.foldr (insSorted lt) []

theorem insSorted_perm (lt : α → α → Bool) (x : α) (l : List α) :
    (insSorted lt x l).Perm (x :: l) := by
  induction l with
  | nil => simp [insSorted]
  | cons y ys ih =>
    simp only [insSorted]
    by_cases h : lt y x = true
    · simp only [h, if_pos]
      exact ((ih.cons y).trans (List.Perm.swap x y ys))
    · simp [h]

theorem isort_perm (lt : α → α → Bool) (l : List α) : (isort lt l).Perm l := by
  induction l with
  | nil => simp [isort]
  | cons a l ih =>
    have : isort lt (a :: l) = insSorted lt a (isort lt l) := rfl
    rw [this]
    exact (insSorted_perm lt a (isort lt l)).trans (ih.cons a)

theorem mem_isort {lt : α → α → Bool} {l : List α} {x : α} :
    x ∈ isort lt l ↔ x ∈ l := (isort_perm lt l).mem_iff

-- ---------------------------------------------------------------------------
-- clean_phrase
-- ---------------------------------------------------------------------------

/-- Modelled from the spec: `unicodedata.normalize("NFKD", ·)` applied
characterwise.  The Unicode NFKD decompositions of the characters relevant
to this development are tabulated (combining-accent letters used by the
source's doc examples, the precomposed ring/angstrom letters of the
substitution table, and the compatibility ligature ﬃ, which NFKD expands
to the three letters `ffi`); all other characters decompose to themselves. -/
def nfkdChar (c : Char) : List Char :=
  if c = 'é' then ['e', '\u0301']
  else if c = 'É' then ['E', '\u0301']
  else if c = 'ñ' then ['n', '\u0303']
  else if c = 'Å' then ['A', '\u030A']
  else if c = 'å' then ['a', '\u030A']
  else if c = 'ﬃ' then ['f', 'f', 'i']
  else [c]

/-- Modelled from the spec: `unicodedata.combining ch != 0`, restricted to
the block U+0300–U+036F of combining diacritical marks, which covers every
combining character produced by `nfkdChar`. -/
def isCombining (c : Char) : Bool :=
  0x300 ≤ c.val && c.val ≤ 0x36F

/-- The `single_letter_map` of `clean_phrase`, applied characterwise
(`single_letter_map.get(ch, ch)`; every value in the source table is a
single character). -/
def singleLetterMap (c : Char) : Char :=
  if c = 'ß' then 'S'
  else if c = 'ẞ' then 'S'
  else if c = 'Æ' then 'E'
  else if c = 'æ' then 'e'
  else if c = 'Œ' then 'E'
  else if c = 'œ' then 'e'
  else if c = 'Ø' then 'O'
  else if c = 'ø' then 'o'
  else if c = 'Ð' then 'D'
  else if c = 'ð' then 'd'
  else if c = 'Þ' then 'T'
  else if c = 'þ' then 't'
  else if c = 'Ł' then 'L'
  else if c = 'ł' then 'l'
  else if c = 'Å' then 'A'
  else if c = 'å' then 'a'
  else c

/-- `clean_phrase`: NFKD-decompose, drop combining marks, apply the
single-letter substitution table, uppercase, keep only A–Z.
(`str.upper` is modelled characterwise by `Char.toUpper`, which uppercases
ASCII letters; the only multi-character uppercase expansion, ß→SS, cannot
occur because the substitution table maps ß away first.) -/
def clean_phrase (p : Str) : Str :=
  let norm := p.flatMap nfkdChar
  let noMarks := norm.filter (fun ch => !isCombining ch)
  let mapped := noMarks.map singleLetterMap
  let upper := mapped.map Char.toUpper
  upper.filter (fun ch => decide ('A' ≤ ch) && decide (ch ≤ 'Z'))

theorem clean_phrase_append (a b : Str) :
    clean_phrase (a ++ b) = clean_phrase a ++ clean_phrase b := by
  simp [clean_phrase]

example : clean_phrase "Héllo!".data = "HELLO".data := by decide
example : clean_phrase "ﬃ".data = "FFI".data := by decide

-- ---------------------------------------------------------------------------
-- load_dictionary
-- ---------------------------------------------------------------------------

/-- Python whitespace characters handled by `str.strip()` (ASCII range,
which covers every character appearing in this development). -/
def isSpaceChar (c : Char) : Bool :=
  c = ' ' || c = '\t' || c = '\n' || c = '\r' || c = '\x0b' || c = '\x0c'

/-- Python `str.strip()`. -/
def pyStrip (s : Str) : Str :=
  ((s.dropWhile isSpaceChar).reverse.dropWhile isSpaceChar).reverse

/-- Python `str.isdigit()` (ASCII digits; nonempty). -/
def isDigitStr (s : Str) : Bool :=
  !s.isEmpty && s.all (fun c => decide ('0' ≤ c) && decide (c ≤ '9'))

/-- Python `int()` on a digit string. -/
def toNatStr (s : Str) : Nat :=
  s.foldl (fun n c => n * 10 + (c.toNat - '0'.toNat)) 0

/-- `consider_entry` from `load_dictionary`: parse an optional
`RATING<TAB>entry` prefix, normalize, keep cleaned length in [4..7],
include unrated entries or rated ones meeting the threshold, and
deduplicate keeping the highest rating.  The statistics counters of the
source are print-only and not modelled. -/
def consider_entry (minRating : Nat) (best : List (Str × Option Nat)) (line0 : Str) :
    List (Str × Option Nat) :=
  let line := pyStrip line0
  if line.isEmpty then best
  else
    let rt : Option Nat × Str :=
      if line.contains '\t' then
        let left := line.takeWhile (fun c => !(c == '\t'))
        let right := (line.dropWhile (fun c => !(c == '\t'))).drop 1
        let ls := pyStrip left
        if isDigitStr ls then
          let r := toNatStr ls
          if 1 ≤ r ∧ r ≤ 10 then (some r, right) else (none, line)
        else (none, line)
      else (none, line)
    let rating := rt.1
    let entry := rt.2
    let cleaned := clean_phrase entry
    if cleaned.isEmpty then best
    else if cleaned.length < 4 ∨ 7 < cleaned.length then best
    else
      let incl : Bool := match rating with
        | none => true
        | some r => decide (minRating ≤ r)
      if incl then
        match dlookup best cleaned with
        | none => dinsert best cleaned rating
        | some prev =>
          match prev, rating with
          | none, some r => dinsert best cleaned (some r)
          | none, none => best
          | some _, none => best
          | some p, some r => if p < r then dinsert best cleaned (some r) else best
      else best

/-- The built-in fallback pool used when the dictionary file is missing. -/
def fallbackWords : List Str :=
  ["TITLE".data, "TENET".data, "LEVEL".data, "LILITH".data, "DENIES".data,
   "GUSTY".data, "GUTSY".data, "TATTY".data, "ANYHOW".data, "ANYHOO".data,
   "WANT".data, "WANTS".data]

/-- The `by_len` bucket construction at the end of `load_dictionary`
(`defaultdict(list)` keyed by cleaned length, filled in key insertion
order). -/
def bucketsOf (ws : List Str) : List (Nat × List Str) :=
  ws.foldl (fun acc w =>
    match dlookup acc w.length with
    | some l => dinsert acc w.length (l ++ [w])
    | none => acc ++ [(w.length, [w])]) []

/-- `load_dictionary`: the file is modelled as `Option (List Str)` —
`none` models `FileNotFoundError` on `open`, in which case no line is
read and the fallback pool is used. -/
def load_dictionary (fileLines : Option (List Str)) (minRating : Nat) :
    List (Nat × List Str) :=
  let best : List (Str × Option Nat) :=
    match fileLines with
    | some ls => ls.foldl (consider_entry minRating) []
    | none =>
      fallbackWords.foldl (fun b w =>
        let c := clean_phrase w
        if 4 ≤ c.length ∧ c.length ≤ 7 then dinsert b c none else b) []
  bucketsOf (best.map (·.1))

/-- Modelled from the spec (refinement reference for C8): "length buckets
built from the small built-in fallback word pool, where each fallback word
is normalized by clean_phrase and retained only if its cleaned length is
in [4,7]". -/
def fallbackBucketsSpec : List (Nat × List Str) :=
  bucketsOf ((fallbackWords.map clean_phrase).filter
    (fun c => decide (4 ≤ c.length) && decide (c.length ≤ 7)))

example : fallbackBucketsSpec =
  [(5, ["TITLE".data, "TENET".data, "LEVEL".data, "GUSTY".data, "GUTSY".data,
        "TATTY".data, "WANTS".data]),
   (6, ["LILITH".data, "DENIES".data, "ANYHOW".data, "ANYHOO".data]),
   (4, ["WANT".data])] := by decide

theorem dropWhile_eq_self_of {p : α → Bool} {l : List α}
    (h : ∀ c ∈ l, p c = false) : l.dropWhile p = l := by
  induction l with
  | nil => rfl
  | cons a l ih =>
    simp only [List.dropWhile_cons, h a (List.mem_cons_self a l)]
    simp

theorem pyStrip_eq_self {l : Str} (h : ∀ c ∈ l, isSpaceChar c = false) :
    pyStrip l = l := by
  unfold pyStrip
  rw [dropWhile_eq_self_of h, dropWhile_eq_self_of, List.reverse_reverse]
  intro c hc
  exact h c (List.mem_reverse.mp hc)

theorem takeWhile_append_all {p : α → Bool} {l₁ l₂ : List α}
    (h : ∀ c ∈ l₁, p c = true) :
    (l₁ ++ l₂).takeWhile p = l₁ ++ l₂.takeWhile p := by
  induction l₁ with
  | nil => rfl
  | cons a l ih =>
    simp only [List.cons_append, List.takeWhile_cons, h a (List.mem_cons_self a l)]
    simp only [if_pos]
    rw [ih (fun c hc => h c (List.mem_cons_of_mem a hc))]

theorem dropWhile_append_all {p : α → Bool} {l₁ l₂ : List α}
    (h : ∀ c ∈ l₁, p c = true) :
    (l₁ ++ l₂).dropWhile p = l₂.dropWhile p := by
  induction l₁ with
  | nil => rfl
  | cons a l ih =>
    simp only [List.cons_append, List.dropWhile_cons, h a (List.mem_cons_self a l)]
    simp only [if_pos]
    exact ih (fun c hc => h c (List.mem_cons_of_mem a hc))

def digitChars : List Char := ['0', '1', '2', '3', '4', '5', '6', '7', '8', '9']

theorem digit_not_space {c : Char} (h : c ∈ digitChars) : isSpaceChar c = false := by
  simp only [digitChars, List.mem_cons, List.not_mem_nil, or_false] at h
  rcases h with rfl | rfl | rfl | rfl | rfl | rfl | rfl | rfl | rfl | rfl <;> decide

theorem digit_not_tab {c : Char} (h : c ∈ digitChars) : (!(c == '\t')) = true := by
  simp only [digitChars, List.mem_cons, List.not_mem_nil, or_false] at h
  rcases h with rfl | rfl | rfl | rfl | rfl | rfl | rfl | rfl | rfl | rfl <;> decide

theorem digit_range {c : Char} (h : c ∈ digitChars) :
    (decide ('0' ≤ c) && decide (c ≤ '9')) = true := by
  simp only [digitChars, List.mem_cons, List.not_mem_nil, or_false] at h
  rcases h with rfl | rfl | rfl | rfl | rfl | rfl | rfl | rfl | rfl | rfl <;> decide

theorem clean_single_digit {c : Char} (h : c ∈ digitChars) : clean_phrase [c] = [] := by
  simp only [digitChars, List.mem_cons, List.not_mem_nil, or_false] at h
  rcases h with rfl | rfl | rfl | rfl | rfl | rfl | rfl | rfl | rfl | rfl <;> decide

theorem clean_phrase_digits {ds : Str} (h : ∀ c ∈ ds, c ∈ digitChars) :
    clean_phrase ds = [] := by
  induction ds with
  | nil => rfl
  | cons c tl ih =>
    have : (c :: tl) = [c] ++ tl := rfl
    rw [this, clean_phrase_append, clean_single_digit (h c (List.mem_cons_self c tl)),
      ih (fun x hx => h x (List.mem_cons_of_mem c hx))]
    rfl

/-- C8: when the dictionary file does not exist (`fileLines = none`,
modelling `FileNotFoundError`), `load_dictionary` returns — for every
minimum-rating threshold — the length buckets built from the built-in
fallback pool, each fallback word normalized by `clean_phrase` and
retained only if its cleaned length lies in [4,7]. -/
theorem load_dictionary_fallback (minRating : Nat) :
    load_dictionary none minRating = fallbackBucketsSpec := rfl

/-- C10: a dictionary line `<n><TAB><word>` whose digit prefix `n` is
outside 1..10 is treated as a single unrated entry: the digit prefix and
the tab are stripped away by `clean_phrase` normalization, and (when the
cleaned length is in [4,7]) the cleaned word is recorded as unrated,
independently of the `min_rating` threshold. -/
theorem consider_entry_out_of_range_rating
    (minRating : Nat) (best : List (Str × Option Nat)) (ds w : Str)
    (hne : ds ≠ [])
    (hdig : ∀ c ∈ ds, c ∈ digitChars)
    (hr : toNatStr ds < 1 ∨ 10 < toNatStr ds)
    (hstrip : pyStrip (ds ++ '\t' :: w) = ds ++ '\t' :: w)
    (hlen : 4 ≤ (clean_phrase w).length ∧ (clean_phrase w).length ≤ 7) :
    consider_entry minRating best (ds ++ '\t' :: w)
      = match dlookup best (clean_phrase w) with
        | none => dinsert best (clean_phrase w) none
        | some _ => best := by
  have hclean : clean_phrase (ds ++ '\t' :: w) = clean_phrase w := by
    have h1 : ('\t' :: w) = ['\t'] ++ w := rfl
    rw [clean_phrase_append, clean_phrase_digits hdig, h1, clean_phrase_append]
    have h2 : clean_phrase ['\t'] = [] := by decide
    rw [h2]
    rfl
  have hnotempty : ((ds ++ '\t' :: w).isEmpty) = false := by
    cases ds with
    | nil => exact absurd rfl hne
    | cons a l => rfl
  have hcontains : ((ds ++ '\t' :: w).contains '\t') = true := by
    simp [List.contains]
  have htake : ((ds ++ '\t' :: w).takeWhile (fun c => !(c == '\t'))) = ds := by
    rw [takeWhile_append_all (fun c hc => digit_not_tab (hdig c hc))]
    simp [List.takeWhile_cons]
  have hdrop : (((ds ++ '\t' :: w).dropWhile (fun c => !(c == '\t'))).drop 1) = w := by
    rw [dropWhile_append_all (fun c hc => digit_not_tab (hdig c hc))]
    simp [List.dropWhile_cons]
  have hstripds : pyStrip ds = ds :=
    pyStrip_eq_self (fun c hc => digit_not_space (hdig c hc))
  have hisdigit : isDigitStr ds = true := by
    unfold isDigitStr
    cases ds with
    | nil => exact absurd rfl hne
    | cons a l =>
      simp only [List.isEmpty_cons, Bool.not_false, Bool.true_and]
      exact List.all_eq_true.mpr (fun c hc => digit_range (hdig c hc))
  have hnotrange : ¬ (1 ≤ toNatStr ds ∧ toNatStr ds ≤ 10) := by omega
  unfold consider_entry
  rw [hstrip]
  simp only [hnotempty, Bool.false_eq_true, if_false, hcontains, if_true, htake, hdrop,
    hstripds, hisdigit, if_pos, hnotrange, if_false, hclean]
  have hlen4 : (clean_phrase w).isEmpty = false := by
    cases hcw : clean_phrase w with
    | nil => rw [hcw] at hlen; simp at hlen
    | cons a l => rfl
  have hlenwin : ¬ ((clean_phrase w).length < 4 ∨ 7 < (clean_phrase w).length) := by
    omega
  simp only [hlen4, Bool.false_eq_true, if_false, hlenwin, if_false]
  cases hdl : dlookup best (clean_phrase w) with
  | none => rfl
  | some prev => cases prev <;> rfl

theorem consider_entry_out_of_range_rating_witness :
    (("11".data : Str) ≠ [] ∧ (∀ c ∈ ("11".data : Str), c ∈ digitChars) ∧
      (toNatStr "11".data < 1 ∨ 10 < toNatStr "11".data) ∧
      pyStrip ("11".data ++ '\t' :: "cats".data) = "11".data ++ '\t' :: "cats".data ∧
      (4 ≤ (clean_phrase "cats".data).length ∧ (clean_phrase "cats".data).length ≤ 7)) ∧
    consider_entry 7 [] ("11".data ++ '\t' :: "cats".data)
      = match dlookup ([] : List (Str × Option Nat)) (clean_phrase "cats".data) with
        | none => dinsert [] (clean_phrase "cats".data) none
        | some _ => [] :=
  ⟨⟨by decide, by decide, by decide, by decide, by decide⟩,
    consider_entry_out_of_range_rating 7 [] "11".data "cats".data
      (by decide) (by decide) (by decide) (by decide) (by decide)⟩

/-- C5 counterexample: `clean_phrase` can make its output longer than its
input.  The single-character input ﬃ (the Unicode compatibility ligature
U+FB03) NFKD-decomposes to the three letters `ffi` and cleans to `FFI`,
so the output length 3 exceeds the input length 1, refuting the claim
that the output length never exceeds the input length. -/
theorem clean_phrase_can_grow :
    ¬ ((clean_phrase ['ﬃ']).length ≤ (['ﬃ'] : Str).length) := by decide

/-- C5 (amended): `clean_phrase` is a pure function of its input (it is a
Lean function of `p` alone); every output character lies in A–Z; and the
output length never exceeds the length of the NFKD decomposition of the
input (though, as `clean_phrase_can_grow` shows, it can exceed the length
of the input itself when compatibility characters expand). -/
theorem clean_phrase_range_and_length (p : Str) :
    (∀ c ∈ clean_phrase p, 'A' ≤ c ∧ c ≤ 'Z') ∧
    (clean_phrase p).length ≤ (p.flatMap nfkdChar).length := by
  constructor
  · intro c hc
    have := List.of_mem_filter hc
    simp only [Bool.and_eq_true, decide_eq_true_eq] at this
    exact this
  · calc (clean_phrase p).length
        ≤ (((p.flatMap nfkdChar).filter (fun ch => !isCombining ch)).map
            singleLetterMap |>.map Char.toUpper).length :=
          List.length_filter_le _ _
      _ = ((p.flatMap nfkdChar).filter (fun ch => !isCombining ch)).length := by
          simp
      _ ≤ (p.flatMap nfkdChar).length := List.length_filter_le _ _

-- ---------------------------------------------------------------------------
-- Slots, intersections, equivalence classes, slot ordering
-- ---------------------------------------------------------------------------

structure Slot where
  id : Str
  orient : Str
  length : Nat
  cells : List Cell
deriving DecidableEq, Repr

/-- An intersection record (named `InterRec` here because `Inter` is taken
by the ambient library). -/
structure InterRec where
  slot_a : Str
  pos_a : Nat
  slot_b : Str
  pos_b : Nat
  cell : Cell
deriving DecidableEq, Repr

/-- The `by_id` dictionary `{s["id"]: s}` (slot ids are unique in every
layout produced by the enumerator, so first-match lookup agrees with the
Python dict). -/
def by_id (slots : List Slot) (sid : Str) : Option Slot :=
  slots.find? (fun s => decide (s.id = sid))

/-- A crossing-partner descriptor `(orient, length, position)` as used by
`slot_equivalence_classes`. -/
abbrev Touch := Str × Nat × Nat

/-- Python `<` on `Touch` tuples. -/
def touchLt (a b : Touch) : Bool :=
  if strLt a.1 b.1 then true
  else if strLt b.1 a.1 then false
  else if a.2.1 < b.2.1 then true
  else if b.2.1 < a.2.1 then false
  else decide (a.2.2 < b.2.2)

/-- Python `<` on lists of touches (lexicographic, prefix is smaller). -/
def touchListLt : List Touch → List Touch → Bool
  | [], [] => false
  | [], _ :: _ => true
  | _ :: _, [] => false
  | a :: as, b :: bs =>
    if touchLt a b then true else if touchLt b a then false else touchListLt as bs

/-- Python `<` on lists of strings (lexicographic). -/
def strListLt : List Str → List Str → Bool
  | [], [] => false
  | [], _ :: _ => true
  | _ :: _, [] => false
  | a :: as, b :: bs =>
    if strLt a b then true else if strLt b a then false else strListLt as bs

/-- The shape pattern `(orient, length, sorted touches)` of a slot. -/
abbrev Pat := Str × Nat × List Touch

/-- Python `<` on the sort key `(pat[0], pat[1], pat[2], ids)` used to
order equivalence classes. -/
def classLt (a b : Pat × List Str) : Bool :=
  if strLt a.1.1 b.1.1 then true
  else if strLt b.1.1 a.1.1 then false
  else if a.1.2.1 < b.1.2.1 then true
  else if b.1.2.1 < a.1.2.1 then false
  else if touchListLt a.1.2.2 b.1.2.2 then true
  else if touchListLt b.1.2.2 a.1.2.2 then false
  else strListLt a.2 b.2

/-- The crossing-partner descriptors of slot `s` (the `touches` list of
`slot_equivalence_classes`; `elif` in the source means a degenerate
self-referential record contributes once). -/
def touchesOf (slots : List Slot) (inters : List InterRec) (s : Slot) : List Touch :=
  inters.flatMap (fun x =>
    if x.slot_a = s.id then
      match by_id slots x.slot_b with
      | some o => [(o.orient, o.length, x.pos_a)]
      | none => []
    else if x.slot_b = s.id then
      match by_id slots x.slot_a with
      | some o => [(o.orient, o.length, x.pos_b)]
      | none => []
    else [])

def patternOf (slots : List Slot) (inters : List InterRec) (s : Slot) : Pat :=
  (s.orient, s.length, isort touchLt (touchesOf slots inters s))

/-- Group slot ids by pattern, in pattern insertion order (Python
`defaultdict` iteration order). -/
def groupsOf (slots : List Slot) (inters : List InterRec) : List (Pat × List Str) :=
  slots.foldl (fun acc s =>
    let pat := patternOf slots inters s
    match dlookup acc pat with
    | some l => dinsert acc pat (l ++ [s.id])
    | none => acc ++ [(pat, [s.id])]) []

/-- `slot_equivalence_classes`: per-pattern sorted id lists, sorted by
`(orient, length, touches, ids)`. -/
def slot_equivalence_classes (slots : List Slot) (inters : List InterRec) :
    List (Pat × List Str) :=
  isort classLt ((groupsOf slots inters).map (fun pc => (pc.1, isort strLt pc.2)))

/-- `sid_to_class`: the index of the class containing `sid` (ids are
partitioned among classes; a foreign id, which would raise `KeyError` in
the source and never occurs in the solver, maps to the out-of-range
sentinel). -/
def sid_to_class (slots : List Slot) (inters : List InterRec) (sid : Str) : Nat :=
  match (slot_equivalence_classes slots inters).findIdx? (fun c => decide (sid ∈ c.2)) with
  | some i => i
  | none => (slot_equivalence_classes slots inters).length

/-- The crossing-degree counter of `order_slots`. -/
def inter_count (inters : List InterRec) (sid : Str) : Nat :=
  (inters.map (fun x =>
    (if x.slot_a = sid then 1 else 0) + (if x.slot_b = sid then 1 else 0))).sum

/-- Python `<` on the `order_slots` key
`(len(cand[s.id]), -inter_count[s.id], s.length)`. -/
def slotKeyLt (cand : Str → List Str) (ic : Str → Nat) (a b : Slot) : Bool :=
  if (cand a.id).length < (cand b.id).length then true
  else if (cand b.id).length < (cand a.id).length then false
  else if ic b.id < ic a.id then true
  else if ic a.id < ic b.id then false
  else decide (a.length < b.length)

/-- `order_slots` (Python's stable `sorted` by the key above). -/
def order_slots (slots : List Slot) (cand : Str → List Str)
    (inters : List InterRec) : List Slot :=
  isort (slotKeyLt cand (inter_count inters)) slots

/-- The crossing map `cross[sid]` built from the intersection records. -/
def crossOf (inters : List InterRec) (sid : Str) : List (Str × Nat × Nat) :=
  inters.flatMap (fun x =>
    (if x.slot_a = sid then [(x.slot_b, x.pos_a, x.pos_b)] else []) ++
    (if x.slot_b = sid then [(x.slot_a, x.pos_b, x.pos_a)] else []))

-- ---------------------------------------------------------------------------
-- find_solutions_for_grid
-- ---------------------------------------------------------------------------

/-- A canonical solution signature: per nonempty equivalence class, the
sorted words assigned to its members. -/
abbrev Sig := List (Nat × List Str)

/-- The mutable search state of `find_solutions_for_grid`. -/
@[ext]
structure SState where
  budget : Char → Int
  cellLetter : Cell → Option Char
  cellUsage : Cell → Int
  sol : List (Str × Str)
  solutions : List (List (Str × Str))
  seen : List Sig

/-- The visit order: ids of the slots sorted by `order_slots`. -/
def ids (slots : List Slot) (inters : List InterRec) (cand : Str → List Str) :
    List Str :=
  (order_slots slots cand inters).map (·.id)

/-- `class_signature`: bucket the words of the current assignment by
equivalence class and sort each bucket; classes are listed in increasing
index order and empty buckets are skipped, exactly as iterating
`sorted(buckets.keys())` does. -/
def class_signature (slots : List Slot) (inters : List InterRec)
    (sol : List (Str × Str)) : Sig :=
  (List.range (slot_equivalence_classes slots inters).length).filterMap (fun i =>
    let ws := sol.filterMap (fun p =>
      if sid_to_class slots inters p.1 = i then some p.2 else none)
    if ws.isEmpty then none else some (i, isort strLt ws))

/-- `can_place`: symmetry-breaking within the equivalence class, crossing
consistency with already-assigned neighbours, claimed-cell agreement, and
budget feasibility of the newly needed letters. -/
def can_place (slots : List Slot) (inters : List InterRec)
    (cand : Str → List Str) (st : SState) (sid : Str) (w : Str) : Bool :=
  match by_id slots sid with
  | none => false
  | some s =>
    let cls := sid_to_class slots inters sid
    let members := (ids slots inters cand).filter
      (fun t => decide (sid_to_class slots inters t = cls))
    let before := members.takeWhile (fun t => !(t == sid))
    let symOk := before.all (fun prev =>
      match dlookup st.sol prev with
      | some wp => !(strLt w wp)
      | none => true)
    let crossOk := (crossOf inters sid).all (fun e =>
      match dlookup st.sol e.1 with
      | some wo => w.getD e.2.1 'A' == wo.getD e.2.2 'A'
      | none => true)
    let pairs := s.cells.zip w
    let claimedOk := pairs.all (fun p =>
      match st.cellLetter p.1 with
      | some ch0 => ch0 == p.2
      | none => true)
    let needList := (pairs.filter (fun p => (st.cellLetter p.1).isNone)).map (·.2)
    let needOk := needList.all (fun ch =>
      decide ((needList.count ch : Int) ≤ st.budget ch))
    symOk && crossOk && claimedOk && needOk

/-- The cell loop of `place`: claim each cell in order, writing the letter
and charging the budget only when the reference count was zero. -/
def placeCells : List (Cell × Char) → SState → SState
  | [], st => st
  | p :: ps, st =>
    let st' :=
      if st.cellUsage p.1 = 0 then
        { st with
          cellLetter := fun c => if c = p.1 then some p.2 else st.cellLetter c,
          budget := fun ch => if ch = p.2 then st.budget p.2 - 1 else st.budget ch,
          cellUsage := fun c => if c = p.1 then st.cellUsage p.1 + 1 else st.cellUsage c }
      else
        { st with
          cellUsage := fun c => if c = p.1 then st.cellUsage p.1 + 1 else st.cellUsage c }
    placeCells ps st'

/-- The cell loop of `unplace`: decrement each reference count, and when
it returns to zero delete the cell's letter and refund the budget. -/
def unplaceCells : List (Cell × Char) → SState → SState
  | [], st => st
  | p :: ps, st =>
    let u' := st.cellUsage p.1 - 1
    let st' :=
      if u' = 0 then
        { st with
          cellUsage := fun c => if c = p.1 then u' else st.cellUsage c,
          cellLetter := fun c => if c = p.1 then none else st.cellLetter c,
          budget := fun ch => if ch = p.2 then st.budget p.2 + 1 else st.budget ch }
      else
        { st with
          cellUsage := fun c => if c = p.1 then u' else st.cellUsage c }
    unplaceCells ps st'

/-- `place(slot_id, word)`. -/
def place (slots : List Slot) (st : SState) (sid : Str) (w : Str) : SState :=
  match by_id slots sid with
  | none => st
  | some s =>
    let st' := placeCells (s.cells.zip w) st
    { st' with sol := dinsert st'.sol sid w }

/-- `unplace(slot_id, word)`. -/
def unplace (slots : List Slot) (st : SState) (sid : Str) (w : Str) : SState :=
  match by_id slots sid with
  | none => st
  | some s =>
    let st' := unplaceCells (s.cells.zip w) st
    { st' with sol := derase st'.sol sid }

/-- A superset of the letters ever stored in the `budget` counter: the
phrase letters (its initial keys) together with every letter of every
candidate word (the only letters `place`/`unplace` touch).  Iterating the
goal test over this deduplicated superset agrees with Python's iteration
over `budget.values()`, because every key not stored in the counter has
value 0, contributing 0 to the sum and trivially passing `v >= 0`. -/
def keysCh (slots : List Slot) (inters : List InterRec) (phrase : Str)
    (cand : Str → List Str) : List Char :=
  (phrase ++ (ids slots inters cand).flatMap (fun sid => (cand sid).flatten)).dedup

/-- The goal test `all(v >= 0 for v in budget.values()) and
sum(budget.values()) == 0`. -/
def goalTest (slots : List Slot) (inters : List InterRec) (phrase : Str)
    (cand : Str → List Str) (st : SState) : Bool :=
  (keysCh slots inters phrase cand).all (fun ch => decide (0 ≤ st.budget ch)) &&
  decide (((keysCh slots inters phrase cand).map st.budget).sum = 0)

mutual

/-- The recursion `dfs(idx)` of `find_solutions_for_grid`, over the suffix
`ids[idx:]` of the visit order (deadline checks are omitted: we model the
no-time-limit configuration). -/
def dfsRun (slots : List Slot) (inters : List InterRec) (phrase : Str)
    (cand : Str → List Str) (maxSols : Nat) :
    List Str → SState → SState
  | [], st =>
    if maxSols ≤ st.solutions.length then st
    else if goalTest slots inters phrase cand st then
      let sig := class_signature slots inters st.sol
      if sig ∈ st.seen then st
      else { st with seen := st.seen ++ [sig], solutions := st.solutions ++ [st.sol] }
    else st
  | sid :: rest, st =>
    if maxSols ≤ st.solutions.length then st
    else tryWords slots inters phrase cand maxSols sid (cand sid) rest st
termination_by rest st => (rest.length, 1, 0)

/-- The candidate loop `for w in cand[sid]` inside `dfs`. -/
def tryWords (slots : List Slot) (inters : List InterRec) (phrase : Str)
    (cand : Str → List Str) (maxSols : Nat) :
    Str → List Str → List Str → SState → SState
  | _, [], _, st => st
  | sid, w :: ws, rest, st =>
    if can_place slots inters cand st sid w then
      let st1 := place slots st sid w
      let st2 := dfsRun slots inters phrase cand maxSols rest st1
      let st3 := unplace slots st2 sid w
      if maxSols ≤ st3.solutions.length then st3
      else tryWords slots inters phrase cand maxSols sid ws rest st3
    else tryWords slots inters phrase cand maxSols sid ws rest st
termination_by sid ws rest st => (rest.length + 1, 0, ws.length)

end

/-- The initial search state: `budget = Counter(phrase_letters)`, empty
cell maps, empty assignment. -/
def initState (phrase : Str) : SState where
  budget := fun ch => (phrase.count ch : Int)
  cellLetter := fun _ => none
  cellUsage := fun _ => 0
  sol := []
  solutions := []
  seen := []

/-- `find_solutions_for_grid` (no-time-limit configuration): run the
search over the ordered slots and return the recorded unique solutions. -/
def find_solutions_for_grid (slots : List Slot) (inters : List InterRec)
    (phrase : Str) (cand : Str → List Str) (maxSols : Nat) :
    List (List (Str × Str)) :=
  (dfsRun slots inters phrase cand maxSols (ids slots inters cand)
    (initState phrase)).solutions

-- ---------------------------------------------------------------------------
-- Association-list and zip lemmas
-- ---------------------------------------------------------------------------

theorem dlookup_eq_none_iff {κ ν : Type} [DecidableEq κ] {l : List (κ × ν)} {k : κ} :
    dlookup l k = none ↔ k ∉ l.map Prod.fst := by
  induction l with
  | nil => simp [dlookup]
  | cons p ps ih =>
    by_cases h : p.1 = k
    · simp [dlookup, h]
    · simp [dlookup, h, ih, Ne.symm h]

theorem dinsert_absent {κ ν : Type} [DecidableEq κ] {l : List (κ × ν)} {k : κ}
    (v : ν) (h : dlookup l k = none) : dinsert l k v = l ++ [(k, v)] := by
  unfold dinsert
  rw [h]
  rfl

theorem derase_append_absent {κ ν : Type} [DecidableEq κ] {l : List (κ × ν)} {k : κ}
    (v : ν) (h : dlookup l k = none) : derase (l ++ [(k, v)]) k = l := by
  induction l with
  | nil => simp [derase]
  | cons p ps ih =>
    simp only [dlookup] at h
    by_cases hp : p.1 = k
    · simp [hp] at h
    · simp only [hp, if_false] at h
      simp [derase, hp, ih h]

theorem map_fst_zip_take (l : List α) (w : List β) :
    (l.zip w).map Prod.fst = l.take w.length := by
  induction l generalizing w with
  | nil => simp
  | cons a l ih =>
    cases w with
    | nil => simp
    | cons b w => simp [ih]

-- ---------------------------------------------------------------------------
-- placeCells / unplaceCells characterization
-- ---------------------------------------------------------------------------

theorem placeCells_sol (ps : List (Cell × Char)) (st : SState) :
    (placeCells ps st).sol = st.sol := by
  induction ps generalizing st with
  | nil => rfl
  | cons p ps ih =>
    simp only [placeCells]
    split <;> exact ih _

theorem placeCells_solutions (ps : List (Cell × Char)) (st : SState) :
    (placeCells ps st).solutions = st.solutions := by
  induction ps generalizing st with
  | nil => rfl
  | cons p ps ih =>
    simp only [placeCells]
    split <;> exact ih _

theorem placeCells_seen (ps : List (Cell × Char)) (st : SState) :
    (placeCells ps st).seen = st.seen := by
  induction ps generalizing st with
  | nil => rfl
  | cons p ps ih =>
    simp only [placeCells]
    split <;> exact ih _

theorem placeCells_usage (ps : List (Cell × Char)) (st : SState) (c : Cell)
    (hnd : (ps.map Prod.fst).Nodup) :
    (placeCells ps st).cellUsage c =
      st.cellUsage c + (if c ∈ ps.map Prod.fst then 1 else 0) := by
  induction ps generalizing st with
  | nil => simp [placeCells]
  | cons p ps ih =>
    simp only [List.map_cons, List.nodup_cons] at hnd
    obtain ⟨hp, hnd'⟩ := hnd
    simp only [placeCells]
    have hstep : (placeCells ps
        (if st.cellUsage p.1 = 0 then
          { st with
            cellLetter := fun c => if c = p.1 then some p.2 else st.cellLetter c,
            budget := fun ch => if ch = p.2 then st.budget p.2 - 1 else st.budget ch,
            cellUsage := fun c => if c = p.1 then st.cellUsage p.1 + 1 else st.cellUsage c }
         else
          { st with
            cellUsage := fun c => if c = p.1 then st.cellUsage p.1 + 1
              else st.cellUsage c })).cellUsage c
        = (if c = p.1 then st.cellUsage p.1 + 1 else st.cellUsage c)
          + (if c ∈ ps.map Prod.fst then 1 else 0) := by
      split <;> rw [ih _ hnd']
    rw [hstep]
    by_cases hc : c = p.1
    · subst hc
      simp [hp]
    · by_cases hm : c ∈ List.map Prod.fst ps
      · simp [List.mem_cons, hc, hm]
      · simp [List.mem_cons, hc, hm]

theorem placeCells_budget (ps : List (Cell × Char)) (st : SState) (ch : Char)
    (hnd : (ps.map Prod.fst).Nodup) :
    (placeCells ps st).budget ch =
      st.budget ch - ((ps.filter
        (fun p => decide (st.cellUsage p.1 = 0) && decide (p.2 = ch))).length : Int) := by
  induction ps generalizing st with
  | nil => simp [placeCells]
  | cons p ps ih =>
    simp only [List.map_cons, List.nodup_cons] at hnd
    obtain ⟨hp, hnd'⟩ := hnd
    have hne : ∀ q ∈ ps, q.1 ≠ p.1 :=
      fun q hq h => hp (h ▸ List.mem_map_of_mem Prod.fst hq)
    simp only [placeCells]
    by_cases hu : st.cellUsage p.1 = 0
    · rw [if_pos hu, ih _ hnd']
      have hfc : (ps.filter (fun q => decide ((if q.1 = p.1 then st.cellUsage p.1 + 1
            else st.cellUsage q.1) = 0) && decide (q.2 = ch)))
          = ps.filter (fun q => decide (st.cellUsage q.1 = 0) && decide (q.2 = ch)) := by
        apply List.filter_congr
        intro q hq
        simp [hne q hq]
      rw [hfc]
      show (if ch = p.2 then st.budget p.2 - 1 else st.budget ch) - _ = _
      by_cases hch : p.2 = ch
      · subst hch
        have hflt : List.filter
              (fun q => decide (st.cellUsage q.1 = 0) && decide (q.2 = p.2)) (p :: ps)
            = p :: List.filter
              (fun q => decide (st.cellUsage q.1 = 0) && decide (q.2 = p.2)) ps := by
          simp [List.filter_cons, hu]
        rw [hflt, if_pos rfl, List.length_cons]
        push_cast
        ring
      · have hflt : List.filter
              (fun q => decide (st.cellUsage q.1 = 0) && decide (q.2 = ch)) (p :: ps)
            = List.filter
              (fun q => decide (st.cellUsage q.1 = 0) && decide (q.2 = ch)) ps := by
          simp [List.filter_cons, hch]
        rw [hflt, if_neg (fun h : ch = p.2 => hch h.symm)]
    · rw [if_neg hu, ih _ hnd']
      have hfc : (ps.filter (fun q => decide ((if q.1 = p.1 then st.cellUsage p.1 + 1
            else st.cellUsage q.1) = 0) && decide (q.2 = ch)))
          = ps.filter (fun q => decide (st.cellUsage q.1 = 0) && decide (q.2 = ch)) := by
        apply List.filter_congr
        intro q hq
        simp [hne q hq]
      rw [hfc]
      show st.budget ch - _ = _
      have hflt : List.filter
            (fun q => decide (st.cellUsage q.1 = 0) && decide (q.2 = ch)) (p :: ps)
          = List.filter
            (fun q => decide (st.cellUsage q.1 = 0) && decide (q.2 = ch)) ps := by
        simp [List.filter_cons, hu]
      rw [hflt]

theorem placeCells_letter (ps : List (Cell × Char)) (st : SState) (c : Cell)
    (hnd : (ps.map Prod.fst).Nodup) :
    (placeCells ps st).cellLetter c =
      match ps.find? (fun p => decide (p.1 = c)) with
      | some p => if st.cellUsage c = 0 then some p.2 else st.cellLetter c
      | none => st.cellLetter c := by
  induction ps generalizing st with
  | nil => simp [placeCells]
  | cons p ps ih =>
    simp only [List.map_cons, List.nodup_cons] at hnd
    obtain ⟨hp, hnd'⟩ := hnd
    have hne : ∀ q ∈ ps, q.1 ≠ p.1 :=
      fun q hq h => hp (h ▸ List.mem_map_of_mem Prod.fst hq)
    simp only [placeCells]
    by_cases hc : c = p.1
    · subst hc
      have hfindps : ps.find? (fun q => decide (q.1 = p.1)) = none := by
        rw [List.find?_eq_none]
        intro q hq
        simp [hne q hq]
      have hfindcons : (p :: ps).find? (fun q => decide (q.1 = p.1)) = some p := by
        apply List.find?_cons_of_pos
        simp
      rw [hfindcons]
      by_cases hu : st.cellUsage p.1 = 0
      · rw [if_pos hu, ih _ hnd', hfindps]
        simp [hu]
      · rw [if_neg hu, ih _ hnd', hfindps]
        simp [hu]
    · have hfindcons : (p :: ps).find? (fun q => decide (q.1 = c)) =
          ps.find? (fun q => decide (q.1 = c)) := by
        apply List.find?_cons_of_neg
        simp only [decide_eq_true_eq]
        exact fun h => hc h.symm
      rw [hfindcons]
      by_cases hu : st.cellUsage p.1 = 0
      · rw [if_pos hu, ih _ hnd']
        cases hfind : ps.find? (fun q => decide (q.1 = c)) with
        | none => simp [hc]
        | some q => simp [hc]
      · rw [if_neg hu, ih _ hnd']
        cases hfind : ps.find? (fun q => decide (q.1 = c)) with
        | none => rfl
        | some q => simp [hc]

theorem unplaceCells_sol (ps : List (Cell × Char)) (st : SState) :
    (unplaceCells ps st).sol = st.sol := by
  induction ps generalizing st with
  | nil => rfl
  | cons p ps ih =>
    simp only [unplaceCells]
    split <;> exact ih _

theorem unplaceCells_solutions (ps : List (Cell × Char)) (st : SState) :
    (unplaceCells ps st).solutions = st.solutions := by
  induction ps generalizing st with
  | nil => rfl
  | cons p ps ih =>
    simp only [unplaceCells]
    split <;> exact ih _

theorem unplaceCells_seen (ps : List (Cell × Char)) (st : SState) :
    (unplaceCells ps st).seen = st.seen := by
  induction ps generalizing st with
  | nil => rfl
  | cons p ps ih =>
    simp only [unplaceCells]
    split <;> exact ih _

theorem unplaceCells_usage (ps : List (Cell × Char)) (st : SState) (c : Cell)
    (hnd : (ps.map Prod.fst).Nodup) :
    (unplaceCells ps st).cellUsage c =
      st.cellUsage c - (if c ∈ ps.map Prod.fst then 1 else 0) := by
  induction ps generalizing st with
  | nil => simp [unplaceCells]
  | cons p ps ih =>
    simp only [List.map_cons, List.nodup_cons] at hnd
    obtain ⟨hp, hnd'⟩ := hnd
    simp only [unplaceCells]
    have hstep : (unplaceCells ps
        (if st.cellUsage p.1 - 1 = 0 then
          { st with
            cellUsage := fun c => if c = p.1 then st.cellUsage p.1 - 1 else st.cellUsage c,
            cellLetter := fun c => if c = p.1 then none else st.cellLetter c,
            budget := fun ch => if ch = p.2 then st.budget p.2 + 1 else st.budget ch }
         else
          { st with
            cellUsage := fun c => if c = p.1 then st.cellUsage p.1 - 1
              else st.cellUsage c })).cellUsage c
        = (if c = p.1 then st.cellUsage p.1 - 1 else st.cellUsage c)
          - (if c ∈ ps.map Prod.fst then 1 else 0) := by
      split <;> rw [ih _ hnd']
    rw [hstep]
    by_cases hc : c = p.1
    · subst hc
      simp [hp]
    · by_cases hm : c ∈ List.map Prod.fst ps
      · simp [List.mem_cons, hc, hm]
      · simp [List.mem_cons, hc, hm]

theorem unplaceCells_budget (ps : List (Cell × Char)) (st : SState) (ch : Char)
    (hnd : (ps.map Prod.fst).Nodup) :
    (unplaceCells ps st).budget ch =
      st.budget ch + ((ps.filter
        (fun p => decide (st.cellUsage p.1 - 1 = 0) && decide (p.2 = ch))).length : Int) := by
  induction ps generalizing st with
  | nil => simp [unplaceCells]
  | cons p ps ih =>
    simp only [List.map_cons, List.nodup_cons] at hnd
    obtain ⟨hp, hnd'⟩ := hnd
    have hne : ∀ q ∈ ps, q.1 ≠ p.1 :=
      fun q hq h => hp (h ▸ List.mem_map_of_mem Prod.fst hq)
    simp only [unplaceCells]
    by_cases hu : st.cellUsage p.1 - 1 = 0
    · rw [if_pos hu, ih _ hnd']
      have hfc : (ps.filter (fun q => decide ((if q.1 = p.1 then st.cellUsage p.1 - 1
            else st.cellUsage q.1) - 1 = 0) && decide (q.2 = ch)))
          = ps.filter (fun q => decide (st.cellUsage q.1 - 1 = 0) && decide (q.2 = ch)) := by
        apply List.filter_congr
        intro q hq
        simp [hne q hq]
      rw [hfc]
      show (if ch = p.2 then st.budget p.2 + 1 else st.budget ch) + _ = _
      by_cases hch : p.2 = ch
      · subst hch
        have hflt : List.filter
              (fun q => decide (st.cellUsage q.1 - 1 = 0) && decide (q.2 = p.2)) (p :: ps)
            = p :: List.filter
              (fun q => decide (st.cellUsage q.1 - 1 = 0) && decide (q.2 = p.2)) ps := by
          simp [List.filter_cons, hu]
        rw [hflt, if_pos rfl, List.length_cons]
        push_cast
        ring
      · have hflt : List.filter
              (fun q => decide (st.cellUsage q.1 - 1 = 0) && decide (q.2 = ch)) (p :: ps)
            = List.filter
              (fun q => decide (st.cellUsage q.1 - 1 = 0) && decide (q.2 = ch)) ps := by
          simp [List.filter_cons, hch]
        rw [hflt, if_neg (fun h : ch = p.2 => hch h.symm)]
    · rw [if_neg hu, ih _ hnd']
      have hfc : (ps.filter (fun q => decide ((if q.1 = p.1 then st.cellUsage p.1 - 1
            else st.cellUsage q.1) - 1 = 0) && decide (q.2 = ch)))
          = ps.filter (fun q => decide (st.cellUsage q.1 - 1 = 0) && decide (q.2 = ch)) := by
        apply List.filter_congr
        intro q hq
        simp [hne q hq]
      rw [hfc]
      show st.budget ch + _ = _
      have hflt : List.filter
            (fun q => decide (st.cellUsage q.1 - 1 = 0) && decide (q.2 = ch)) (p :: ps)
          = List.filter
            (fun q => decide (st.cellUsage q.1 - 1 = 0) && decide (q.2 = ch)) ps := by
        simp [List.filter_cons, hu]
      rw [hflt]

theorem unplaceCells_letter (ps : List (Cell × Char)) (st : SState) (c : Cell)
    (hnd : (ps.map Prod.fst).Nodup) :
    (unplaceCells ps st).cellLetter c =
      match ps.find? (fun p => decide (p.1 = c)) with
      | some _ => if st.cellUsage c - 1 = 0 then none else st.cellLetter c
      | none => st.cellLetter c := by
  induction ps generalizing st with
  | nil => simp [unplaceCells]
  | cons p ps ih =>
    simp only [List.map_cons, List.nodup_cons] at hnd
    obtain ⟨hp, hnd'⟩ := hnd
    have hne : ∀ q ∈ ps, q.1 ≠ p.1 :=
      fun q hq h => hp (h ▸ List.mem_map_of_mem Prod.fst hq)
    simp only [unplaceCells]
    by_cases hc : c = p.1
    · subst hc
      have hfindps : ps.find? (fun q => decide (q.1 = p.1)) = none := by
        rw [List.find?_eq_none]
        intro q hq
        simp [hne q hq]
      have hfindcons : (p :: ps).find? (fun q => decide (q.1 = p.1)) = some p := by
        apply List.find?_cons_of_pos
        simp
      rw [hfindcons]
      by_cases hu : st.cellUsage p.1 - 1 = 0
      · rw [if_pos hu, ih _ hnd', hfindps]
        simp [hu]
      · rw [if_neg hu, ih _ hnd', hfindps]
        simp [hu]
    · have hfindcons : (p :: ps).find? (fun q => decide (q.1 = c)) =
          ps.find? (fun q => decide (q.1 = c)) := by
        apply List.find?_cons_of_neg
        simp only [decide_eq_true_eq]
        exact fun h => hc h.symm
      rw [hfindcons]
      by_cases hu : st.cellUsage p.1 - 1 = 0
      · rw [if_pos hu, ih _ hnd']
        cases hfind : ps.find? (fun q => decide (q.1 = c)) with
        | none => simp [hc]
        | some q => simp [hc]
      · rw [if_neg hu, ih _ hnd']
        cases hfind : ps.find? (fun q => decide (q.1 = c)) with
        | none => rfl
        | some q => simp [hc]

/-- C4: from any well-formed search state (the slot not yet assigned, and
letters present exactly on claimed cells), `place(slot, word)` followed by
`unplace(slot, word)` restores the budget, cell letters, reference counts,
assignment, and recorded solutions exactly; and `place` deducts from the
budget only for cells whose reference count was zero (shared crossing
cells are never double-charged). -/
theorem place_unplace_roundtrip (slots : List Slot) (st : SState) (sid w : Str)
    (s : Slot)
    (hby : by_id slots sid = some s)
    (hnd : s.cells.Nodup)
    (hsolkey : dlookup st.sol sid = none)
    (hclean : ∀ p ∈ s.cells.zip w, st.cellUsage p.1 = 0 → st.cellLetter p.1 = none) :
    unplace slots (place slots st sid w) sid w = st ∧
    ∀ ch, (place slots st sid w).budget ch =
      st.budget ch - (((s.cells.zip w).filter
        (fun p => decide (st.cellUsage p.1 = 0) && decide (p.2 = ch))).length : Int) := by
  have hkeys : ((s.cells.zip w).map Prod.fst).Nodup := by
    rw [map_fst_zip_take]
    exact (List.take_sublist _ _).nodup hnd
  have hP : place slots st sid w =
      { placeCells (s.cells.zip w) st with
        sol := dinsert (placeCells (s.cells.zip w) st).sol sid w } := by
    simp only [place, hby]
  have hPsol : (place slots st sid w).sol = st.sol ++ [(sid, w)] := by
    rw [hP]
    show dinsert (placeCells (s.cells.zip w) st).sol sid w = _
    rw [placeCells_sol, dinsert_absent _ hsolkey]
  have hPbudget : ∀ ch, (place slots st sid w).budget ch =
      st.budget ch - (((s.cells.zip w).filter
        (fun p => decide (st.cellUsage p.1 = 0) && decide (p.2 = ch))).length : Int) := by
    intro ch
    rw [hP]
    show (placeCells (s.cells.zip w) st).budget ch = _
    exact placeCells_budget _ _ _ hkeys
  have hPusage : ∀ c, (place slots st sid w).cellUsage c =
      st.cellUsage c + (if c ∈ (s.cells.zip w).map Prod.fst then 1 else 0) := by
    intro c
    rw [hP]
    show (placeCells (s.cells.zip w) st).cellUsage c = _
    exact placeCells_usage _ _ _ hkeys
  have hPletter : ∀ c, (place slots st sid w).cellLetter c =
      match (s.cells.zip w).find? (fun p => decide (p.1 = c)) with
      | some p => if st.cellUsage c = 0 then some p.2 else st.cellLetter c
      | none => st.cellLetter c := by
    intro c
    rw [hP]
    show (placeCells (s.cells.zip w) st).cellLetter c = _
    exact placeCells_letter _ _ _ hkeys
  have hPsolutions : (place slots st sid w).solutions = st.solutions := by
    rw [hP]
    show (placeCells (s.cells.zip w) st).solutions = _
    exact placeCells_solutions _ _
  have hPseen : (place slots st sid w).seen = st.seen := by
    rw [hP]
    show (placeCells (s.cells.zip w) st).seen = _
    exact placeCells_seen _ _
  have hU : unplace slots (place slots st sid w) sid w =
      { unplaceCells (s.cells.zip w) (place slots st sid w) with
        sol := derase (unplaceCells (s.cells.zip w) (place slots st sid w)).sol sid } := by
    simp only [unplace, hby]
  refine ⟨?_, hPbudget⟩
  rw [hU]
  apply SState.ext
  · funext ch
    show (unplaceCells (s.cells.zip w) (place slots st sid w)).budget ch = st.budget ch
    rw [unplaceCells_budget _ _ _ hkeys]
    have hfc : ((s.cells.zip w).filter (fun p =>
          decide ((place slots st sid w).cellUsage p.1 - 1 = 0) && decide (p.2 = ch)))
        = (s.cells.zip w).filter (fun p =>
          decide (st.cellUsage p.1 = 0) && decide (p.2 = ch)) := by
      apply List.filter_congr
      intro p hp
      have hmem : p.1 ∈ (s.cells.zip w).map Prod.fst := List.mem_map_of_mem _ hp
      rw [hPusage]
      have hiff : (st.cellUsage p.1 + (if p.1 ∈ (s.cells.zip w).map Prod.fst then 1 else 0)
          - 1 = 0) ↔ (st.cellUsage p.1 = 0) := by
        rw [if_pos hmem]
        omega
      simp [hiff]
    rw [hfc, hPbudget ch]
    omega
  · funext c
    show (unplaceCells (s.cells.zip w) (place slots st sid w)).cellLetter c = st.cellLetter c
    rw [unplaceCells_letter _ _ _ hkeys]
    cases hfind : (s.cells.zip w).find? (fun p => decide (p.1 = c)) with
    | none =>
      show (place slots st sid w).cellLetter c = st.cellLetter c
      rw [hPletter c, hfind]
    | some q =>
      have hqc : q.1 = c := by
        have := List.find?_some hfind
        simpa using this
      have hqmem : q ∈ s.cells.zip w := List.mem_of_find?_eq_some hfind
      have hmem : c ∈ (s.cells.zip w).map Prod.fst :=
        hqc ▸ List.mem_map_of_mem _ hqmem
      show (if (place slots st sid w).cellUsage c - 1 = 0 then none
        else (place slots st sid w).cellLetter c) = st.cellLetter c
      rw [hPusage c, if_pos hmem]
      by_cases hu : st.cellUsage c = 0
      · rw [if_pos (by omega)]
        exact (hclean q hqmem (hqc ▸ hu)).symm.trans (by rw [hqc])
      · rw [if_neg (by omega), hPletter c, hfind]
        show (if st.cellUsage c = 0 then some q.2 else st.cellLetter c) = st.cellLetter c
        rw [if_neg hu]
  · funext c
    show (unplaceCells (s.cells.zip w) (place slots st sid w)).cellUsage c = st.cellUsage c
    rw [unplaceCells_usage _ _ _ hkeys, hPusage c]
    by_cases hm : c ∈ (s.cells.zip w).map Prod.fst
    · simp [hm]
    · simp [hm]
  · show derase (unplaceCells (s.cells.zip w) (place slots st sid w)).sol sid = st.sol
    rw [unplaceCells_sol, hPsol, derase_append_absent _ hsolkey]
  · show (unplaceCells (s.cells.zip w) (place slots st sid w)).solutions = st.solutions
    rw [unplaceCells_solutions, hPsolutions]
  · show (unplaceCells (s.cells.zip w) (place slots st sid w)).seen = st.seen
    rw [unplaceCells_seen, hPseen]

/-- Concrete fixture: a 4-letter across slot in row 0. -/
def wslotH : Slot := ⟨"H".data, "H".data, 4, [(0,0), (0,1), (0,2), (0,3)]⟩

/-- Concrete fixture: a 4-letter down slot in column 1. -/
def wslotV : Slot := ⟨"V".data, "V".data, 4, [(0,1), (1,1), (2,1), (3,1)]⟩

/-- Concrete fixture: the crossing of `wslotH` and `wslotV` at cell (0,1). -/
def winter : InterRec := ⟨"H".data, 1, "V".data, 0, (0,1)⟩

/-- Concrete fixture: one candidate word per slot. -/
def wcand : Str → List Str := fun sid =>
  if sid = "H".data then ["ABLE".data]
  else if sid = "V".data then ["BOLE".data]
  else []

/-- Concrete fixture: the normalized phrase letters. -/
def wphrase : Str := "ABLEOLE".data

theorem place_unplace_roundtrip_witness :
    (by_id [wslotH, wslotV] "H".data = some wslotH ∧ wslotH.cells.Nodup ∧
      dlookup (initState wphrase).sol "H".data = none ∧
      (∀ p ∈ wslotH.cells.zip "ABLE".data,
        (initState wphrase).cellUsage p.1 = 0 →
        (initState wphrase).cellLetter p.1 = none)) ∧
    (unplace [wslotH, wslotV]
        (place [wslotH, wslotV] (initState wphrase) "H".data "ABLE".data)
        "H".data "ABLE".data = initState wphrase ∧
      ∀ ch, (place [wslotH, wslotV] (initState wphrase) "H".data "ABLE".data).budget ch =
        (initState wphrase).budget ch - (((wslotH.cells.zip "ABLE".data).filter
          (fun p => decide ((initState wphrase).cellUsage p.1 = 0) &&
            decide (p.2 = ch))).length : Int)) :=
  ⟨⟨by decide, by decide, by decide, by decide⟩,
    place_unplace_roundtrip [wslotH, wslotV] (initState wphrase) "H".data "ABLE".data
      wslotH (by decide) (by decide) (by decide) (by decide)⟩

-- ---------------------------------------------------------------------------
-- Search invariant
-- ---------------------------------------------------------------------------

/-- The set of grid cells: the union of all slot cells, each counted once. -/
def allCells (slots : List Slot) : List Cell := (slots.flatMap (·.cells)).dedup

/-- The letter a (complete) assignment puts in a cell, read off the first
slot covering that cell. -/
def cellWordOf (slots : List Slot) (sol : List (Str × Str)) (cell : Cell) :
    Option Char :=
  match slots.find? (fun s => decide (cell ∈ s.cells)) with
  | some s =>
    match dlookup sol s.id with
    | some w => some (w.getD (s.cells.findIdx (fun c => decide (c = cell))) 'A')
    | none => none
  | none => none

/-- Well-formedness of a solver input, true of every layout produced by
`build_slots_and_intersections` with prefiltered candidate pools: slot ids
are distinct, each slot's cells are distinct, candidate words have the
slot's length, and no intersection record relates a slot to itself. -/
structure WF (slots : List Slot) (inters : List InterRec)
    (cand : Str → List Str) : Prop where
  ids_nodup : (slots.map (·.id)).Nodup
  cells_nodup : ∀ s ∈ slots, s.cells.Nodup
  cand_len : ∀ s ∈ slots, ∀ wv ∈ cand s.id, wv.length = s.cells.length
  inter_ne : ∀ x ∈ inters, x.slot_a ≠ x.slot_b

/-- The number of placed slots covering a cell (with multiplicity). -/
def usageCount (slots : List Slot) (placed : List Str) (cell : Cell) : Nat :=
  (placed.map (fun sid => match by_id slots sid with
    | some s => (s.cells.filter (fun c => decide (c = cell))).length
    | none => 0)).sum

/-- The search invariant of `find_solutions_for_grid`, relating the
mutable state to the list `placed` of already-assigned slot ids. -/
structure SearchInv (slots : List Slot) (inters : List InterRec) (phrase : Str)
    (cand : Str → List Str) (placed : List Str) (st : SState) : Prop where
  keys_eq : st.sol.map Prod.fst = placed
  vals : ∀ sid wv, dlookup st.sol sid = some wv → wv ∈ cand sid
  usage_eq : ∀ cell, st.cellUsage cell = (usageCount slots placed cell : Int)
  letter_placed : ∀ sid wv s, dlookup st.sol sid = some wv →
    by_id slots sid = some s →
    ∀ k, k < s.cells.length → st.cellLetter (s.cells.getD k (0,0)) = some (wv.getD k 'A')
  letter_dom : ∀ cell, (st.cellLetter cell).isSome → 0 < st.cellUsage cell
  budget_eq : ∀ ch, st.budget ch = (phrase.count ch : Int) -
    (((allCells slots).filter (fun c => st.cellLetter c = some ch)).length : Int)
  budget_nonneg : ∀ ch, 0 ≤ st.budget ch
  cross_ok : ∀ x ∈ inters, ∀ wa wb, dlookup st.sol x.slot_a = some wa →
    dlookup st.sol x.slot_b = some wb → wa.getD x.pos_a 'A' = wb.getD x.pos_b 'A'

theorem dlookup_append {κ ν : Type} [DecidableEq κ] (l₁ l₂ : List (κ × ν)) (k : κ) :
    dlookup (l₁ ++ l₂) k =
      match dlookup l₁ k with
      | some v => some v
      | none => dlookup l₂ k := by
  induction l₁ with
  | nil => rfl
  | cons p ps ih =>
    by_cases h : p.1 = k
    · simp [dlookup, h]
    · simp [dlookup, h, ih]

theorem dlookup_isSome_of_mem_keys {κ ν : Type} [DecidableEq κ]
    {l : List (κ × ν)} {k : κ} (h : k ∈ l.map Prod.fst) :
    ∃ v, dlookup l k = some v := by
  induction l with
  | nil => simp at h
  | cons p ps ih =>
    by_cases hp : p.1 = k
    · exact ⟨p.2, by simp [dlookup, hp]⟩
    · simp only [List.map_cons, List.mem_cons] at h
      rcases h with h | h
    
      · exact absurd h.symm hp
      · obtain ⟨v, hv⟩ := ih h
        exact ⟨v, by simp [dlookup, hp, hv]⟩

theorem nat_sum_pos {l : List Nat} : 0 < l.sum ↔ ∃ x ∈ l, 0 < x := by
  induction l with
  | nil => simp
  | cons a l ih =>
    simp only [List.sum_cons, List.mem_cons]
    constructor
    · intro h
      by_cases ha : 0 < a
      · exact ⟨a, Or.inl rfl, ha⟩
      · have : a = 0 := by omega
        obtain ⟨x, hx, hx0⟩ := ih.mp (by omega)
        exact ⟨x, Or.inr hx, hx0⟩
    · rintro ⟨x, hx | hx, hx0⟩
      · omega
      · have := ih.mpr ⟨x, hx, hx0⟩
        omega

theorem mem_allCells {slots : List Slot} {cell : Cell} :
    cell ∈ allCells slots ↔ ∃ s ∈ slots, cell ∈ s.cells := by
  simp [allCells, List.mem_dedup]

theorem allCells_nodup (slots : List Slot) : (allCells slots).Nodup :=
  List.nodup_dedup _

theorem inv_usage_nonneg {slots inters phrase cand placed st}
    (hinv : SearchInv slots inters phrase cand placed st) (cell : Cell) :
    0 ≤ st.cellUsage cell := by
  rw [hinv.usage_eq]
  exact Int.natCast_nonneg _

theorem inv_usage_pos_iff {slots inters phrase cand placed st}
    (hinv : SearchInv slots inters phrase cand placed st) (cell : Cell) :
    0 < st.cellUsage cell ↔
      ∃ sid ∈ placed, ∃ s, by_id slots sid = some s ∧ cell ∈ s.cells := by
  rw [hinv.usage_eq, Int.natCast_pos, usageCount, nat_sum_pos]
  constructor
  · rintro ⟨x, hx, hx0⟩
    obtain ⟨sid, hsid, rfl⟩ := List.mem_map.mp hx
    refine ⟨sid, hsid, ?_⟩
    cases hby : by_id slots sid with
    | none => rw [hby] at hx0; simp at hx0
    | some s =>
      rw [hby] at hx0
      refine ⟨s, rfl, ?_⟩
      obtain ⟨y, hy⟩ := List.length_pos_iff_exists_mem.mp hx0
      have := List.mem_filter.mp hy
      simp only [decide_eq_true_eq] at this
      exact this.2 ▸ this.1
  · rintro ⟨sid, hsid, s, hby, hmem⟩
    refine ⟨(match by_id slots sid with
      | some s => (s.cells.filter (fun c => decide (c = cell))).length
      | none => 0), List.mem_map_of_mem _ hsid, ?_⟩
    rw [hby]
    apply List.length_pos_iff_exists_mem.mpr
    exact ⟨cell, List.mem_filter.mpr ⟨hmem, by simp⟩⟩

theorem inv_letter_of_usage {slots inters phrase cand placed st}
    (hinv : SearchInv slots inters phrase cand placed st) (cell : Cell)
    (h : 0 < st.cellUsage cell) : (st.cellLetter cell).isSome := by
  obtain ⟨sid, hsid, s, hby, hmem⟩ := (inv_usage_pos_iff hinv cell).mp h
  have hkey : sid ∈ st.sol.map Prod.fst := hinv.keys_eq ▸ hsid
  obtain ⟨wv, hwv⟩ := dlookup_isSome_of_mem_keys hkey
  obtain ⟨k, hk, hke⟩ := List.mem_iff_getElem.mp hmem
  have := hinv.letter_placed sid wv s hwv hby k hk
  rw [List.getD_eq_getElem s.cells (0,0) hk, hke] at this
  rw [this]
  rfl

theorem inv_letter_none_iff {slots inters phrase cand placed st}
    (hinv : SearchInv slots inters phrase cand placed st) (cell : Cell) :
    st.cellLetter cell = none ↔ st.cellUsage cell = 0 := by
  constructor
  · intro h
    by_contra hne
    have hpos : 0 < st.cellUsage cell :=
      lt_of_le_of_ne (inv_usage_nonneg hinv cell) (Ne.symm hne)
    have := inv_letter_of_usage hinv cell hpos
    rw [h] at this
    simp at this
  · intro h
    rcases hopt : st.cellLetter cell with _ | ch
    · rfl
    · have : 0 < st.cellUsage cell := hinv.letter_dom cell (by rw [hopt]; rfl)
      omega

theorem zip_find_at (cells : List Cell) (w : Str) (k : Nat) (hk : k < cells.length)
    (hlen : w.length = cells.length) (hnd : cells.Nodup) :
    (cells.zip w).find? (fun p => decide (p.1 = cells.getD k (0,0)))
      = some (cells.getD k (0,0), w.getD k 'A') := by
  induction cells generalizing w k with
  | nil => simp at hk
  | cons c cs ih =>
    cases w with
    | nil => simp at hlen
    | cons a as =>
      simp only [List.length_cons, Nat.succ_eq_add_one] at hlen
      simp only [List.nodup_cons] at hnd
      obtain ⟨hc, hnd'⟩ := hnd
      cases k with
      | zero =>
        apply List.find?_cons_of_pos
        simp
      | succ k =>
        simp only [List.length_cons, Nat.add_lt_add_iff_right] at hk
        have hmemk : cs.getD k (0,0) ∈ cs := by
          rw [List.getD_eq_getElem cs (0,0) hk]
          exact List.getElem_mem hk
        have hne : c ≠ cs.getD k (0,0) := fun h => hc (h ▸ hmemk)
        rw [List.zip_cons_cons]
        rw [List.find?_cons_of_neg]
        · show (cs.zip as).find? (fun p => decide (p.1 = (c :: cs).getD (k+1) (0,0)))
            = some ((c :: cs).getD (k+1) (0,0), (a :: as).getD (k+1) 'A')
          have h1 : (c :: cs).getD (k+1) (0,0) = cs.getD k (0,0) := rfl
          have h2 : (a :: as).getD (k+1) 'A' = as.getD k 'A' := rfl
          rw [h1, h2]
          exact ih as k hk (by omega) hnd'
        · simp only [decide_eq_true_eq]
          exact hne

theorem eq_of_fst_eq_of_nodup_keys {α β : Type} {ps : List (α × β)}
    (h : (ps.map Prod.fst).Nodup) {p q : α × β} (hp : p ∈ ps) (hq : q ∈ ps)
    (he : p.1 = q.1) : p = q := by
  induction ps with
  | nil => simp at hp
  | cons r rs ih =>
    simp only [List.map_cons, List.nodup_cons] at h
    obtain ⟨hr, h'⟩ := h
    rcases List.mem_cons.mp hp with rfl | hp'
    · rcases List.mem_cons.mp hq with rfl | hq'
      · rfl
      · exact absurd (he ▸ List.mem_map_of_mem Prod.fst hq') hr
    · rcases List.mem_cons.mp hq with rfl | hq'
      · exact absurd (he ▸ List.mem_map_of_mem Prod.fst hp') hr
      · exact ih h' hp' hq'

theorem filter_or_length {α : Type} (A : List α) (p q : α → Bool)
    (hdis : ∀ a ∈ A, ¬(p a = true ∧ q a = true)) :
    (A.filter (fun a => p a || q a)).length
      = (A.filter p).length + (A.filter q).length := by
  simp only [← List.countP_eq_length_filter]
  induction A with
  | nil => rfl
  | cons a A ih =>
    have hdis' : ∀ x ∈ A, ¬(p x = true ∧ q x = true) :=
      fun x hx => hdis x (List.mem_cons_of_mem a hx)
    simp only [List.countP_cons]
    rw [ih hdis']
    by_cases hp : p a = true
    · have hq : q a = false := by
        rcases Bool.eq_false_or_eq_true (q a) with h | h
        · exact absurd ⟨hp, h⟩ (hdis a (List.mem_cons_self a A))
        · exact h
      simp only [hp, hq, Bool.true_or, Bool.false_eq_true, if_false,
        eq_self_iff_true, if_true]
      omega
    · rw [Bool.not_eq_true] at hp
      by_cases hq : q a = true
      · simp only [hp, hq, Bool.false_or, Bool.false_eq_true,
          if_false, eq_self_iff_true, if_true]
        omega
      · rw [Bool.not_eq_true] at hq
        simp only [hp, hq, Bool.false_or, Bool.false_eq_true, if_false]
        omega

theorem filter_mem_length {α : Type} [DecidableEq α] (A sub : List α)
    (hA : A.Nodup) (hsub : sub.Nodup) (hss : ∀ x ∈ sub, x ∈ A) :
    (A.filter (fun a => decide (a ∈ sub))).length = sub.length := by
  have hperm : (A.filter (fun a => decide (a ∈ sub))).Perm sub := by
    rw [List.perm_ext_iff_of_nodup (hA.filter _) hsub]
    intro a
    simp only [List.mem_filter, decide_eq_true_eq]
    constructor
    · exact fun h => h.2
    · exact fun h => ⟨hss a h, h⟩
  exact hperm.length_eq

theorem filter_eq_singleton_of_nodup {α : Type} [DecidableEq α] {l : List α}
    (hnd : l.Nodup) {a : α} (h : a ∈ l) :
    l.filter (fun c => decide (c = a)) = [a] := by
  induction l with
  | nil => simp at h
  | cons x xs ih =>
    simp only [List.nodup_cons] at hnd
    obtain ⟨hx, hnd'⟩ := hnd
    rcases List.mem_cons.mp h with rfl | h'
    · simp only [List.filter_cons, decide_eq_true_eq, eq_self_iff_true, if_true]
      rw [List.filter_eq_nil_iff.mpr]
      intro c hc
      simp only [decide_eq_true_eq]
      exact fun he => hx (he ▸ hc)
    · have hxa : ¬(x = a) := fun he => hx (he ▸ h')
      simp only [List.filter_cons, decide_eq_true_eq, hxa, if_false]
      exact ih hnd' h'

theorem can_place_spec {slots : List Slot} {inters : List InterRec}
    {cand : Str → List Str} {st : SState} {sid w : Str} {s : Slot}
    (hby : by_id slots sid = some s)
    (hcp : can_place slots inters cand st sid w = true) :
    (∀ e ∈ crossOf inters sid, ∀ wo, dlookup st.sol e.1 = some wo →
      w.getD e.2.1 'A' = wo.getD e.2.2 'A') ∧
    (∀ p ∈ s.cells.zip w, ∀ ch0, st.cellLetter p.1 = some ch0 → ch0 = p.2) ∧
    (∀ ch ∈ ((s.cells.zip w).filter (fun p => (st.cellLetter p.1).isNone)).map Prod.snd,
      ((((s.cells.zip w).filter
        (fun p => (st.cellLetter p.1).isNone)).map Prod.snd).count ch : Int)
        ≤ st.budget ch) := by
  rw [can_place, hby] at hcp
  simp only [Bool.and_eq_true] at hcp
  obtain ⟨⟨⟨_, hcross⟩, hclaim⟩, hneed⟩ := hcp
  refine ⟨?_, ?_, ?_⟩
  · intro e he wo hwo
    have := List.all_eq_true.mp hcross e he
    rw [hwo] at this
    simpa using this
  · intro p hp ch0 hch0
    have := List.all_eq_true.mp hclaim p hp
    rw [hch0] at this
    simpa using this
  · intro ch hch
    have := List.all_eq_true.mp hneed ch hch
    simpa using this

theorem place_sol {slots : List Slot} {st : SState} {sid w : Str} {s : Slot}
    (hby : by_id slots sid = some s) :
    (place slots st sid w).sol = dinsert st.sol sid w := by
  simp only [place, hby, placeCells_sol]

theorem place_budget {slots : List Slot} {st : SState} {sid w : Str} {s : Slot}
    (hby : by_id slots sid = some s)
    (hkeys : ((s.cells.zip w).map Prod.fst).Nodup) (ch : Char) :
    (place slots st sid w).budget ch =
      st.budget ch - (((s.cells.zip w).filter
        (fun p => decide (st.cellUsage p.1 = 0) && decide (p.2 = ch))).length : Int) := by
  simp only [place, hby]
  exact placeCells_budget _ _ _ hkeys

theorem place_usage {slots : List Slot} {st : SState} {sid w : Str} {s : Slot}
    (hby : by_id slots sid = some s)
    (hkeys : ((s.cells.zip w).map Prod.fst).Nodup) (c : Cell) :
    (place slots st sid w).cellUsage c =
      st.cellUsage c + (if c ∈ (s.cells.zip w).map Prod.fst then 1 else 0) := by
  simp only [place, hby]
  exact placeCells_usage _ _ _ hkeys

theorem place_letter {slots : List Slot} {st : SState} {sid w : Str} {s : Slot}
    (hby : by_id slots sid = some s)
    (hkeys : ((s.cells.zip w).map Prod.fst).Nodup) (c : Cell) :
    (place slots st sid w).cellLetter c =
      match (s.cells.zip w).find? (fun p => decide (p.1 = c)) with
      | some p => if st.cellUsage c = 0 then some p.2 else st.cellLetter c
      | none => st.cellLetter c := by
  simp only [place, hby]
  exact placeCells_letter _ _ _ hkeys

theorem place_solutions {slots : List Slot} {st : SState} {sid w : Str} {s : Slot}
    (hby : by_id slots sid = some s) :
    (place slots st sid w).solutions = st.solutions := by
  simp only [place, hby, placeCells_solutions]

theorem place_seen {slots : List Slot} {st : SState} {sid w : Str} {s : Slot}
    (hby : by_id slots sid = some s) :
    (place slots st sid w).seen = st.seen := by
  simp only [place, hby, placeCells_seen]

theorem filter_pred_length {α : Type} (A sub : List α) (q : α → Bool)
    (hq : ∀ a, q a = true ↔ a ∈ sub)
    (hA : A.Nodup) (hsub : sub.Nodup) (hss : ∀ x ∈ sub, x ∈ A) :
    (A.filter q).length = sub.length := by
  have hperm : (A.filter q).Perm sub := by
    rw [List.perm_ext_iff_of_nodup (hA.filter _) hsub]
    intro a
    simp only [List.mem_filter]
    constructor
    · exact fun h => (hq a).mp h.2
    · exact fun h => ⟨hss a h, (hq a).mpr h⟩
  exact hperm.length_eq

theorem count_map_snd (l : List (Cell × Char)) (ch : Char) :
    (l.map Prod.snd).count ch = (l.filter (fun p => decide (p.2 = ch))).length := by
  induction l with
  | nil => rfl
  | cons p l ih =>
    simp only [List.map_cons, List.count_cons, List.filter_cons]
    by_cases h : p.2 = ch
    · simp [h, ih]
    · simp [h, ih]

theorem place_inv {slots : List Slot} {inters : List InterRec} {phrase : Str}
    {cand : Str → List Str} {placed : List Str} {st : SState} {sid w : Str} {s : Slot}
    (hwf : WF slots inters cand)
    (hinv : SearchInv slots inters phrase cand placed st)
    (hby : by_id slots sid = some s)
    (hnp : sid ∉ placed)
    (hwc : w ∈ cand sid)
    (hcp : can_place slots inters cand st sid w = true) :
    SearchInv slots inters phrase cand (placed ++ [sid]) (place slots st sid w) := by
  have hsmem : s ∈ slots := List.mem_of_find?_eq_some hby
  have hsid : s.id = sid := by simpa using List.find?_some hby
  have hcnd : s.cells.Nodup := hwf.cells_nodup s hsmem
  have hlen : w.length = s.cells.length :=
    hwf.cand_len s hsmem w (by rw [hsid]; exact hwc)
  have hkeysfst : (s.cells.zip w).map Prod.fst = s.cells := by
    rw [map_fst_zip_take, hlen, List.take_length]
  have hkeys : ((s.cells.zip w).map Prod.fst).Nodup := by
    rw [hkeysfst]; exact hcnd
  have hsolkey : dlookup st.sol sid = none := by
    rw [dlookup_eq_none_iff, hinv.keys_eq]; exact hnp
  have hPsol : (place slots st sid w).sol = st.sol ++ [(sid, w)] := by
    rw [place_sol hby, dinsert_absent _ hsolkey]
  obtain ⟨hcross, hclaim, hneed⟩ := can_place_spec hby hcp
  have hlookupP : ∀ sid', dlookup (place slots st sid w).sol sid'
      = if sid' = sid then some w else dlookup st.sol sid' := by
    intro sid'
    rw [hPsol, dlookup_append]
    by_cases h : sid' = sid
    · subst h
      rw [hsolkey, if_pos rfl]
      simp [dlookup]
    · cases hl : dlookup st.sol sid' with
      | some v => simp [h]
      | none =>
        have h2 : ¬ sid = sid' := fun hh => h hh.symm
        simp [dlookup, h, h2]
  refine
    { keys_eq := ?_
      vals := ?_
      usage_eq := ?_
      letter_placed := ?_
      letter_dom := ?_
      budget_eq := ?_
      budget_nonneg := ?_
      cross_ok := ?_ }
  · rw [hPsol]
    simp [hinv.keys_eq]
  · intro sid' wv hl
    rw [hlookupP] at hl
    by_cases h : sid' = sid
    · rw [if_pos h] at hl
      cases hl
      rw [h]
      exact hwc
    · rw [if_neg h] at hl
      exact hinv.vals sid' wv hl
  · intro cell
    rw [place_usage hby hkeys cell, hinv.usage_eq, hkeysfst]
    simp only [usageCount, List.map_append, List.sum_append, List.map_cons,
      List.map_nil, List.sum_cons, List.sum_nil, hby]
    by_cases hm : cell ∈ s.cells
    · rw [if_pos hm, filter_eq_singleton_of_nodup hcnd hm]
      simp
    · rw [if_neg hm, List.filter_eq_nil_iff.mpr
        (fun c hc => by simp only [decide_eq_true_eq]; exact fun h => hm (h ▸ hc))]
      simp
  · intro sid' wv' s' hl hby' k hk
    rw [hlookupP] at hl
    by_cases h : sid' = sid
    · subst h
      rw [if_pos rfl] at hl
      cases hl
      rw [hby] at hby'
      cases hby'
      rw [place_letter hby hkeys]
      have hfind := zip_find_at s.cells w k hk hlen hcnd
      rw [hfind]
      by_cases hu : st.cellUsage (s.cells.getD k (0,0)) = 0
      · show (if st.cellUsage (s.cells.getD k (0,0)) = 0
            then some (s.cells.getD k (0,0), w.getD k 'A').2
            else st.cellLetter (s.cells.getD k (0,0))) = some (w.getD k 'A')
        rw [if_pos hu]
      · show (if st.cellUsage (s.cells.getD k (0,0)) = 0
            then some (s.cells.getD k (0,0), w.getD k 'A').2
            else st.cellLetter (s.cells.getD k (0,0))) = some (w.getD k 'A')
        rw [if_neg hu]
        have hupos : 0 < st.cellUsage (s.cells.getD k (0,0)) := by
          have := inv_usage_nonneg hinv (s.cells.getD k (0,0))
          omega
        have hsome := inv_letter_of_usage hinv _ hupos
        obtain ⟨ch0, hch0⟩ := Option.isSome_iff_exists.mp hsome
        have hpmem : (s.cells.getD k (0,0), w.getD k 'A') ∈ s.cells.zip w :=
          List.mem_of_find?_eq_some hfind
        have := hclaim _ hpmem ch0 hch0
        rw [hch0, this]
    · rw [if_neg h] at hl
      have hold := hinv.letter_placed sid' wv' s' hl hby' k hk
      rw [place_letter hby hkeys]
      cases hfind : (s.cells.zip w).find? (fun p => decide (p.1 = s'.cells.getD k (0,0))) with
      | none => exact hold
      | some q =>
        have hpos : 0 < st.cellUsage (s'.cells.getD k (0,0)) :=
          hinv.letter_dom _ (by rw [hold]; rfl)
        show (if st.cellUsage (s'.cells.getD k (0,0)) = 0 then some q.2
          else st.cellLetter (s'.cells.getD k (0,0))) = some (wv'.getD k 'A')
        rw [if_neg (by omega)]
        exact hold
  · intro cell hsome
    rw [place_usage hby hkeys cell, hkeysfst]
    by_cases hm : cell ∈ s.cells
    · rw [if_pos hm]
      have := inv_usage_nonneg hinv cell
      omega
    · rw [if_neg hm]
      have hfind : (s.cells.zip w).find? (fun p => decide (p.1 = cell)) = none := by
        rw [List.find?_eq_none]
        intro p hp
        simp only [decide_eq_true_eq]
        intro he
        exact hm (he ▸ (hkeysfst ▸ List.mem_map_of_mem Prod.fst hp))
      rw [place_letter hby hkeys cell, hfind] at hsome
      have := hinv.letter_dom cell hsome
      omega
  · intro ch
    rw [place_budget hby hkeys ch, hinv.budget_eq ch]
    have hnodupNew : (((s.cells.zip w).filter
        (fun p => decide (st.cellUsage p.1 = 0) && decide (p.2 = ch))).map Prod.fst).Nodup :=
      ((List.filter_sublist _).map Prod.fst).nodup hkeys
    have hsubNew : ∀ x ∈ ((s.cells.zip w).filter
        (fun p => decide (st.cellUsage p.1 = 0) && decide (p.2 = ch))).map Prod.fst,
        x ∈ allCells slots := by
      intro x hx
      obtain ⟨p, hpmem, rfl⟩ := List.mem_map.mp hx
      have hpps : p ∈ s.cells.zip w := List.mem_of_mem_filter hpmem
      have : p.1 ∈ s.cells := hkeysfst ▸ List.mem_map_of_mem Prod.fst hpps
      exact mem_allCells.mpr ⟨s, hsmem, this⟩
    have hpt : ∀ c ∈ allCells slots,
        (decide ((place slots st sid w).cellLetter c = some ch))
        = ((decide (st.cellLetter c = some ch)) ||
           (decide (c ∈ ((s.cells.zip w).filter
             (fun p => decide (st.cellUsage p.1 = 0) && decide (p.2 = ch))).map Prod.fst))) := by
      intro c _
      rw [place_letter hby hkeys c]
      cases hfind : (s.cells.zip w).find? (fun p => decide (p.1 = c)) with
      | none =>
        have hnm : c ∉ ((s.cells.zip w).filter
            (fun p => decide (st.cellUsage p.1 = 0) && decide (p.2 = ch))).map Prod.fst := by
          intro hcm
          obtain ⟨p, hpmem, hpc⟩ := List.mem_map.mp hcm
          have hpps : p ∈ s.cells.zip w := List.mem_of_mem_filter hpmem
          have := List.find?_eq_none.mp hfind p hpps
          simp [hpc] at this
        simp [hnm]
      | some q =>
        have hqc : q.1 = c := by simpa using List.find?_some hfind
        have hqmem : q ∈ s.cells.zip w := List.mem_of_find?_eq_some hfind
        by_cases hu : st.cellUsage c = 0
        · have hlnone : st.cellLetter c = none := (inv_letter_none_iff hinv c).mpr hu
          have hmemiff : (c ∈ ((s.cells.zip w).filter
              (fun p => decide (st.cellUsage p.1 = 0) && decide (p.2 = ch))).map Prod.fst)
              ↔ q.2 = ch := by
            constructor
            · intro hcm
              obtain ⟨p, hpmem, hpc⟩ := List.mem_map.mp hcm
              have hpps : p ∈ s.cells.zip w := List.mem_of_mem_filter hpmem
              have hpq : p = q :=
                eq_of_fst_eq_of_nodup_keys hkeys hpps hqmem (by rw [hpc, hqc])
              have hcond := (List.mem_filter.mp hpmem).2
              rw [hpq] at hcond
              simp only [Bool.and_eq_true, decide_eq_true_eq] at hcond
              exact hcond.2
            · intro h2
              apply List.mem_map.mpr
              refine ⟨q, List.mem_filter.mpr ⟨hqmem, ?_⟩, hqc⟩
              simp only [Bool.and_eq_true, decide_eq_true_eq]
              exact ⟨by rw [hqc]; exact hu, h2⟩
          show decide ((if st.cellUsage c = 0 then some q.2 else st.cellLetter c) = some ch) = _
          rw [if_pos hu]
          simp [hmemiff, hlnone]
        · have hnm : c ∉ ((s.cells.zip w).filter
              (fun p => decide (st.cellUsage p.1 = 0) && decide (p.2 = ch))).map Prod.fst := by
            intro hcm
            obtain ⟨p, hpmem, hpc⟩ := List.mem_map.mp hcm
            have hpps : p ∈ s.cells.zip w := List.mem_of_mem_filter hpmem
            have hpq : p = q :=
              eq_of_fst_eq_of_nodup_keys hkeys hpps hqmem (by rw [hpc, hqc])
            have hcond := (List.mem_filter.mp hpmem).2
            simp only [Bool.and_eq_true, decide_eq_true_eq] at hcond
            rw [hpc] at hcond
            exact hu hcond.1
          show decide ((if st.cellUsage c = 0 then some q.2 else st.cellLetter c) = some ch) = _
          rw [if_neg hu]
          simp [hnm]
    have hfilterP : (allCells slots).filter
        (fun c => decide ((place slots st sid w).cellLetter c = some ch))
        = (allCells slots).filter (fun c =>
            (decide (st.cellLetter c = some ch)) ||
            (decide (c ∈ ((s.cells.zip w).filter
              (fun p => decide (st.cellUsage p.1 = 0) && decide (p.2 = ch))).map Prod.fst))) :=
      List.filter_congr hpt
    have hdisj : ∀ c ∈ allCells slots,
        ¬((decide (st.cellLetter c = some ch)) = true ∧
          (decide (c ∈ ((s.cells.zip w).filter
            (fun p => decide (st.cellUsage p.1 = 0) && decide (p.2 = ch))).map Prod.fst)) = true) := by
      rintro c _ ⟨h1, h2⟩
      simp only [decide_eq_true_eq] at h1 h2
      obtain ⟨p, hpmem, hpc⟩ := List.mem_map.mp h2
      have hcond := (List.mem_filter.mp hpmem).2
      simp only [Bool.and_eq_true, decide_eq_true_eq] at hcond
      have : st.cellLetter c = none := by
        apply (inv_letter_none_iff hinv c).mpr
        rw [← hpc]
        exact hcond.1
      rw [this] at h1
      cases h1
    have hcount : ((allCells slots).filter
        (fun c => decide ((place slots st sid w).cellLetter c = some ch))).length
        = ((allCells slots).filter (fun c => decide (st.cellLetter c = some ch))).length
          + ((s.cells.zip w).filter
            (fun p => decide (st.cellUsage p.1 = 0) && decide (p.2 = ch))).length := by
      rw [hfilterP, filter_or_length _ _ _ hdisj]
      have h2 : ((allCells slots).filter (fun c =>
          decide (c ∈ ((s.cells.zip w).filter
            (fun p => decide (st.cellUsage p.1 = 0) && decide (p.2 = ch))).map Prod.fst))).length
          = (((s.cells.zip w).filter
            (fun p => decide (st.cellUsage p.1 = 0) && decide (p.2 = ch))).map Prod.fst).length :=
        filter_pred_length _ _ _ (fun a => by simp) (allCells_nodup slots) hnodupNew hsubNew
      rw [h2, List.length_map]
    rw [hcount]
    push_cast
    ring
  · intro ch
    rw [place_budget hby hkeys ch]
    by_cases hn : ((s.cells.zip w).filter
        (fun p => decide (st.cellUsage p.1 = 0) && decide (p.2 = ch))).length = 0
    · rw [hn]
      have := hinv.budget_nonneg ch
      omega
    · have hpos : 0 < ((s.cells.zip w).filter
          (fun p => decide (st.cellUsage p.1 = 0) && decide (p.2 = ch))).length :=
        Nat.pos_of_ne_zero hn
      obtain ⟨p0, hp0⟩ := List.exists_mem_of_length_pos hpos
      have hp0ps : p0 ∈ s.cells.zip w := List.mem_of_mem_filter hp0
      have hp0cond := (List.mem_filter.mp hp0).2
      simp only [Bool.and_eq_true, decide_eq_true_eq] at hp0cond
      have hlnone : st.cellLetter p0.1 = none :=
        (inv_letter_none_iff hinv _).mpr hp0cond.1
      have hchmem : ch ∈ ((s.cells.zip w).filter
          (fun p => (st.cellLetter p.1).isNone)).map Prod.snd := by
        apply List.mem_map.mpr
        exact ⟨p0, List.mem_filter.mpr ⟨hp0ps, by simp [hlnone]⟩, hp0cond.2⟩
      have hle := hneed ch hchmem
      have hbooleq : ∀ p ∈ s.cells.zip w,
          (st.cellLetter p.1).isNone = decide (st.cellUsage p.1 = 0) := by
        intro p _
        by_cases hu : st.cellUsage p.1 = 0
        · simp [(inv_letter_none_iff hinv _).mpr hu, hu]
        · have hne : st.cellLetter p.1 ≠ none :=
            fun hh => hu ((inv_letter_none_iff hinv _).mp hh)
          rcases hopt : st.cellLetter p.1 with _ | c0
          · exact absurd hopt hne
          · simp [hu]
      have hceq : ((((s.cells.zip w).filter
          (fun p => (st.cellLetter p.1).isNone)).map Prod.snd).count ch)
          = ((s.cells.zip w).filter
            (fun p => decide (st.cellUsage p.1 = 0) && decide (p.2 = ch))).length := by
        rw [count_map_snd, List.filter_filter]
        congr 1
        apply List.filter_congr
        intro p hp
        rw [hbooleq p hp]
        exact Bool.and_comm _ _
      rw [hceq] at hle
      omega
  · intro x hx wa wb hwa hwb
    rw [hlookupP] at hwa hwb
    by_cases ha : x.slot_a = sid
    · by_cases hb : x.slot_b = sid
      · exact absurd (ha.trans hb.symm) (hwf.inter_ne x hx)
      · rw [if_pos ha] at hwa
        cases hwa
        rw [if_neg hb] at hwb
        have hmem : (x.slot_b, x.pos_a, x.pos_b) ∈ crossOf inters sid := by
          apply List.mem_flatMap.mpr
          refine ⟨x, hx, ?_⟩
          simp [ha]
        exact hcross _ hmem wb hwb
    · by_cases hb : x.slot_b = sid
      · rw [if_pos hb] at hwb
        cases hwb
        rw [if_neg ha] at hwa
        have hmem : (x.slot_a, x.pos_b, x.pos_a) ∈ crossOf inters sid := by
          apply List.mem_flatMap.mpr
          refine ⟨x, hx, ?_⟩
          simp [ha, hb]
        exact (hcross _ hmem wa hwa).symm
      · rw [if_neg ha] at hwa
        rw [if_neg hb] at hwb
        exact hinv.cross_ok x hx wa wb hwa hwb

theorem unplaceCells_fields_congr (ps : List (Cell × Char)) (st1 st2 : SState)
    (h1 : st1.budget = st2.budget) (h2 : st1.cellLetter = st2.cellLetter)
    (h3 : st1.cellUsage = st2.cellUsage) :
    (unplaceCells ps st1).budget = (unplaceCells ps st2).budget ∧
    (unplaceCells ps st1).cellLetter = (unplaceCells ps st2).cellLetter ∧
    (unplaceCells ps st1).cellUsage = (unplaceCells ps st2).cellUsage := by
  induction ps generalizing st1 st2 with
  | nil => exact ⟨h1, h2, h3⟩
  | cons p ps ih =>
    simp only [unplaceCells]
    rw [h1, h2, h3]
    by_cases hcond : st2.cellUsage p.1 - 1 = 0
    · rw [if_pos hcond, if_pos hcond]
      exact ih _ _ rfl rfl rfl
    · rw [if_neg hcond, if_neg hcond]
      exact ih _ _ rfl rfl rfl

/-- The four core fields of the state after `unplace` depend only on the
four core fields before it; `solutions` and `seen` pass through. -/
theorem unplace_fields_congr {slots : List Slot} {sid w : Str} (st1 st2 : SState)
    (h1 : st1.budget = st2.budget) (h2 : st1.cellLetter = st2.cellLetter)
    (h3 : st1.cellUsage = st2.cellUsage) (h4 : st1.sol = st2.sol) :
    (unplace slots st1 sid w).budget = (unplace slots st2 sid w).budget ∧
    (unplace slots st1 sid w).cellLetter = (unplace slots st2 sid w).cellLetter ∧
    (unplace slots st1 sid w).cellUsage = (unplace slots st2 sid w).cellUsage ∧
    (unplace slots st1 sid w).sol = (unplace slots st2 sid w).sol := by
  cases hby : by_id slots sid with
  | none => simp only [unplace, hby]; exact ⟨h1, h2, h3, h4⟩
  | some s =>
    simp only [unplace, hby]
    obtain ⟨f1, f2, f3⟩ := unplaceCells_fields_congr (s.cells.zip w) st1 st2 h1 h2 h3
    refine ⟨f1, f2, f3, ?_⟩
    rw [unplaceCells_sol, unplaceCells_sol, h4]

theorem unplace_solutions {slots : List Slot} {sid w : Str} (st : SState) :
    (unplace slots st sid w).solutions = st.solutions := by
  cases hby : by_id slots sid with
  | none => simp only [unplace, hby]
  | some s => simp only [unplace, hby, unplaceCells_solutions]

theorem unplace_seen {slots : List Slot} {sid w : Str} (st : SState) :
    (unplace slots st sid w).seen = st.seen := by
  cases hby : by_id slots sid with
  | none => simp only [unplace, hby]
  | some s => simp only [unplace, hby, unplaceCells_seen]

/-- The search invariant only depends on the four core state fields. -/
theorem inv_transport {slots inters phrase cand placed} {st st' : SState}
    (hinv : SearchInv slots inters phrase cand placed st)
    (h1 : st'.budget = st.budget) (h2 : st'.cellLetter = st.cellLetter)
    (h3 : st'.cellUsage = st.cellUsage) (h4 : st'.sol = st.sol) :
    SearchInv slots inters phrase cand placed st' := by
  refine
    { keys_eq := by rw [h4]; exact hinv.keys_eq
      vals := by rw [h4]; exact hinv.vals
      usage_eq := by rw [h3]; exact hinv.usage_eq
      letter_placed := by rw [h4, h2]; exact hinv.letter_placed
      letter_dom := by rw [h2, h3]; exact hinv.letter_dom
      budget_eq := by rw [h1, h2]; exact hinv.budget_eq
      budget_nonneg := by rw [h1]; exact hinv.budget_nonneg
      cross_ok := by rw [h4]; exact hinv.cross_ok }

theorem ids_perm (slots : List Slot) (inters : List InterRec) (cand : Str → List Str) :
    (ids slots inters cand).Perm (slots.map (·.id)) := by
  unfold ids order_slots
  exact (isort_perm (slotKeyLt cand (inter_count inters)) slots).map (fun s : Slot => s.id)

theorem ids_nodup {slots : List Slot} {inters : List InterRec} {cand : Str → List Str}
    (h : (slots.map (·.id)).Nodup) : (ids slots inters cand).Nodup :=
  ((ids_perm slots inters cand).nodup_iff).mpr h

theorem by_id_isSome_of_mem_ids {slots : List Slot} {inters : List InterRec}
    {cand : Str → List Str} {sid : Str} (h : sid ∈ ids slots inters cand) :
    ∃ s, by_id slots sid = some s := by
  have : sid ∈ slots.map (·.id) := (ids_perm slots inters cand).mem_iff.mp h
  obtain ⟨s, hs, rfl⟩ := List.mem_map.mp this
  have : (by_id slots s.id).isSome := by
    rw [by_id, List.find?_isSome]
    exact ⟨s, hs, by simp⟩
  exact Option.isSome_iff_exists.mp this

theorem init_inv (slots : List Slot) (inters : List InterRec) (phrase : Str)
    (cand : Str → List Str) :
    SearchInv slots inters phrase cand [] (initState phrase) := by
  refine
    { keys_eq := rfl
      vals := ?_
      usage_eq := ?_
      letter_placed := ?_
      letter_dom := ?_
      budget_eq := ?_
      budget_nonneg := ?_
      cross_ok := ?_ }
  · intro sid wv h
    simp [dlookup] at h
  · intro cell
    simp [initState, usageCount]
  · intro sid wv s h
    simp [dlookup] at h
  · intro cell h
    simp [initState] at h
  · intro ch
    have : (allCells slots).filter
        (fun c => decide ((initState phrase).cellLetter c = some ch)) = [] := by
      apply List.filter_eq_nil_iff.mpr
      intro c _
      simp [initState]
    rw [this]
    simp [initState]
  · intro ch
    show (0 : Int) ≤ ((phrase.count ch : Nat) : Int)
    exact Int.natCast_nonneg _
  · intro x hx wa wb hwa
    simp [dlookup] at hwa

theorem int_nonneg_sum_zero {l : List Int} (hnn : ∀ x ∈ l, 0 ≤ x)
    (hsum : l.sum = 0) : ∀ x ∈ l, x = 0 := by
  induction l with
  | nil => simp
  | cons a l ih =>
    simp only [List.sum_cons] at hsum
    have ha : 0 ≤ a := hnn a (List.mem_cons_self a l)
    have hl : 0 ≤ l.sum := by
      apply List.sum_nonneg
      intro x hx
      exact hnn x (List.mem_cons_of_mem a hx)
    intro x hx
    rcases List.mem_cons.mp hx with rfl | hx'
    · omega
    · exact ih (fun y hy => hnn y (List.mem_cons_of_mem a hy)) (by omega) x hx'

theorem count_filterMap_eq (A : List Cell) (g : Cell → Option Char) (ch : Char) :
    ((A.filterMap g).count ch) = (A.filter (fun c => decide (g c = some ch))).length := by
  induction A with
  | nil => rfl
  | cons c A ih =>
    simp only [List.filterMap_cons, List.filter_cons]
    cases hg : g c with
    | none =>
      have : ¬(g c = some ch) := by rw [hg]; simp
      simp only [decide_eq_true_eq, this, if_false, Bool.false_eq_true]
      exact ih
    | some x =>
      by_cases hx : x = ch
      · subst hx
        have : (g c = some x) := hg
        simp [List.count_cons, this, ih]
      · have : ¬(g c = some ch) := by rw [hg]; simp [hx]
        simp [List.count_cons, this, ih, hx]

/-- What claim C1 asserts of an emitted solution: every slot is assigned a
candidate word; crossing letters agree; every grid cell carries a letter;
and the multiset of letters over the grid cells (each cell counted once)
is exactly the phrase's letter multiset. -/
def GoodSol (slots : List Slot) (inters : List InterRec) (phrase : Str)
    (cand : Str → List Str) (sol : List (Str × Str)) : Prop :=
  (∀ s ∈ slots, ∃ wv, dlookup sol s.id = some wv ∧ wv ∈ cand s.id) ∧
  (∀ x ∈ inters, ∀ wa wb, dlookup sol x.slot_a = some wa →
    dlookup sol x.slot_b = some wb → wa.getD x.pos_a 'A' = wb.getD x.pos_b 'A') ∧
  (∀ cell ∈ allCells slots, (cellWordOf slots sol cell).isSome) ∧
  (∀ ch, ((allCells slots).filterMap (cellWordOf slots sol)).count ch = phrase.count ch)

theorem mem_keysCh_of_phrase {slots : List Slot} {inters : List InterRec}
    {phrase : Str} {cand : Str → List Str} {ch : Char} (h : ch ∈ phrase) :
    ch ∈ keysCh slots inters phrase cand := by
  simp only [keysCh, List.mem_dedup, List.mem_append]
  exact Or.inl h

theorem mem_keysCh_of_cand {slots : List Slot} {inters : List InterRec}
    {phrase : Str} {cand : Str → List Str} {sid wv : Str} {ch : Char}
    (hsid : sid ∈ ids slots inters cand) (hw : wv ∈ cand sid) (hch : ch ∈ wv) :
    ch ∈ keysCh slots inters phrase cand := by
  simp only [keysCh, List.mem_dedup, List.mem_append]
  right
  apply List.mem_flatMap.mpr
  refine ⟨sid, hsid, ?_⟩
  apply List.mem_flatten.mpr
  exact ⟨wv, hw, hch⟩

theorem by_id_eq_of_mem {slots : List Slot} (hnd : (slots.map (·.id)).Nodup)
    {s : Slot} (hs : s ∈ slots) : by_id slots s.id = some s := by
  induction slots with
  | nil => simp at hs
  | cons t ts ih =>
    simp only [List.map_cons, List.nodup_cons] at hnd
    obtain ⟨ht, hnd'⟩ := hnd
    rcases List.mem_cons.mp hs with rfl | hs'
    · apply List.find?_cons_of_pos
      simp
    · have hne : ¬(t.id = s.id) := by
        intro he
        exact ht (he ▸ List.mem_map_of_mem _ hs')
      rw [by_id, List.find?_cons_of_neg _ (by simpa using hne)]
      exact ih hnd' hs'

theorem goal_budget_zero {slots : List Slot} {inters : List InterRec}
    {phrase : Str} {cand : Str → List Str} {placed : List Str} {st : SState}
    (hwf : WF slots inters cand)
    (hinv : SearchInv slots inters phrase cand placed st)
    (hsub : ∀ sid ∈ placed, sid ∈ ids slots inters cand)
    (hgt : goalTest slots inters phrase cand st = true) :
    ∀ ch, st.budget ch = 0 := by
  rw [goalTest, Bool.and_eq_true] at hgt
  obtain ⟨hall, hsum⟩ := hgt
  have hall' : ∀ c ∈ keysCh slots inters phrase cand, 0 ≤ st.budget c := by
    intro c hc
    have := List.all_eq_true.mp hall c hc
    simpa using this
  have hsum' : ((keysCh slots inters phrase cand).map st.budget).sum = 0 := by
    simpa using hsum
  have hzero : ∀ c ∈ keysCh slots inters phrase cand, st.budget c = 0 := by
    intro c hc
    refine int_nonneg_sum_zero ?_ hsum' _ (List.mem_map_of_mem _ hc)
    rintro x hx
    obtain ⟨c', hc', rfl⟩ := List.mem_map.mp hx
    exact hall' c' hc'
  intro ch
  by_cases hk : ch ∈ keysCh slots inters phrase cand
  · exact hzero ch hk
  · rw [hinv.budget_eq]
    have hp0 : phrase.count ch = 0 := by
      rw [List.count_eq_zero]
      intro hmem
      exact hk (mem_keysCh_of_phrase hmem)
    have hf0 : ((allCells slots).filter
        (fun c => decide (st.cellLetter c = some ch))) = [] := by
      apply List.filter_eq_nil_iff.mpr
      intro c _
      simp only [decide_eq_true_eq]
      intro hlet
      have hpos : 0 < st.cellUsage c := hinv.letter_dom c (by rw [hlet]; rfl)
      obtain ⟨sid, hsid, s, hby, hmem⟩ := (inv_usage_pos_iff hinv c).mp hpos
      have hkey : sid ∈ st.sol.map Prod.fst := hinv.keys_eq ▸ hsid
      obtain ⟨wv, hwv⟩ := dlookup_isSome_of_mem_keys hkey
      obtain ⟨k, hk', hke⟩ := List.mem_iff_getElem.mp hmem
      have hlp := hinv.letter_placed sid wv s hwv hby k hk'
      rw [List.getD_eq_getElem s.cells (0,0) hk', hke, hlet] at hlp
      have hch : ch = wv.getD k 'A' := by
        injection hlp
      have hsid2 : s.id = sid := by simpa using List.find?_some hby
      have hsmem : s ∈ slots := List.mem_of_find?_eq_some hby
      have hwcnd : wv ∈ cand sid := hinv.vals sid wv hwv
      have hklen : k < wv.length := by
        rw [hwf.cand_len s hsmem wv (hsid2 ▸ hwcnd)]
        exact hk'
      have hchw : wv.getD k 'A' ∈ wv := by
        rw [List.getD_eq_getElem wv 'A' hklen]
        exact List.getElem_mem hklen
      exact hk (mem_keysCh_of_cand (hsub sid hsid) hwcnd (hch ▸ hchw))
    rw [hp0, hf0]
    simp

theorem goal_good {slots : List Slot} {inters : List InterRec}
    {phrase : Str} {cand : Str → List Str} {st : SState}
    (hwf : WF slots inters cand)
    (hinv : SearchInv slots inters phrase cand (ids slots inters cand) st)
    (hgt : goalTest slots inters phrase cand st = true) :
    GoodSol slots inters phrase cand st.sol := by
  have hzero := goal_budget_zero hwf hinv (fun _ h => h) hgt
  have hcomplete : ∀ s ∈ slots, ∃ wv, dlookup st.sol s.id = some wv ∧ wv ∈ cand s.id := by
    intro s hs
    have hmemids : s.id ∈ ids slots inters cand :=
      (ids_perm slots inters cand).mem_iff.mpr (List.mem_map_of_mem _ hs)
    have hkey : s.id ∈ st.sol.map Prod.fst := hinv.keys_eq ▸ hmemids
    obtain ⟨wv, hwv⟩ := dlookup_isSome_of_mem_keys hkey
    exact ⟨wv, hwv, hinv.vals _ _ hwv⟩
  have hcw : ∀ cell ∈ allCells slots,
      cellWordOf slots st.sol cell = st.cellLetter cell := by
    intro cell hcell
    have hex : ∃ s ∈ slots, decide (cell ∈ s.cells) = true := by
      obtain ⟨s, hs, hm⟩ := mem_allCells.mp hcell
      exact ⟨s, hs, by simpa using hm⟩
    have hfs : (slots.find? (fun s => decide (cell ∈ s.cells))).isSome :=
      List.find?_isSome.mpr hex
    obtain ⟨s0, hs0⟩ := Option.isSome_iff_exists.mp hfs
    have hs0mem : s0 ∈ slots := List.mem_of_find?_eq_some hs0
    have hs0cell : cell ∈ s0.cells := by simpa using List.find?_some hs0
    obtain ⟨wv, hwv, _⟩ := hcomplete s0 hs0mem
    simp only [cellWordOf, hs0, hwv]
    have hklt : s0.cells.findIdx (fun c => decide (c = cell)) < s0.cells.length :=
      List.findIdx_lt_length_of_exists ⟨cell, hs0cell, by simp⟩
    have hkc : s0.cells.getD (s0.cells.findIdx (fun c => decide (c = cell))) (0,0)
        = cell := by
      rw [List.getD_eq_getElem _ _ hklt]
      have := List.findIdx_getElem (w := hklt)
      simpa using this
    have hlp := hinv.letter_placed s0.id wv s0 hwv
      (by_id_eq_of_mem hwf.ids_nodup hs0mem) _ hklt
    rw [hkc] at hlp
    exact hlp.symm
  refine ⟨hcomplete, hinv.cross_ok, ?_, ?_⟩
  · intro cell hcell
    rw [hcw cell hcell]
    obtain ⟨s, hs, hm⟩ := mem_allCells.mp hcell
    have hpos : 0 < st.cellUsage cell := (inv_usage_pos_iff hinv cell).mpr
      ⟨s.id, (ids_perm slots inters cand).mem_iff.mpr (List.mem_map_of_mem _ hs),
        s, by_id_eq_of_mem hwf.ids_nodup hs, hm⟩
    exact inv_letter_of_usage hinv cell hpos
  · intro ch
    rw [count_filterMap_eq]
    have hfc : (allCells slots).filter
        (fun c => decide (cellWordOf slots st.sol c = some ch))
        = (allCells slots).filter (fun c => decide (st.cellLetter c = some ch)) := by
      apply List.filter_congr
      intro c hc
      rw [hcw c hc]
    rw [hfc]
    have hbe := hinv.budget_eq ch
    rw [hzero ch] at hbe
    omega

/-- Relation between the state before and after a sub-search: the four
core fields are restored, `seen` only grows, and `solutions` only grows by
good solutions. -/
def StepOk (slots : List Slot) (inters : List InterRec) (phrase : Str)
    (cand : Str → List Str) (st st' : SState) : Prop :=
  st'.budget = st.budget ∧ st'.cellLetter = st.cellLetter ∧
  st'.cellUsage = st.cellUsage ∧ st'.sol = st.sol ∧
  (∃ pre, st'.seen = st.seen ++ pre) ∧
  (∃ new, st'.solutions = st.solutions ++ new ∧
    ∀ so ∈ new, GoodSol slots inters phrase cand so)

theorem stepOk_refl (slots : List Slot) (inters : List InterRec) (phrase : Str)
    (cand : Str → List Str) (st : SState) :
    StepOk slots inters phrase cand st st :=
  ⟨rfl, rfl, rfl, rfl, ⟨[], by simp⟩, ⟨[], by simp, fun _ h => absurd h (List.not_mem_nil _)⟩⟩

theorem stepOk_trans {slots : List Slot} {inters : List InterRec} {phrase : Str}
    {cand : Str → List Str} {a b c : SState}
    (h1 : StepOk slots inters phrase cand a b)
    (h2 : StepOk slots inters phrase cand b c) :
    StepOk slots inters phrase cand a c := by
  obtain ⟨b1, b2, b3, b4, ⟨p1, hp1⟩, n1, hn1, hg1⟩ := h1
  obtain ⟨c1, c2, c3, c4, ⟨p2, hp2⟩, n2, hn2, hg2⟩ := h2
  refine ⟨c1.trans b1, c2.trans b2, c3.trans b3, c4.trans b4,
    ⟨p1 ++ p2, by rw [hp2, hp1, List.append_assoc]⟩,
    n1 ++ n2, by rw [hn2, hn1, List.append_assoc], ?_⟩
  intro so hso
  rcases List.mem_append.mp hso with h | h
  · exact hg1 so h
  · exact hg2 so h

theorem dfsRun_spec (slots : List Slot) (inters : List InterRec) (phrase : Str)
    (cand : Str → List Str) (maxSols : Nat) (hwf : WF slots inters cand) :
    ∀ (rest : List Str) (st : SState) (placed : List Str),
      ids slots inters cand = placed ++ rest →
      SearchInv slots inters phrase cand placed st →
      StepOk slots inters phrase cand st
        (dfsRun slots inters phrase cand maxSols rest st) := by
  intro rest
  induction rest with
  | nil =>
    intro st placed hdec hinv
    simp only [dfsRun]
    by_cases hcap : maxSols ≤ st.solutions.length
    · rw [if_pos hcap]
      exact stepOk_refl slots inters phrase cand st
    · rw [if_neg hcap]
      by_cases hgt : goalTest slots inters phrase cand st = true
      · rw [if_pos hgt]
        by_cases hseen : class_signature slots inters st.sol ∈ st.seen
        · rw [if_pos hseen]
          exact stepOk_refl slots inters phrase cand st
        · rw [if_neg hseen]
          refine ⟨rfl, rfl, rfl, rfl, ⟨[class_signature slots inters st.sol], rfl⟩,
            [st.sol], rfl, ?_⟩
          intro so hso
          rcases List.mem_singleton.mp hso with rfl
          have hplaced : placed = ids slots inters cand := by
            rw [hdec, List.append_nil]
          rw [hplaced] at hinv
          exact goal_good hwf hinv hgt
      · rw [if_neg hgt]
        exact stepOk_refl slots inters phrase cand st
  | cons sid rest ih =>
    intro st placed hdec hinv
    have htry : ∀ ws, (∀ v ∈ ws, v ∈ cand sid) →
        ∀ st' placed', ids slots inters cand = placed' ++ sid :: rest →
        SearchInv slots inters phrase cand placed' st' →
        StepOk slots inters phrase cand st'
          (tryWords slots inters phrase cand maxSols sid ws rest st') := by
      intro ws
      induction ws with
      | nil =>
        intro _ st' placed' _ _
        simp only [tryWords]
        exact stepOk_refl slots inters phrase cand st'
      | cons w ws ihw =>
        intro hws st' placed' hdec' hinv'
        simp only [tryWords]
        by_cases hcp : can_place slots inters cand st' sid w = true
        · rw [if_pos hcp]
          have hsidmem : sid ∈ ids slots inters cand := by
            rw [hdec']
            simp
          obtain ⟨s, hby⟩ := by_id_isSome_of_mem_ids hsidmem
          have hnodupids : (ids slots inters cand).Nodup := ids_nodup hwf.ids_nodup
          have hnp : sid ∉ placed' := by
            rw [hdec'] at hnodupids
            obtain h := List.nodup_append.mp hnodupids
            intro hmem
            exact h.2.2 hmem (List.mem_cons_self sid rest)
          have hwc : w ∈ cand sid := hws w (List.mem_cons_self w ws)
          have hinv1 := place_inv hwf hinv' hby hnp hwc hcp
          have hstep2 := ih (place slots st' sid w) (placed' ++ [sid])
            (by rw [hdec', List.append_assoc]; rfl) hinv1
          obtain ⟨hb2, hl2, hu2, hs2, ⟨pre2, hpre2⟩, new2, hnew2, hgood2⟩ := hstep2
          obtain ⟨hrt, _⟩ := place_unplace_roundtrip slots st' sid w s hby
            (hwf.cells_nodup s (List.mem_of_find?_eq_some hby))
            (by rw [dlookup_eq_none_iff, hinv'.keys_eq]; exact hnp)
            (fun p _ hu => (inv_letter_none_iff hinv' p.1).mpr hu)
          obtain ⟨hc1, hc2, hc3, hc4⟩ := @unplace_fields_congr slots sid w
            (dfsRun slots inters phrase cand maxSols rest (place slots st' sid w))
            (place slots st' sid w) hb2 hl2 hu2 hs2
          rw [hrt] at hc1 hc2 hc3 hc4
          have hsolu3 : (unplace slots
              (dfsRun slots inters phrase cand maxSols rest (place slots st' sid w))
              sid w).solutions = st'.solutions ++ new2 := by
            rw [unplace_solutions, hnew2, place_solutions hby]
          have hseen3 : (unplace slots
              (dfsRun slots inters phrase cand maxSols rest (place slots st' sid w))
              sid w).seen = st'.seen ++ pre2 := by
            rw [unplace_seen, hpre2, place_seen hby]
          have hstep13 : StepOk slots inters phrase cand st'
              (unplace slots
                (dfsRun slots inters phrase cand maxSols rest (place slots st' sid w))
                sid w) :=
            ⟨hc1, hc2, hc3, hc4, ⟨pre2, hseen3⟩, new2, hsolu3, hgood2⟩
          by_cases hcap3 : maxSols ≤ (unplace slots
              (dfsRun slots inters phrase cand maxSols rest (place slots st' sid w))
              sid w).solutions.length
          · rw [if_pos hcap3]
            exact hstep13
          · rw [if_neg hcap3]
            have hinv3 : SearchInv slots inters phrase cand placed'
                (unplace slots
                  (dfsRun slots inters phrase cand maxSols rest (place slots st' sid w))
                  sid w) :=
              inv_transport hinv' hc1 hc2 hc3 hc4
            exact stepOk_trans hstep13
              (ihw (fun v hv => hws v (List.mem_cons_of_mem w hv)) _ placed' hdec' hinv3)
        · rw [if_neg hcp]
          exact ihw (fun v hv => hws v (List.mem_cons_of_mem w hv)) st' placed' hdec' hinv'
    simp only [dfsRun]
    by_cases hcap : maxSols ≤ st.solutions.length
    · rw [if_pos hcap]
      exact stepOk_refl slots inters phrase cand st
    · rw [if_neg hcap]
      exact htry (cand sid) (fun _ hv => hv) st placed hdec hinv

theorem place_solutions_any (slots : List Slot) (st : SState) (sid w : Str) :
    (place slots st sid w).solutions = st.solutions := by
  cases hby : by_id slots sid with
  | none => simp only [place, hby]
  | some s => simp only [place, hby, placeCells_solutions]

theorem place_seen_any (slots : List Slot) (st : SState) (sid w : Str) :
    (place slots st sid w).seen = st.seen := by
  cases hby : by_id slots sid with
  | none => simp only [place, hby]
  | some s => simp only [place, hby, placeCells_seen]

/-- Signature bookkeeping invariant: recorded solutions have pairwise
distinct signatures, and each recorded signature is in `seen`. -/
def SeenOK (slots : List Slot) (inters : List InterRec) (st : SState) : Prop :=
  (st.solutions.map (class_signature slots inters)).Nodup ∧
  ∀ so ∈ st.solutions, class_signature slots inters so ∈ st.seen

theorem seenOK_transport {slots : List Slot} {inters : List InterRec}
    {st st' : SState} (h1 : st'.solutions = st.solutions) (h2 : st'.seen = st.seen)
    (h : SeenOK slots inters st) : SeenOK slots inters st' := by
  constructor
  · rw [h1]; exact h.1
  · rw [h1, h2]; exact h.2

theorem dfsRun_seen (slots : List Slot) (inters : List InterRec) (phrase : Str)
    (cand : Str → List Str) (maxSols : Nat) :
    ∀ (rest : List Str) (st : SState), SeenOK slots inters st →
      SeenOK slots inters (dfsRun slots inters phrase cand maxSols rest st) ∧
      ∃ pre, (dfsRun slots inters phrase cand maxSols rest st).seen = st.seen ++ pre := by
  intro rest
  induction rest with
  | nil =>
    intro st hok
    simp only [dfsRun]
    by_cases hcap : maxSols ≤ st.solutions.length
    · rw [if_pos hcap]
      exact ⟨hok, [], by simp⟩
    · rw [if_neg hcap]
      by_cases hgt : goalTest slots inters phrase cand st = true
      · rw [if_pos hgt]
        by_cases hseen : class_signature slots inters st.sol ∈ st.seen
        · rw [if_pos hseen]
          exact ⟨hok, [], by simp⟩
        · rw [if_neg hseen]
          refine ⟨⟨?_, ?_⟩, [class_signature slots inters st.sol], rfl⟩
          · rw [List.map_append]
            apply List.Nodup.append hok.1 (by simp)
            intro a ha hb
            simp only [List.map_cons, List.map_nil, List.mem_singleton] at hb
            obtain ⟨so, hso, hsig⟩ := List.mem_map.mp ha
            exact hseen (hb ▸ hsig ▸ hok.2 so hso)
          · intro so hso
            rcases List.mem_append.mp hso with h | h
            · exact List.mem_append.mpr (Or.inl (hok.2 so h))
            · rcases List.mem_singleton.mp h with rfl
              exact List.mem_append.mpr (Or.inr (by simp))
      · rw [if_neg hgt]
        exact ⟨hok, [], by simp⟩
  | cons sid rest ih =>
    intro st hok
    have htry : ∀ (ws : List Str) (st' : SState), SeenOK slots inters st' →
        SeenOK slots inters (tryWords slots inters phrase cand maxSols sid ws rest st') ∧
        ∃ pre, (tryWords slots inters phrase cand maxSols sid ws rest st').seen
          = st'.seen ++ pre := by
      intro ws
      induction ws with
      | nil =>
        intro st' h
        simp only [tryWords]
        exact ⟨h, [], by simp⟩
      | cons w ws ihw =>
        intro st' hok'
        simp only [tryWords]
        by_cases hcp : can_place slots inters cand st' sid w = true
        · rw [if_pos hcp]
          have hok1 : SeenOK slots inters (place slots st' sid w) :=
            seenOK_transport (place_solutions_any slots st' sid w)
              (place_seen_any slots st' sid w) hok'
          obtain ⟨hok2, pre2, hpre2⟩ := ih (place slots st' sid w) hok1
          have hok3 : SeenOK slots inters (unplace slots
              (dfsRun slots inters phrase cand maxSols rest (place slots st' sid w))
              sid w) :=
            seenOK_transport (unplace_solutions _) (unplace_seen _) hok2
          have hseen3 : (unplace slots
              (dfsRun slots inters phrase cand maxSols rest (place slots st' sid w))
              sid w).seen = st'.seen ++ pre2 := by
            rw [unplace_seen, hpre2, place_seen_any]
          by_cases hcap3 : maxSols ≤ (unplace slots
              (dfsRun slots inters phrase cand maxSols rest (place slots st' sid w))
              sid w).solutions.length
          · rw [if_pos hcap3]
            exact ⟨hok3, pre2, hseen3⟩
          · rw [if_neg hcap3]
            obtain ⟨hok4, pre4, hpre4⟩ := ihw _ hok3
            exact ⟨hok4, pre2 ++ pre4, by rw [hpre4, hseen3, List.append_assoc]⟩
        · rw [if_neg hcp]
          exact ihw st' hok'
    simp only [dfsRun]
    by_cases hcap : maxSols ≤ st.solutions.length
    · rw [if_pos hcap]
      exact ⟨hok, [], by simp⟩
    · rw [if_neg hcap]
      exact htry (cand sid) st hok

/-- Soundness of the solver (shared helper): every returned solution is a
good solution. -/
theorem find_solutions_good {slots : List Slot} {inters : List InterRec}
    {phrase : Str} {cand : Str → List Str} {maxSols : Nat}
    (hwf : WF slots inters cand) :
    ∀ sol ∈ find_solutions_for_grid slots inters phrase cand maxSols,
      GoodSol slots inters phrase cand sol := by
  intro sol hsol
  have hspec := dfsRun_spec slots inters phrase cand maxSols hwf
    (ids slots inters cand) (initState phrase) [] (by simp)
    (init_inv slots inters phrase cand)
  obtain ⟨_, _, _, _, _, new, hnew, hgood⟩ := hspec
  rw [find_solutions_for_grid, hnew] at hsol
  have : (initState phrase).solutions = [] := rfl
  rw [this, List.nil_append] at hsol
  exact hgood sol hsol

/-- C1: on well-formed solver input, every solution returned by
`find_solutions_for_grid` assigns a candidate word to every slot, the two
contributing letters at every crossing agree, every grid cell carries a
letter, and the multiset of letters over all grid cells — each cell
counted exactly once no matter how many slots touch it — equals exactly
the phrase's letter multiset, with no surplus and no shortfall. -/
theorem find_solutions_for_grid_sound (slots : List Slot) (inters : List InterRec)
    (phrase : Str) (cand : Str → List Str) (maxSols : Nat)
    (hwf : WF slots inters cand) :
    ∀ sol ∈ find_solutions_for_grid slots inters phrase cand maxSols,
      (∀ s ∈ slots, ∃ wv, dlookup sol s.id = some wv ∧ wv ∈ cand s.id) ∧
      (∀ x ∈ inters, ∀ wa wb, dlookup sol x.slot_a = some wa →
        dlookup sol x.slot_b = some wb → wa.getD x.pos_a 'A' = wb.getD x.pos_b 'A') ∧
      (∀ cell ∈ allCells slots, (cellWordOf slots sol cell).isSome) ∧
      (∀ ch, ((allCells slots).filterMap (cellWordOf slots sol)).count ch
        = phrase.count ch) :=
  fun sol hsol => find_solutions_good hwf sol hsol

theorem find_solutions_for_grid_sound_witness :
    (WF [wslotH, wslotV] [winter] wcand) ∧
    (∀ sol ∈ find_solutions_for_grid [wslotH, wslotV] [winter] wphrase wcand 5,
      (∀ s ∈ [wslotH, wslotV], ∃ wv, dlookup sol s.id = some wv ∧ wv ∈ wcand s.id) ∧
      (∀ x ∈ [winter], ∀ wa wb, dlookup sol x.slot_a = some wa →
        dlookup sol x.slot_b = some wb → wa.getD x.pos_a 'A' = wb.getD x.pos_b 'A') ∧
      (∀ cell ∈ allCells [wslotH, wslotV],
        (cellWordOf [wslotH, wslotV] sol cell).isSome) ∧
      (∀ ch, ((allCells [wslotH, wslotV]).filterMap
        (cellWordOf [wslotH, wslotV] sol)).count ch = wphrase.count ch)) :=
  ⟨⟨by decide, by decide, by decide, by decide⟩,
    find_solutions_for_grid_sound [wslotH, wslotV] [winter] wphrase wcand 5
      ⟨by decide, by decide, by decide, by decide⟩⟩

/-- C3: no two solutions returned by one run of `find_solutions_for_grid`
share the same canonical per-equivalence-class sorted-word signature; a
goal state whose signature was already seen is not recorded. -/
theorem find_solutions_signatures_nodup (slots : List Slot) (inters : List InterRec)
    (phrase : Str) (cand : Str → List Str) (maxSols : Nat) :
    ((find_solutions_for_grid slots inters phrase cand maxSols).map
      (class_signature slots inters)).Nodup := by
  have h := dfsRun_seen slots inters phrase cand maxSols (ids slots inters cand)
    (initState phrase)
    ⟨by simp [initState], fun so hso => absurd hso (by simp [initState])⟩
  exact h.1.1

/-- C9: in every state satisfying the search invariant, the letter budget
is componentwise non-negative and conserved — `budget[ch]` plus the number
of distinct cells currently mapped to `ch` equals the phrase's count of
`ch` — so the `all(v >= 0)` guard of the goal test always passes; the
invariant is preserved by every guarded `place`, and `unplace` applied to
any state whose core fields match the corresponding `place` result (as in
every search backtrack) restores a state satisfying the invariant. -/
theorem search_letter_invariant (slots : List Slot) (inters : List InterRec)
    (phrase : Str) (cand : Str → List Str) (placed : List Str) (st : SState)
    (hwf : WF slots inters cand)
    (hinv : SearchInv slots inters phrase cand placed st) :
    (∀ ch, 0 ≤ st.budget ch ∧
      st.budget ch + (((allCells slots).filter
        (fun c => st.cellLetter c = some ch)).length : Int) = (phrase.count ch : Int)) ∧
    ((keysCh slots inters phrase cand).all
      (fun ch => decide (0 ≤ st.budget ch)) = true) ∧
    (∀ sid w s, by_id slots sid = some s → sid ∉ placed → w ∈ cand sid →
      can_place slots inters cand st sid w = true →
      SearchInv slots inters phrase cand (placed ++ [sid]) (place slots st sid w)) ∧
    (∀ sid w s st2, by_id slots sid = some s → sid ∉ placed → w ∈ cand sid →
      can_place slots inters cand st sid w = true →
      st2.budget = (place slots st sid w).budget →
      st2.cellLetter = (place slots st sid w).cellLetter →
      st2.cellUsage = (place slots st sid w).cellUsage →
      st2.sol = (place slots st sid w).sol →
      SearchInv slots inters phrase cand placed (unplace slots st2 sid w)) := by
  refine ⟨?_, ?_, ?_, ?_⟩
  · intro ch
    refine ⟨hinv.budget_nonneg ch, ?_⟩
    have := hinv.budget_eq ch
    omega
  · apply List.all_eq_true.mpr
    intro ch _
    simpa using hinv.budget_nonneg ch
  · intro sid w s hby hnp hwc hcp
    exact place_inv hwf hinv hby hnp hwc hcp
  · intro sid w s st2 hby hnp hwc hcp h1 h2 h3 h4
    obtain ⟨hrt, _⟩ := place_unplace_roundtrip slots st sid w s hby
      (hwf.cells_nodup s (List.mem_of_find?_eq_some hby))
      (by rw [dlookup_eq_none_iff, hinv.keys_eq]; exact hnp)
      (fun p _ hu => (inv_letter_none_iff hinv p.1).mpr hu)
    obtain ⟨hc1, hc2, hc3, hc4⟩ := @unplace_fields_congr slots sid w
      st2 (place slots st sid w) h1 h2 h3 h4
    rw [hrt] at hc1 hc2 hc3 hc4
    exact inv_transport hinv hc1 hc2 hc3 hc4

theorem search_letter_invariant_witness :
    (WF [wslotH, wslotV] [winter] wcand ∧
      SearchInv [wslotH, wslotV] [winter] wphrase wcand [] (initState wphrase)) ∧
    ((∀ ch, 0 ≤ (initState wphrase).budget ch ∧
      (initState wphrase).budget ch + (((allCells [wslotH, wslotV]).filter
        (fun c => (initState wphrase).cellLetter c = some ch)).length : Int)
        = (wphrase.count ch : Int)) ∧
    ((keysCh [wslotH, wslotV] [winter] wphrase wcand).all
      (fun ch => decide (0 ≤ (initState wphrase).budget ch)) = true) ∧
    (∀ sid w s, by_id [wslotH, wslotV] sid = some s → sid ∉ ([] : List Str) →
      w ∈ wcand sid →
      can_place [wslotH, wslotV] [winter] wcand (initState wphrase) sid w = true →
      SearchInv [wslotH, wslotV] [winter] wphrase wcand ([] ++ [sid])
        (place [wslotH, wslotV] (initState wphrase) sid w)) ∧
    (∀ sid w s st2, by_id [wslotH, wslotV] sid = some s → sid ∉ ([] : List Str) →
      w ∈ wcand sid →
      can_place [wslotH, wslotV] [winter] wcand (initState wphrase) sid w = true →
      st2.budget = (place [wslotH, wslotV] (initState wphrase) sid w).budget →
      st2.cellLetter = (place [wslotH, wslotV] (initState wphrase) sid w).cellLetter →
      st2.cellUsage = (place [wslotH, wslotV] (initState wphrase) sid w).cellUsage →
      st2.sol = (place [wslotH, wslotV] (initState wphrase) sid w).sol →
      SearchInv [wslotH, wslotV] [winter] wphrase wcand []
        (unplace [wslotH, wslotV] st2 sid w))) :=
  ⟨⟨⟨by decide, by decide, by decide, by decide⟩,
      init_inv [wslotH, wslotV] [winter] wphrase wcand⟩,
    search_letter_invariant [wslotH, wslotV] [winter] wphrase wcand []
      (initState wphrase) ⟨by decide, by decide, by decide, by decide⟩
      (init_inv [wslotH, wslotV] [winter] wphrase wcand)⟩

/-- All ways to pick one candidate word per slot, in visit order. -/
def prodAll (cand : Str → List Str) : List Str → List (List Str)
  | [] => [[]]
  | sid :: rest => (cand sid).flatMap (fun w => (prodAll cand rest).map (w :: ·))

theorem mem_prodAll {cand : Str → List Str} :
    ∀ {sids ws}, ws ∈ prodAll cand sids ↔
      List.Forall₂ (fun sid w => w ∈ cand sid) sids ws := by
  intro sids
  induction sids with
  | nil =>
    intro ws
    simp only [prodAll, List.mem_singleton]
    constructor
    · rintro rfl
      exact List.Forall₂.nil
    · intro h
      cases h
      rfl
  | cons sid rest ih =>
    intro ws
    simp only [prodAll, List.mem_flatMap, List.mem_map]
    constructor
    · rintro ⟨w, hw, ws', hws', rfl⟩
      exact List.Forall₂.cons hw (ih.mp hws')
    · intro h
      cases h with
      | cons h1 h2 => exact ⟨_, h1, _, ih.mpr h2, rfl⟩

theorem forall₂_map_self {α β : Type} {R : α → β → Prop} {f : α → β} {l : List α}
    (h : ∀ x ∈ l, R x (f x)) : List.Forall₂ R l (l.map f) := by
  induction l with
  | nil => exact List.Forall₂.nil
  | cons a l ih =>
    exact List.Forall₂.cons (h a (List.mem_cons_self a l))
      (ih (fun x hx => h x (List.mem_cons_of_mem a hx)))

theorem dlookup_zip_map {sids : List Str} (f : Str → Str) {sid : Str}
    (h : sid ∈ sids) :
    dlookup (sids.zip (sids.map f)) sid = some (f sid) := by
  induction sids with
  | nil => simp at h
  | cons t ts ih =>
    simp only [List.map_cons, List.zip_cons_cons, dlookup]
    by_cases ht : t = sid
    · rw [if_pos ht, ht]
    · rw [if_neg ht]
      exact ih (by rcases List.mem_cons.mp h with rfl | h'
                   · exact absurd rfl ht
                   · exact h')

theorem cellWordOf_congr {slots : List Slot} {sol1 sol2 : List (Str × Str)}
    (h : ∀ s ∈ slots, dlookup sol1 s.id = dlookup sol2 s.id) (cell : Cell) :
    cellWordOf slots sol1 cell = cellWordOf slots sol2 cell := by
  unfold cellWordOf
  cases hfs : slots.find? (fun s => decide (cell ∈ s.cells)) with
  | none => rfl
  | some s0 =>
    show (match dlookup sol1 s0.id with
        | some w => some (List.getD w (List.findIdx (fun c => decide (c = cell)) s0.cells) 'A')
        | none => none) =
      (match dlookup sol2 s0.id with
        | some w => some (List.getD w (List.findIdx (fun c => decide (c = cell)) s0.cells) 'A')
        | none => none)
    rw [h s0 (List.mem_of_find?_eq_some hfs)]

/-- C6: the embedded search is a total (well-founded recursive) function,
and whenever no choice of one candidate word per slot exhausts the
phrase's letter multiset over the grid cells, `find_solutions_for_grid`
returns the empty list — it cannot loop or fail. -/
theorem find_solutions_empty_of_infeasible (slots : List Slot)
    (inters : List InterRec) (phrase : Str) (cand : Str → List Str) (maxSols : Nat)
    (hwf : WF slots inters cand)
    (hnone : ∀ ws ∈ prodAll cand (ids slots inters cand),
      ¬ ((allCells slots).filterMap
        (cellWordOf slots ((ids slots inters cand).zip ws))).Perm phrase) :
    find_solutions_for_grid slots inters phrase cand maxSols = [] := by
  cases hfs : find_solutions_for_grid slots inters phrase cand maxSols with
  | nil => rfl
  | cons so rest =>
    exfalso
    have hmem : so ∈ find_solutions_for_grid slots inters phrase cand maxSols := by
      rw [hfs]
      exact List.mem_cons_self so rest
    obtain ⟨hcomp, _, _, hcnt⟩ := find_solutions_good hwf so hmem
    have hchoice : ∀ sid ∈ ids slots inters cand,
        ((dlookup so sid).getD [] ∈ cand sid) ∧
        dlookup so sid = some ((dlookup so sid).getD []) := by
      intro sid hsid
      have : sid ∈ slots.map (·.id) := (ids_perm slots inters cand).mem_iff.mp hsid
      obtain ⟨s, hs, rfl⟩ := List.mem_map.mp this
      obtain ⟨wv, hwv, hwc⟩ := hcomp s hs
      rw [hwv]
      exact ⟨hwc, rfl⟩
    have hws : (ids slots inters cand).map (fun sid => (dlookup so sid).getD [])
        ∈ prodAll cand (ids slots inters cand) :=
      mem_prodAll.mpr (forall₂_map_self (fun sid h => (hchoice sid h).1))
    apply hnone _ hws
    apply List.perm_iff_count.mpr
    intro ch
    rw [count_filterMap_eq]
    have hfc : (allCells slots).filter (fun c => decide (cellWordOf slots
        ((ids slots inters cand).zip ((ids slots inters cand).map
          (fun sid => (dlookup so sid).getD []))) c = some ch))
        = (allCells slots).filter
          (fun c => decide (cellWordOf slots so c = some ch)) := by
      apply List.filter_congr
      intro c _
      have hdl : ∀ s ∈ slots, dlookup ((ids slots inters cand).zip
          ((ids slots inters cand).map (fun sid => (dlookup so sid).getD []))) s.id
          = dlookup so s.id := by
        intro s hs
        have hsid : s.id ∈ ids slots inters cand :=
          (ids_perm slots inters cand).mem_iff.mpr (List.mem_map_of_mem _ hs)
        rw [dlookup_zip_map _ hsid]
        exact ((hchoice s.id hsid).2).symm
      rw [cellWordOf_congr hdl c]
    rw [hfc, ← count_filterMap_eq]
    exact hcnt ch

/-- Concrete fixture: a candidate pool whose single word reuses the letter
A, which the phrase supplies only once. -/
def wcand6 : Str → List Str := fun sid =>
  if sid = "H".data then ["AABC".data] else []

theorem find_solutions_empty_of_infeasible_witness :
    ((WF [wslotH] [] wcand6) ∧
      (∀ ws ∈ prodAll wcand6 (ids [wslotH] [] wcand6),
        ¬ ((allCells [wslotH]).filterMap
          (cellWordOf [wslotH] ((ids [wslotH] [] wcand6).zip ws))).Perm "ABCD".data)) ∧
    find_solutions_for_grid [wslotH] [] "ABCD".data wcand6 5 = [] :=
  ⟨⟨⟨by decide, by decide, by decide, by decide⟩, by decide⟩,
    find_solutions_empty_of_infeasible [wslotH] [] "ABCD".data wcand6 5
      ⟨by decide, by decide, by decide, by decide⟩ (by decide)⟩

/-! ### Layout enumeration (source lines 163-418 and main lines 736-749) -/

/-- Python `range(a, b+1)` as a list. -/
def rangeFromTo (a b : Nat) : List Nat := List.range' a (b + 1 - a)

/-- `itertools.combinations(l, k)`: length-`k` sublists in lexicographic
order of positions. -/
def combinations {α : Type} : List α → Nat → List (List α)
  | _, 0 => [[]]
  | [], _ + 1 => []
  | x :: xs, k + 1 => (combinations xs k).map (x :: ·) ++ combinations xs (k + 1)

/-- `itertools.product(l, repeat=k)`: leftmost component varies slowest. -/
def replicateProd {α : Type} (l : List α) : Nat → List (List α)
  | 0 => [[]]
  | k + 1 => l.flatMap (fun x => (replicateProd l k).map (x :: ·))

/-- `nonadjacent` (source lines 163-165): after sorting, consecutive indices
differ by at least 2. -/
def nonadjacent (indices : List Nat) : Bool :=
  ((isort (fun a b : Nat => decide (a < b)) indices).zip
      (isort (fun a b : Nat => decide (a < b)) indices).tail).all
    (fun p => decide (p.1 + 2 ≤ p.2))

/-- A vertical mirror unit: either a mirror pair of columns or a single
center column (source `symmetric_vertical_units` returns tuples and ints). -/
inductive VUnit where
  | pair (a b : Nat)
  | single (c : Nat)
deriving DecidableEq, Repr

def ucols : VUnit → List Nat
  | .pair a b => [a, b]
  | .single c => [c]

def symmetric_vertical_units (w : Nat) : List VUnit :=
  if w = 4 then [.pair 0 3]
  else if w = 5 then [.pair 0 4, .pair 1 3, .single 2]
  else if w = 6 then [.pair 0 5, .pair 1 4]
  else if w = 7 then [.pair 0 6, .pair 1 5, .pair 2 4, .single 3]
  else []

/-- `expand_units_to_cols`: the set union of the units' columns, sorted
(`tuple(sorted(cols))`). -/
def expand_units_to_cols (choice : List VUnit) : List Nat :=
  isort (fun a b : Nat => decide (a < b)) (choice.flatMap ucols).dedup

/-- `vertical_segment_options(h)`: `(start, length)` with
`length ∈ [4..h]`, `start ∈ [0..h-length]`. -/
def vertical_segment_options (h : Nat) : List (Nat × Nat) :=
  (rangeFromTo 4 h).flatMap (fun L => (List.range (h - L + 1)).map (fun s => (s, L)))

/-- `horizontal_lengths_allowed(w)`: centered spans with the width's parity. -/
def horizontal_lengths_allowed (w : Nat) : List Nat :=
  if w % 2 = 0 then (rangeFromTo 4 w).filter (fun L => L % 2 == 0)
  else (rangeFromTo 5 w).filter (fun L => L % 2 == 1)

def horizontal_segment_for_width (w L : Nat) : Nat × Nat :=
  ((w - L) / 2, (w - L) / 2 + L - 1)

/-- `slot_purity_ok` (source lines 253-286).  `row_to_span` is a dict keyed
by row; the rows are pairwise distinct here, and the checks are conjunctive,
so the dict is modelled by the list of its entries. -/
def slot_purity_ok (h_rows_with_len : List (Nat × Nat))
    (v_cols_with_seg : List (Nat × Nat × Nat)) (w : Nat) : Bool :=
  if h_rows_with_len.isEmpty && v_cols_with_seg.isEmpty then false
  else
    let row_to_span := h_rows_with_len.map
      (fun p => (p.1, horizontal_segment_for_width w p.2))
    v_cols_with_seg.all (fun q =>
      row_to_span.all (fun rp =>
        if rp.2.1 ≤ q.1 ∧ q.1 ≤ rp.2.2 then
          decide (q.2.1 ≤ rp.1 ∧ rp.1 ≤ q.2.1 + q.2.2 - 1)
        else
          decide (¬(q.2.1 ≤ rp.1 ∧ rp.1 ≤ q.2.1 + q.2.2 - 1))))

def is_plain_rectangle (w h : Nat) (h_rows_with_len : List (Nat × Nat))
    (v_cols_with_seg : List (Nat × Nat × Nat)) : Bool :=
  (h_rows_with_len.any (fun p => p.1 == 0 && p.2 == w)) &&
  (h_rows_with_len.any (fun p => p.1 == h - 1 && p.2 == w)) &&
  decide (dlookup v_cols_with_seg 0 = some (0, h)) &&
  decide (dlookup v_cols_with_seg (w - 1) = some (0, h))

/-- Value of `mask[r][c]` (0 out of range; all accesses below are in range). -/
def mget (mask : List (List Nat)) (r c : Nat) : Nat := (mask.getD r []).getD c 0

def maskH (mask : List (List Nat)) : Nat := mask.length

def maskW (mask : List (List Nat)) : Nat := (mask.getD 0 []).length

def inHSpans (w : Nat) (hrl : List (Nat × Nat)) (r c : Nat) : Bool :=
  hrl.any (fun p => decide (p.1 = r ∧ (horizontal_segment_for_width w p.2).1 ≤ c ∧
    c ≤ (horizontal_segment_for_width w p.2).2))

def inVSpans (vcs : List (Nat × Nat × Nat)) (r c : Nat) : Bool :=
  vcs.any (fun q => decide (q.1 = c ∧ q.2.1 ≤ r ∧ r < q.2.1 + q.2.2))

/-- The mask built at source lines 374-381 (and 397-401): start from all
zeros and set `mask[r][cs..ce] = 1` for each across row, `mask[s..s+L-1][c]
= 1` for each down column; the final array is exactly this per-cell
characterization of membership in some slot span. -/
def buildMask (w h : Nat) (hrl : List (Nat × Nat)) (vcs : List (Nat × Nat × Nat)) :
    List (List Nat) :=
  (List.range h).map (fun r => (List.range w).map
    (fun c => if inHSpans w hrl r c || inVSpans vcs r c then 1 else 0))

/-- `sum(sum(r) for r in mask)` (layout field 7). -/
def maskSum (mask : List (List Nat)) : Nat := (mask.map List.sum).sum

/-- Number of cells holding a 1. -/
def filledCount (mask : List (List Nat)) : Nat :=
  (mask.map (fun row => (row.filter (fun x => x == 1)).length)).sum

/-- The `cells` list of `connected` (source line 235). -/
def maskCells (mask : List (List Nat)) : List Cell :=
  (List.range (maskH mask)).flatMap (fun r =>
    (List.range (maskW mask)).filterMap (fun c =>
      if mget mask r c == 1 then some (r, c) else none))

/-- In-bounds 4-neighbours, in the source's direction order
`(1,0), (-1,0), (0,1), (0,-1)`. -/
def nbrs (h w r c : Nat) : List Cell :=
  (if r + 1 < h ∧ c < w then [(r + 1, c)] else []) ++
  (if 1 ≤ r ∧ r - 1 < h ∧ c < w then [(r - 1, c)] else []) ++
  (if r < h ∧ c + 1 < w then [(r, c + 1)] else []) ++
  (if r < h ∧ 1 ≤ c ∧ c - 1 < w then [(r, c - 1)] else [])

/-- Unvisited filled neighbours of `q`.  The four neighbour cells are
pairwise distinct, so the source's one-at-a-time `seen.add` during a single
pop equals this filter against the pre-pop `seen`. -/
def newCells (mask : List (List Nat)) (h w : Nat) (seen : List Cell) (q : Cell) :
    List Cell :=
  (nbrs h w q.1 q.2).filter (fun p => mget mask p.1 p.2 == 1 && !(seen.contains p))

/-- The BFS loop of `connected` (source lines 237-243).  `fuel` bounds the
number of iterations; `2 * |cells| + 1` always suffices (`bfsGo_fuel_irrel`
below), so the zero-fuel branch is never taken at the call in `connected`
and the while-loop's termination is captured exactly. -/
def bfsGo (mask : List (List Nat)) (h w : Nat) :
    Nat → List Cell → List Cell → List Cell
  | _, seen, [] => seen
  | 0, seen, _ :: _ => seen
  | fuel + 1, seen, q :: dq =>
      bfsGo mask h w fuel (seen ++ newCells mask h w seen q)
        (dq ++ newCells mask h w seen q)

def connected (mask : List (List Nat)) : Bool :=
  match maskCells mask with
  | [] => false
  | c0 :: _ =>
      (bfsGo mask (maskH mask) (maskW mask) (2 * (maskCells mask).length + 1)
        [c0] [c0]).length == (maskCells mask).length

def natStr (n : Nat) : Str := (Nat.repr n).data

/-- Python tuple `<` on `(r, L)` pairs, for `sorted(h_rows_with_len)`. -/
def pairLtNN (a b : Nat × Nat) : Bool :=
  a.1 < b.1 || (a.1 == b.1 && a.2 < b.2)

/-- Python tuple `<` on `(c, (s, L))` items, for
`sorted(v_cols_with_seg.items())`. -/
def vcsLt (a b : Nat × Nat × Nat) : Bool :=
  a.1 < b.1 || (a.1 == b.1 && (a.2.1 < b.2.1 || (a.2.1 == b.2.1 && a.2.2 < b.2.2)))

/-- One crossing record list for an ordered slot pair (source lines 221-227).
`ai[cell]` is the index of `cell` in the first slot's cell list; the cells
within a slot are pairwise distinct, so first index = last index. -/
def interAB (a b : Slot) : List InterRec :=
  b.cells.enum.filterMap (fun p =>
    if p.2 ∈ a.cells then
      some { slot_a := a.id, pos_a := a.cells.findIdx (fun c => decide (c = p.2)),
             slot_b := b.id, pos_b := p.1, cell := p.2 }
    else none)

/-- All crossings over ordered pairs `i < j` (source lines 219-227). -/
def intersOf : List Slot → List InterRec
  | [] => []
  | a :: rest => rest.flatMap (interAB a) ++ intersOf rest

/-- `build_slots_and_intersections` (source lines 207-228). -/
def build_slots_and_intersections (w h : Nat) (hrl : List (Nat × Nat))
    (vcs : List (Nat × Nat × Nat)) : List Slot × List InterRec :=
  let hslots : List Slot := (isort pairLtNN hrl).map (fun p =>
    let q := horizontal_segment_for_width w p.2
    let cells : List Cell := (rangeFromTo q.1 q.2).map (fun c => (p.1, c))
    { id := "H@R".data ++ natStr p.1 ++ ":C".data ++ natStr q.1 ++ "-".data ++
        natStr q.2,
      orient := "H".data, length := cells.length, cells := cells })
  let vslots : List Slot := (isort vcsLt vcs).map (fun q =>
    let cells : List Cell := (List.range' q.2.1 q.2.2).map (fun r => (r, q.1))
    { id := "V@C".data ++ natStr q.1 ++ ":R".data ++ natStr q.2.1 ++ "-".data ++
        natStr (q.2.1 + q.2.2 - 1),
      orient := "V".data, length := cells.length, cells := cells })
  let slots := hslots ++ vslots
  (slots, intersOf slots)

/-- One element of the source's `layouts` list: the tuple
`(w, h, nH, nV, h_rows_with_len, v_cols_with_seg, mask, total, slots, inter)`. -/
structure Layout where
  w : Nat
  h : Nat
  nH : Nat
  nV : Nat
  hrl : List (Nat × Nat)
  vcs : List (Nat × Nat × Nat)
  mask : List (List Nat)
  total : Nat
  slots : List Slot
  inters : List InterRec
deriving DecidableEq, Repr

/-- The dict built at source lines 360-366: one `(column, segment)` entry per
column of each chosen unit, in insertion order.  Distinct units of a given
width have disjoint column sets, so no key is ever overwritten. -/
def buildVcs (v_choice : List VUnit) (segs : List (Nat × Nat)) :
    List (Nat × Nat × Nat) :=
  (v_choice.zip segs).flatMap (fun p => (ucols p.1).map (fun c => (c, p.2)))

/-- The guard chain at source lines 367-393 for one candidate `(hrl, vcs)`:
slot purity, connectivity, plain-rectangle exclusion, minimum crossings. -/
def mkLayoutOpt (mi w h nH nV : Nat) (hrl : List (Nat × Nat))
    (vcs : List (Nat × Nat × Nat)) : Option Layout :=
  if !slot_purity_ok hrl vcs w then none
  else
    let mask := buildMask w h hrl vcs
    if !connected mask then none
    else if is_plain_rectangle w h hrl vcs then none
    else
      let si := build_slots_and_intersections w h hrl vcs
      if si.2.length < mi then none
      else some ⟨w, h, nH, nV, hrl, vcs, mask, maskSum mask, si.1, si.2⟩

/-- The `nV == 0` tail (source lines 396-409): empty dict, no purity check.
Unreachable for the allowed families (all have `nV > 0`) but embedded. -/
def nv0_layouts (mi w h nH nV : Nat) (hrl : List (Nat × Nat)) : List Layout :=
  if !connected (buildMask w h hrl []) then []
  else if is_plain_rectangle w h hrl [] then []
  else if (build_slots_and_intersections w h hrl []).2.length < mi then []
  else [⟨w, h, nH, nV, hrl, [], buildMask w h hrl [],
    maskSum (buildMask w h hrl []),
    (build_slots_and_intersections w h hrl []).1,
    (build_slots_and_intersections w h hrl []).2⟩]

/-- The body of the `v_choice` loop (source lines 352-409). -/
def mkLayouts_v (mi w h nH nV : Nat) (hrl : List (Nat × Nat))
    (v_opts : List (Nat × Nat)) (v_choice : List VUnit) : List Layout :=
  if nV == 0 then nv0_layouts mi w h nH nV hrl
  else (replicateProd v_opts v_choice.length).filterMap
    (fun segs => mkLayoutOpt mi w h nH nV hrl (buildVcs v_choice segs))

/-- `hrow_sets` (source line 325): nonadjacent row choices. -/
def hrow_sets (h nH : Nat) : List (List Nat) :=
  (combinations (List.range h) nH).filter nonadjacent

/-- `unit_subsets` (source lines 330-343): unit choices producing exactly
`nV` nonadjacent columns. -/
def unit_subsets (units : List VUnit) (nV : Nat) : List (List VUnit) :=
  if nV == 0 then [([] : List VUnit)]
  else (rangeFromTo 1 units.length).flatMap (fun k =>
    (combinations units k).filter (fun choice =>
      (expand_units_to_cols choice).length == nV &&
        nonadjacent (expand_units_to_cols choice)))

/-- `h_len_combos` (source line 346). -/
def h_len_combos (h_lens : List Nat) (nH : Nat) : List (List Nat) :=
  if nH == 0 then [([] : List Nat)] else replicateProd h_lens nH

/-- The body of the `(nH, nV)` family loop (source lines 320-409). -/
def layouts_for_fam (mi w h : Nat) (units : List VUnit) (v_opts : List (Nat × Nat))
    (h_lens : List Nat) (fam : Nat × Nat) : List Layout :=
  if h < fam.1 then []
  else if (hrow_sets h fam.1).isEmpty then []
  else if (unit_subsets units fam.2).isEmpty then []
  else
    (hrow_sets h fam.1).flatMap (fun rows =>
      (h_len_combos h_lens fam.1).flatMap (fun Ls =>
        (unit_subsets units fam.2).flatMap (fun v_choice =>
          mkLayouts_v mi w h fam.1 fam.2 (rows.zip Ls) v_opts v_choice)))

/-- The allowed `(nH, nV)` families (source lines 304-309).  The source
iterates a Python `set`, whose order is implementation-defined; the fixed
order here only affects the order of `layouts` before mask-deduplication,
and none of the properties proved below depend on it. -/
def allowed_fams (total_words : Nat) : List (Nat × Nat) :=
  if total_words == 5 then [(3, 2), (2, 3), (1, 4)]
  else if total_words == 6 then [(3, 3), (2, 4)]
  else []

def layouts_for_wh (mi tw w h : Nat) : List Layout :=
  let units := symmetric_vertical_units w
  if units.isEmpty then []
  else (allowed_fams tw).flatMap
    (layouts_for_fam mi w h units (vertical_segment_options h)
      (horizontal_lengths_allowed w))

/-- Mask-deduplication (source lines 412-417, reused at main lines 745-749):
keep the first layout for each mask. -/
def dedupeByMask (seen : List (List (List Nat))) : List Layout → List Layout
  | [] => []
  | lay :: ls =>
      if lay.mask ∈ seen then dedupeByMask seen ls
      else lay :: dedupeByMask (lay.mask :: seen) ls

/-- `enumerate_layouts` (source lines 291-418).  `total_words` outside
`{5, 6}` raises `ValueError` in the source; `main` only passes 5 and/or 6,
and other values are modelled as the empty enumeration. -/
def enumerate_layouts (mi tw : Nat) : List Layout :=
  dedupeByMask [] (([4, 5, 6, 7] : List Nat).flatMap (fun w =>
    ([4, 5, 6] : List Nat).flatMap (fun h => layouts_for_wh mi tw w h)))

/-- The layouts `main` attempts (lines 736-749): enumerate for each mode,
keep those whose filled-cell total equals the cleaned phrase length `L`,
then dedupe across modes by mask. -/
def surviving_layouts (mi : Nat) (modes : List Nat) (L : Nat) : List Layout :=
  dedupeByMask []
    ((modes.flatMap (fun tw => enumerate_layouts mi tw)).filter
      (fun lay => lay.total == L))

theorem mem_rangeFromTo {a b x : Nat} : x ∈ rangeFromTo a b ↔ a ≤ x ∧ x ≤ b := by
  unfold rangeFromTo
  rw [List.mem_range'_1]
  omega

theorem combinations_sublist {α : Type} :
    ∀ {l : List α} {k : Nat} {c : List α}, c ∈ combinations l k → c.Sublist l := by
  intro l
  induction l with
  | nil =>
    intro k c hc
    cases k with
    | zero =>
      simp only [combinations, List.mem_singleton] at hc
      subst hc
      exact List.Sublist.refl []
    | succ k => simp [combinations] at hc
  | cons x xs ih =>
    intro k c hc
    cases k with
    | zero =>
      simp only [combinations, List.mem_singleton] at hc
      subst hc
      exact List.nil_sublist _
    | succ k =>
      simp only [combinations, List.mem_append, List.mem_map] at hc
      rcases hc with ⟨c2, hc2, rfl⟩ | hc2
      · exact (ih hc2).cons₂ x
      · exact (ih hc2).cons x

theorem combinations_length {α : Type} :
    ∀ {l : List α} {k : Nat} {c : List α}, c ∈ combinations l k → c.length = k := by
  intro l
  induction l with
  | nil =>
    intro k c hc
    cases k with
    | zero =>
      simp only [combinations, List.mem_singleton] at hc
      subst hc
      rfl
    | succ k => simp [combinations] at hc
  | cons x xs ih =>
    intro k c hc
    cases k with
    | zero =>
      simp only [combinations, List.mem_singleton] at hc
      subst hc
      rfl
    | succ k =>
      simp only [combinations, List.mem_append, List.mem_map] at hc
      rcases hc with ⟨c2, hc2, rfl⟩ | hc2
      · simp [ih hc2]
      · exact ih hc2

theorem mem_replicateProd {α : Type} {l : List α} :
    ∀ {k : Nat} {ws : List α}, ws ∈ replicateProd l k →
      ws.length = k ∧ ∀ x ∈ ws, x ∈ l := by
  intro k
  induction k with
  | zero =>
    intro ws hws
    simp only [replicateProd, List.mem_singleton] at hws
    subst hws
    exact ⟨rfl, by simp⟩
  | succ k ih =>
    intro ws hws
    simp only [replicateProd, List.mem_flatMap, List.mem_map] at hws
    obtain ⟨x, hx, ws2, hws2, rfl⟩ := hws
    obtain ⟨hlen, hall⟩ := ih hws2
    refine ⟨by simp [hlen], ?_⟩
    intro y hy
    rcases List.mem_cons.mp hy with rfl | hy2
    · exact hx
    · exact hall y hy2

theorem pairwise_of_all {α : Type} {R : α → α → Prop} :
    ∀ {l : List α}, (∀ a ∈ l, ∀ b ∈ l, R a b) → l.Pairwise R := by
  intro l
  induction l with
  | nil => intro _; exact List.Pairwise.nil
  | cons x t ih =>
    intro h
    refine List.Pairwise.cons ?_ (ih ?_)
    · intro b hb
      exact h x (List.mem_cons_self x t) b (List.mem_cons_of_mem x hb)
    · intro a ha b hb
      exact h a (List.mem_cons_of_mem x ha) b (List.mem_cons_of_mem x hb)

theorem zipall_chain2 :
    ∀ {l : List Nat},
      ((l.zip l.tail).all (fun p => decide (p.1 + 2 ≤ p.2)) = true) →
      List.Chain' (fun a b => a + 2 ≤ b) l := by
  intro l
  induction l with
  | nil => intro _; exact List.chain'_nil
  | cons a t ih =>
    cases t with
    | nil => intro _; exact List.chain'_singleton a
    | cons b t2 =>
      intro hall
      simp only [List.tail_cons, List.zip_cons_cons, List.all_cons,
        Bool.and_eq_true, decide_eq_true_eq] at hall
      exact List.chain'_cons.mpr ⟨hall.1, ih (by
        simpa only [List.tail_cons, List.all_eq_true] using hall.2)⟩

theorem pairwise_of_chain2 :
    ∀ {l : List Nat}, List.Chain' (fun a b : Nat => a + 2 ≤ b) l →
      l.Pairwise (fun a b => a + 2 ≤ b) := by
  intro l
  induction l with
  | nil => intro _; exact List.Pairwise.nil
  | cons a t ih =>
    intro hch
    cases t with
    | nil => simp
    | cons b t2 =>
      rw [List.chain'_cons] at hch
      have hp := ih hch.2
      refine List.Pairwise.cons ?_ hp
      intro x hx
      rcases List.mem_cons.mp hx with rfl | hx2
      · exact hch.1
      · have := (List.pairwise_cons.mp hp).1 x hx2
        omega

theorem pairwise_forall_ne {α : Type} {R : α → α → Prop}
    (hsym : ∀ x y, R x y → R y x) :
    ∀ {l : List α}, l.Pairwise R → ∀ a ∈ l, ∀ b ∈ l, a ≠ b → R a b := by
  intro l
  induction l with
  | nil =>
    intro _ a ha
    simp at ha
  | cons x t ih =>
    intro hp a ha b hb hne
    rw [List.pairwise_cons] at hp
    rcases List.mem_cons.mp ha with rfl | ha2
    · rcases List.mem_cons.mp hb with rfl | hb2
      · exact absurd rfl hne
      · exact hp.1 b hb2
    · rcases List.mem_cons.mp hb with rfl | hb2
      · exact hsym _ _ (hp.1 a ha2)
      · exact ih hp.2 a ha2 b hb2 hne

/-- The guarantee `nonadjacent` gives: any two distinct members are at least
2 apart. -/
theorem nonadjacent_spec {l : List Nat} (h : nonadjacent l = true) :
    ∀ a ∈ l, ∀ b ∈ l, a ≠ b → a + 2 ≤ b ∨ b + 2 ≤ a := by
  intro a ha b hb hne
  unfold nonadjacent at h
  have hperm := isort_perm (fun a b : Nat => decide (a < b)) l
  have hpw := (pairwise_of_chain2 (zipall_chain2 h)).imp
    (fun hab => Or.inl hab :
      ∀ {x y : Nat}, x + 2 ≤ y → (x + 2 ≤ y ∨ y + 2 ≤ x))
  exact pairwise_forall_ne (fun x y hxy => hxy.symm) hpw a (hperm.mem_iff.mpr ha)
    b (hperm.mem_iff.mpr hb) hne

theorem mem_expand_units {x : Nat} {ch : List VUnit} :
    x ∈ expand_units_to_cols ch ↔ x ∈ ch.flatMap ucols := by
  unfold expand_units_to_cols
  rw [(isort_perm _ _).mem_iff, List.mem_dedup]

theorem range_map_getD {α : Type} {f : Nat → α} {d : α} {n r : Nat} (h : r < n) :
    ((List.range n).map f).getD r d = f r := by
  rw [List.getD_eq_getElem _ _ (by simpa using h)]
  simp

theorem buildMask_get {w h : Nat} {hrl : List (Nat × Nat)}
    {vcs : List (Nat × Nat × Nat)} {r c : Nat} (hr : r < h) (hc : c < w) :
    mget (buildMask w h hrl vcs) r c =
      if inHSpans w hrl r c || inVSpans vcs r c then 1 else 0 := by
  unfold mget buildMask
  rw [range_map_getD hr, range_map_getD hc]

theorem maskH_buildMask {w h : Nat} {hrl : List (Nat × Nat)}
    {vcs : List (Nat × Nat × Nat)} : maskH (buildMask w h hrl vcs) = h := by
  simp [maskH, buildMask]

theorem maskW_buildMask {w h : Nat} {hrl : List (Nat × Nat)}
    {vcs : List (Nat × Nat × Nat)} (hh : 0 < h) :
    maskW (buildMask w h hrl vcs) = w := by
  unfold maskW buildMask
  rw [range_map_getD hh]
  simp

theorem sum_eq_count_ones :
    ∀ {row : List Nat}, (∀ x ∈ row, x = 0 ∨ x = 1) →
      row.sum = (row.filter (fun x => x == 1)).length := by
  intro row
  induction row with
  | nil => intro _; rfl
  | cons x t ih =>
    intro h
    have hx := h x (List.mem_cons_self x t)
    have ht := ih (fun y hy => h y (List.mem_cons_of_mem x hy))
    rcases hx with rfl | rfl
    · simpa [List.filter_cons] using ht
    · simp only [List.sum_cons, List.filter_cons, beq_self_eq_true, if_true,
        List.length_cons]
      omega

theorem filledCount_buildMask {w h : Nat} {hrl : List (Nat × Nat)}
    {vcs : List (Nat × Nat × Nat)} :
    filledCount (buildMask w h hrl vcs) = maskSum (buildMask w h hrl vcs) := by
  unfold filledCount maskSum
  congr 1
  apply List.map_congr_left
  intro row hrow
  simp only [buildMask, List.mem_map] at hrow
  obtain ⟨r, hr, rfl⟩ := hrow
  refine (sum_eq_count_ones ?_).symm
  intro x hx
  simp only [List.mem_map] at hx
  obtain ⟨c, hc, rfl⟩ := hx
  by_cases hcov : inHSpans w hrl r c || inVSpans vcs r c
  · rw [if_pos hcov]
    exact Or.inr rfl
  · rw [if_neg hcov]
    exact Or.inl rfl

theorem filterMap_ite_eq_filter_map {α β : Type} (p : α → Bool) (f : α → β)
    (l : List α) :
    l.filterMap (fun a => if p a then some (f a) else none) =
      (l.filter p).map f := by
  induction l with
  | nil => rfl
  | cons x t ih =>
    by_cases hx : p x
    · simp [List.filterMap_cons, List.filter_cons, hx, ih]
    · simp [List.filterMap_cons, List.filter_cons, hx, ih]

theorem mem_maskCells {mask : List (List Nat)} {p : Cell} :
    p ∈ maskCells mask ↔
      p.1 < maskH mask ∧ p.2 < maskW mask ∧ mget mask p.1 p.2 = 1 := by
  constructor
  · intro hp
    simp only [maskCells, List.mem_flatMap, List.mem_filterMap, List.mem_range] at hp
    obtain ⟨r, hr, c, hc, hsome⟩ := hp
    by_cases hm : mget mask r c == 1
    · rw [if_pos hm] at hsome
      cases hsome
      exact ⟨hr, hc, by simpa using hm⟩
    · rw [if_neg hm] at hsome
      cases hsome
  · rintro ⟨h1, h2, h3⟩
    simp only [maskCells, List.mem_flatMap, List.mem_filterMap, List.mem_range]
    refine ⟨p.1, h1, p.2, h2, ?_⟩
    rw [if_pos (by simpa using h3)]

theorem nodup_flatMap_pairs {g : Nat → List Cell} :
    ∀ {l : List Nat}, l.Nodup → (∀ r, ∀ p ∈ g r, p.1 = r) →
      (∀ r, (g r).Nodup) → (l.flatMap g).Nodup := by
  intro l
  induction l with
  | nil => intro _ _ _; simp
  | cons r t ih =>
    intro hl hfst hnd
    rw [List.flatMap_cons]
    refine List.Nodup.append (hnd r) (ih (List.nodup_cons.mp hl).2 hfst hnd) ?_
    intro p hp1 hp2
    have h1 := hfst r p hp1
    simp only [List.mem_flatMap] at hp2
    obtain ⟨r2, hr2, hp2g⟩ := hp2
    have h2 := hfst r2 p hp2g
    have heq : r = r2 := h1.symm.trans h2
    exact (List.nodup_cons.mp hl).1 (heq.symm ▸ hr2)

theorem maskCells_nodup {mask : List (List Nat)} : (maskCells mask).Nodup := by
  unfold maskCells
  apply nodup_flatMap_pairs (List.nodup_range _)
  · intro r p hp
    rw [filterMap_ite_eq_filter_map] at hp
    simp only [List.mem_map] at hp
    obtain ⟨c, _, rfl⟩ := hp
    rfl
  · intro r
    rw [filterMap_ite_eq_filter_map]
    exact List.Nodup.map (fun a b hab => by simpa using hab)
      ((List.nodup_range _).filter _)

theorem bfsGo_nil {mask : List (List Nat)} {h w fuel : Nat} {seen : List Cell} :
    bfsGo mask h w fuel seen [] = seen := by
  cases fuel <;> rfl

theorem bfsGo_succ {mask : List (List Nat)} {h w fuel : Nat}
    {seen dq : List Cell} {q : Cell} :
    bfsGo mask h w (fuel + 1) seen (q :: dq) =
      bfsGo mask h w fuel (seen ++ newCells mask h w seen q)
        (dq ++ newCells mask h w seen q) := rfl

theorem nbrs_nodup {h w r c : Nat} : (nbrs h w r c).Nodup := by
  unfold nbrs
  split_ifs <;> simp [List.nodup_cons, Prod.ext_iff] <;> omega

theorem mem_nbrs {h w r c : Nat} {p : Cell} (hp : p ∈ nbrs h w r c) :
    (p.1 < h ∧ p.2 < w) ∧
      ((p.1 = r ∧ (p.2 = c + 1 ∨ p.2 + 1 = c)) ∨
        (p.2 = c ∧ (p.1 = r + 1 ∨ p.1 + 1 = r))) := by
  unfold nbrs at hp
  simp only [List.mem_append] at hp
  rcases hp with ((hp | hp) | hp) | hp
  · split_ifs at hp with hc
    · rw [List.mem_singleton] at hp
      subst hp
      exact ⟨⟨hc.1, hc.2⟩, Or.inr ⟨rfl, Or.inl rfl⟩⟩
    · simp at hp
  · split_ifs at hp with hc
    · rw [List.mem_singleton] at hp
      subst hp
      exact ⟨⟨hc.2.1, hc.2.2⟩, Or.inr ⟨rfl, Or.inr (by omega)⟩⟩
    · simp at hp
  · split_ifs at hp with hc
    · rw [List.mem_singleton] at hp
      subst hp
      exact ⟨⟨hc.1, hc.2⟩, Or.inl ⟨rfl, Or.inl rfl⟩⟩
    · simp at hp
  · split_ifs at hp with hc
    · rw [List.mem_singleton] at hp
      subst hp
      exact ⟨⟨hc.1, hc.2.2⟩, Or.inl ⟨rfl, Or.inr (by omega)⟩⟩
    · simp at hp

/-- Members of `newCells` are filled in-range cells not yet seen. -/
theorem mem_newCells {mask : List (List Nat)} {h w : Nat} {seen : List Cell}
    {q p : Cell} (hm : p ∈ newCells mask h w seen q) :
    p ∈ nbrs h w q.1 q.2 ∧ mget mask p.1 p.2 = 1 ∧ seen.contains p = false := by
  unfold newCells at hm
  rw [List.mem_filter] at hm
  refine ⟨hm.1, ?_, ?_⟩
  · have := hm.2
    simp only [Bool.and_eq_true, beq_iff_eq, Bool.not_eq_true'] at this
    exact this.1
  · have := hm.2
    simp only [Bool.and_eq_true, beq_iff_eq, Bool.not_eq_true'] at this
    exact this.2

theorem newCells_nodup {mask : List (List Nat)} {h w : Nat} {seen : List Cell}
    {q : Cell} : (newCells mask h w seen q).Nodup :=
  nbrs_nodup.filter _

theorem newCells_mem_maskCells {mask : List (List Nat)} {seen : List Cell}
    {q p : Cell} (hm : p ∈ newCells mask (maskH mask) (maskW mask) seen q) :
    p ∈ maskCells mask := by
  obtain ⟨hn, hg, _⟩ := mem_newCells hm
  obtain ⟨⟨h1, h2⟩, _⟩ := mem_nbrs hn
  exact mem_maskCells.mpr ⟨h1, h2, hg⟩

def adjCell (mask : List (List Nat)) (a b : Cell) : Prop :=
  a ∈ maskCells mask ∧ b ∈ maskCells mask ∧
    ((a.1 = b.1 ∧ (a.2 + 1 = b.2 ∨ b.2 + 1 = a.2)) ∨
      (a.2 = b.2 ∧ (a.1 + 1 = b.1 ∨ b.1 + 1 = a.1)))

theorem adjCell_symm {mask : List (List Nat)} {a b : Cell}
    (h : adjCell mask a b) : adjCell mask b a := by
  obtain ⟨h1, h2, h3⟩ := h
  refine ⟨h2, h1, ?_⟩
  rcases h3 with ⟨he, hd⟩ | ⟨he, hd⟩
  · exact Or.inl ⟨he.symm, hd.symm⟩
  · exact Or.inr ⟨he.symm, hd.symm⟩

/-- 4-connectivity of the filled cells of a mask. -/
def MaskConnected (mask : List (List Nat)) : Prop :=
  ∀ a ∈ maskCells mask, ∀ b ∈ maskCells mask,
    Relation.ReflTransGen (adjCell mask) a b

theorem newCells_adj {mask : List (List Nat)} {seen : List Cell} {q p : Cell}
    (hq : q ∈ maskCells mask)
    (hm : p ∈ newCells mask (maskH mask) (maskW mask) seen q) :
    adjCell mask q p := by
  obtain ⟨hn, hg, _⟩ := mem_newCells hm
  obtain ⟨⟨h1, h2⟩, hshape⟩ := mem_nbrs hn
  refine ⟨hq, mem_maskCells.mpr ⟨h1, h2, hg⟩, ?_⟩
  rcases hshape with ⟨he, hd⟩ | ⟨he, hd⟩
  · exact Or.inl ⟨he.symm, by omega⟩
  · exact Or.inr ⟨he.symm, by omega⟩

theorem contains_append_cells (l1 l2 : List Cell) (a : Cell) :
    (l1 ++ l2).contains a = (l1.contains a || l2.contains a) := by
  simp [List.contains_eq_any_beq, List.any_append]

theorem contains_eq_decide_mem (l : List Cell) (a : Cell) :
    l.contains a = decide (a ∈ l) := List.elem_eq_mem a l

theorem unseen_decrease {cells seen new : List Cell} (hnd : new.Nodup)
    (hsub : ∀ p ∈ new, p ∈ cells ∧ seen.contains p = false) :
    (cells.filter (fun p => !((seen ++ new).contains p))).length + new.length ≤
      (cells.filter (fun p => !(seen.contains p))).length := by
  have hp := List.filter_append_perm (fun p => new.contains p)
    (cells.filter (fun p => !(seen.contains p)))
  have hlen := hp.length_eq
  rw [List.length_append, List.filter_filter, List.filter_filter] at hlen
  have hA : cells.filter (fun p => !((seen ++ new).contains p)) =
      cells.filter (fun p => !(new.contains p) && !(seen.contains p)) := by
    apply List.filter_congr
    intro p _
    rw [contains_append_cells]
    cases hs : seen.contains p <;> cases hn : new.contains p <;> rfl
  have hB : new.length ≤
      (cells.filter (fun p => new.contains p && !(seen.contains p))).length := by
    have hsubB : ∀ p ∈ new,
        p ∈ cells.filter (fun p => new.contains p && !(seen.contains p)) := by
      intro p hp2
      rw [List.mem_filter]
      refine ⟨(hsub p hp2).1, ?_⟩
      simp only [Bool.and_eq_true, Bool.not_eq_true']
      refine ⟨?_, (hsub p hp2).2⟩
      rw [contains_eq_decide_mem]
      simpa using hp2
    calc new.length = new.toFinset.card := (List.toFinset_card_of_nodup hnd).symm
      _ ≤ (cells.filter
            (fun p => new.contains p && !(seen.contains p))).toFinset.card := by
          apply Finset.card_le_card
          intro x hx
          rw [List.mem_toFinset] at hx ⊢
          exact hsubB x hx
      _ ≤ _ := List.toFinset_card_le _
  rw [hA]
  omega

theorem bfsGo_fuel_irrel {mask : List (List Nat)} :
    ∀ f1 f2 : Nat, ∀ seen dq : List Cell,
      2 * ((maskCells mask).filter (fun p => !(seen.contains p))).length +
          dq.length ≤ f1 →
      2 * ((maskCells mask).filter (fun p => !(seen.contains p))).length +
          dq.length ≤ f2 →
      bfsGo mask (maskH mask) (maskW mask) f1 seen dq =
        bfsGo mask (maskH mask) (maskW mask) f2 seen dq := by
  intro f1
  induction f1 with
  | zero =>
    intro f2 seen dq h1 h2
    cases dq with
    | nil => rw [bfsGo_nil, bfsGo_nil]
    | cons q dq2 =>
      simp only [List.length_cons] at h1
      exact absurd h1 (by omega)
  | succ g1 ih =>
    intro f2 seen dq h1 h2
    cases dq with
    | nil => rw [bfsGo_nil, bfsGo_nil]
    | cons q dq2 =>
      cases f2 with
      | zero =>
        simp only [List.length_cons] at h2
        exact absurd h2 (by omega)
      | succ g2 =>
        rw [bfsGo_succ, bfsGo_succ]
        have hdec := @unseen_decrease (maskCells mask) seen
          (newCells mask (maskH mask) (maskW mask) seen q)
          (@newCells_nodup mask (maskH mask) (maskW mask) seen q)
          (fun p hp => ⟨newCells_mem_maskCells hp, (mem_newCells hp).2.2⟩)
        apply ih
        · simp only [List.length_append, List.length_cons] at h1 ⊢
          omega
        · simp only [List.length_append, List.length_cons] at h2 ⊢
          omega

theorem bfsGo_sound {mask : List (List Nat)} {start : Cell} :
    ∀ (fuel : Nat) (seen dq : List Cell),
      (∀ x ∈ seen,
        Relation.ReflTransGen (adjCell mask) start x ∧ x ∈ maskCells mask) →
      (∀ x ∈ dq, x ∈ seen) → seen.Nodup →
      (∀ x ∈ bfsGo mask (maskH mask) (maskW mask) fuel seen dq,
          Relation.ReflTransGen (adjCell mask) start x ∧ x ∈ maskCells mask) ∧
        (bfsGo mask (maskH mask) (maskW mask) fuel seen dq).Nodup := by
  intro fuel
  induction fuel with
  | zero =>
    intro seen dq hseen hdq hnd
    cases dq with
    | nil =>
      rw [bfsGo_nil]
      exact ⟨hseen, hnd⟩
    | cons q dq2 => exact ⟨hseen, hnd⟩
  | succ g ih =>
    intro seen dq hseen hdq hnd
    cases dq with
    | nil =>
      rw [bfsGo_nil]
      exact ⟨hseen, hnd⟩
    | cons q dq2 =>
      rw [bfsGo_succ]
      apply ih
      · intro x hx
        rcases List.mem_append.mp hx with hx1 | hx2
        · exact hseen x hx1
        · have hq := hseen q (hdq q (List.mem_cons_self q dq2))
          exact ⟨hq.1.tail (newCells_adj hq.2 hx2), newCells_mem_maskCells hx2⟩
      · intro x hx
        rcases List.mem_append.mp hx with hx1 | hx2
        · exact List.mem_append_left _ (hdq x (List.mem_cons_of_mem q hx1))
        · exact List.mem_append_right _ hx2
      · refine List.Nodup.append hnd newCells_nodup ?_
        intro p hp1 hp2
        have hcf := (mem_newCells hp2).2.2
        rw [contains_eq_decide_mem] at hcf
        simp only [decide_eq_false_iff_not] at hcf
        exact hcf hp1

theorem connected_sound {mask : List (List Nat)} (hc : connected mask = true) :
    MaskConnected mask := by
  unfold connected at hc
  cases hcells : maskCells mask with
  | nil =>
    rw [hcells] at hc
    simp at hc
  | cons c0 rest =>
    rw [hcells] at hc
    rw [beq_iff_eq] at hc
    have hc0 : c0 ∈ maskCells mask := by
      rw [hcells]
      exact List.mem_cons_self _ _
    have hsound := @bfsGo_sound mask c0
      (2 * (c0 :: rest).length + 1) [c0] [c0]
      (by
        intro x hx
        rw [List.mem_singleton] at hx
        subst hx
        exact ⟨Relation.ReflTransGen.refl, hc0⟩)
      (fun x hx => hx)
      (List.nodup_singleton c0)
    have hsub : ∀ x ∈ bfsGo mask (maskH mask) (maskW mask)
        (2 * (c0 :: rest).length + 1) [c0] [c0], x ∈ maskCells mask :=
      fun x hx => (hsound.1 x hx).2
    have hcov : ∀ x ∈ maskCells mask, x ∈ bfsGo mask (maskH mask) (maskW mask)
        (2 * (c0 :: rest).length + 1) [c0] [c0] := by
      have hss : (bfsGo mask (maskH mask) (maskW mask)
          (2 * (c0 :: rest).length + 1) [c0] [c0]).toFinset ⊆
          (maskCells mask).toFinset := by
        intro x hx
        rw [List.mem_toFinset] at hx ⊢
        exact hsub x hx
      have hcard : (maskCells mask).toFinset.card ≤
          (bfsGo mask (maskH mask) (maskW mask)
            (2 * (c0 :: rest).length + 1) [c0] [c0]).toFinset.card := by
        rw [List.toFinset_card_of_nodup hsound.2,
          List.toFinset_card_of_nodup maskCells_nodup, hc, hcells]
      have heq := Finset.eq_of_subset_of_card_le hss hcard
      intro x hx
      rw [← List.mem_toFinset, heq, List.mem_toFinset]
      exact hx
    intro a ha b hb
    have hra := (hsound.1 a (hcov a ha)).1
    have hrb := (hsound.1 b (hcov b hb)).1
    exact (Relation.ReflTransGen.symmetric
      (fun x y hxy => adjCell_symm hxy) hra).trans hrb

theorem bool_eq_iff {a b : Bool} (h : a = true ↔ b = true) : a = b := by
  cases a <;> cases b <;> simp_all

theorem mem_horizontal_lengths {w L1 : Nat} (h : L1 ∈ horizontal_lengths_allowed w) :
    4 ≤ L1 ∧ L1 ≤ w ∧ L1 % 2 = w % 2 := by
  unfold horizontal_lengths_allowed at h
  by_cases hw : w % 2 = 0
  · rw [if_pos hw] at h
    rw [List.mem_filter] at h
    have h1 := mem_rangeFromTo.mp h.1
    have h2 := h.2
    simp only [beq_iff_eq] at h2
    omega
  · rw [if_neg hw] at h
    rw [List.mem_filter] at h
    have h1 := mem_rangeFromTo.mp h.1
    have h2 := h.2
    simp only [beq_iff_eq] at h2
    omega

theorem hspan_mirror {w L1 c : Nat} (h4 : 4 ≤ L1) (hle : L1 ≤ w)
    (hpar : L1 % 2 = w % 2) (hc : c < w) :
    ((horizontal_segment_for_width w L1).1 ≤ c ∧
      c ≤ (horizontal_segment_for_width w L1).2) ↔
    ((horizontal_segment_for_width w L1).1 ≤ w - 1 - c ∧
      w - 1 - c ≤ (horizontal_segment_for_width w L1).2) := by
  simp only [horizontal_segment_for_width]
  omega

theorem inHSpans_mirror {w : Nat} {hrl : List (Nat × Nat)} {r c : Nat}
    (hL : ∀ p ∈ hrl, 4 ≤ p.2 ∧ p.2 ≤ w ∧ p.2 % 2 = w % 2) (hc : c < w)
    (h : inHSpans w hrl r c = true) : inHSpans w hrl r (w - 1 - c) = true := by
  unfold inHSpans at h ⊢
  rw [List.any_eq_true] at h ⊢
  obtain ⟨p, hp, hcond⟩ := h
  rw [decide_eq_true_eq] at hcond
  obtain ⟨h4, hle, hpar⟩ := hL p hp
  refine ⟨p, hp, ?_⟩
  rw [decide_eq_true_eq]
  exact ⟨hcond.1, (hspan_mirror h4 hle hpar hc).mp hcond.2⟩

theorem inVSpans_mirror {vcs : List (Nat × Nat × Nat)} {w r c : Nat}
    (hV : ∀ p ∈ vcs, p.1 < w ∧ (w - 1 - p.1, p.2) ∈ vcs)
    (h : inVSpans vcs r c = true) : inVSpans vcs r (w - 1 - c) = true := by
  unfold inVSpans at h ⊢
  rw [List.any_eq_true] at h ⊢
  obtain ⟨q, hq, hcond⟩ := h
  rw [decide_eq_true_eq] at hcond
  obtain ⟨hqc, hr1, hr2⟩ := hcond
  subst hqc
  refine ⟨(w - 1 - q.1, q.2), (hV q hq).2, ?_⟩
  rw [decide_eq_true_eq]
  exact ⟨rfl, hr1, hr2⟩

theorem buildMask_symm {w h : Nat} {hrl : List (Nat × Nat)}
    {vcs : List (Nat × Nat × Nat)}
    (hL : ∀ p ∈ hrl, 4 ≤ p.2 ∧ p.2 ≤ w ∧ p.2 % 2 = w % 2)
    (hV : ∀ p ∈ vcs, p.1 < w ∧ (w - 1 - p.1, p.2) ∈ vcs)
    {r c : Nat} (hr : r < h) (hc : c < w) :
    mget (buildMask w h hrl vcs) r c =
      mget (buildMask w h hrl vcs) r (w - 1 - c) := by
  rw [buildMask_get hr hc, buildMask_get hr (show w - 1 - c < w by omega)]
  have hAB : (inHSpans w hrl r c || inVSpans vcs r c) =
      (inHSpans w hrl r (w - 1 - c) || inVSpans vcs r (w - 1 - c)) := by
    have hccc : w - 1 - (w - 1 - c) = c := by omega
    apply bool_eq_iff
    simp only [Bool.or_eq_true]
    constructor
    · rintro (h1 | h2)
      · exact Or.inl (inHSpans_mirror hL hc h1)
      · exact Or.inr (inVSpans_mirror hV h2)
    · rintro (h1 | h2)
      · have := inHSpans_mirror hL (show w - 1 - c < w by omega) h1
        rw [hccc] at this
        exact Or.inl this
      · have := inVSpans_mirror hV h2
        rw [hccc] at this
        exact Or.inr this
  rw [hAB]

theorem units_mirror {w : Nat} (hw : w = 4 ∨ w = 5 ∨ w = 6 ∨ w = 7) :
    ∀ u ∈ symmetric_vertical_units w, ∀ col ∈ ucols u,
      col < w ∧ (w - 1 - col) ∈ ucols u := by
  rcases hw with rfl | rfl | rfl | rfl <;> decide

theorem buildVcs_mirror {w : Nat} {units v_choice : List VUnit}
    {segs : List (Nat × Nat)}
    (hmir : ∀ u ∈ units, ∀ col ∈ ucols u, col < w ∧ (w - 1 - col) ∈ ucols u)
    (hsub : ∀ u ∈ v_choice, u ∈ units) :
    ∀ p ∈ buildVcs v_choice segs,
      p.1 < w ∧ (w - 1 - p.1, p.2) ∈ buildVcs v_choice segs := by
  intro p hp
  unfold buildVcs at hp ⊢
  rw [List.mem_flatMap] at hp
  obtain ⟨us, hus, hpin⟩ := hp
  rw [List.mem_map] at hpin
  obtain ⟨col, hcol, rfl⟩ := hpin
  have hu : us.1 ∈ units := hsub us.1 (List.of_mem_zip hus).1
  have hcw := hmir us.1 hu col hcol
  refine ⟨hcw.1, ?_⟩
  rw [List.mem_flatMap]
  exact ⟨us, hus, List.mem_map.mpr ⟨w - 1 - col, hcw.2, rfl⟩⟩

theorem buildVcs_fst {v_choice : List VUnit} {segs : List (Nat × Nat)} :
    ∀ x ∈ (buildVcs v_choice segs).map Prod.fst, x ∈ v_choice.flatMap ucols := by
  intro x hx
  rw [List.mem_map] at hx
  obtain ⟨p, hp, rfl⟩ := hx
  unfold buildVcs at hp
  rw [List.mem_flatMap] at hp
  obtain ⟨us, hus, hpin⟩ := hp
  rw [List.mem_map] at hpin
  obtain ⟨col, hcol, rfl⟩ := hpin
  rw [List.mem_flatMap]
  exact ⟨us.1, (List.of_mem_zip hus).1, hcol⟩

/-- The structural invariants of one accepted layout. -/
def LayoutGoodCore (lay : Layout) : Prop :=
  maskH lay.mask = lay.h ∧ maskW lay.mask = lay.w ∧
  (∀ r c, r < lay.h → c < lay.w →
    mget lay.mask r c = mget lay.mask r (lay.w - 1 - c)) ∧
  MaskConnected lay.mask ∧
  filledCount lay.mask = lay.total ∧
  (∀ a ∈ lay.hrl.map Prod.fst, ∀ b ∈ lay.hrl.map Prod.fst, a ≠ b →
    a + 2 ≤ b ∨ b + 2 ≤ a) ∧
  (∀ a ∈ lay.vcs.map Prod.fst, ∀ b ∈ lay.vcs.map Prod.fst, a ≠ b →
    a + 2 ≤ b ∨ b + 2 ≤ a)

theorem mkLayoutOpt_good {mi w h nH nV : Nat} {hrl : List (Nat × Nat)}
    {vcs : List (Nat × Nat × Nat)} {lay : Layout} (hh : 0 < h)
    (hL : ∀ p ∈ hrl, 4 ≤ p.2 ∧ p.2 ≤ w ∧ p.2 % 2 = w % 2)
    (hV : ∀ p ∈ vcs, p.1 < w ∧ (w - 1 - p.1, p.2) ∈ vcs)
    (hradj : ∀ a ∈ hrl.map Prod.fst, ∀ b ∈ hrl.map Prod.fst, a ≠ b →
      a + 2 ≤ b ∨ b + 2 ≤ a)
    (hcadj : ∀ a ∈ vcs.map Prod.fst, ∀ b ∈ vcs.map Prod.fst, a ≠ b →
      a + 2 ≤ b ∨ b + 2 ≤ a)
    (hmk : mkLayoutOpt mi w h nH nV hrl vcs = some lay) :
    LayoutGoodCore lay := by
  unfold mkLayoutOpt at hmk
  cases hsp : slot_purity_ok hrl vcs w with
  | false =>
    rw [hsp] at hmk
    simp at hmk
  | true =>
    rw [hsp] at hmk
    simp only [Bool.not_true, Bool.false_eq_true, if_false] at hmk
    cases hcn : connected (buildMask w h hrl vcs) with
    | false =>
      rw [hcn] at hmk
      simp at hmk
    | true =>
      rw [hcn] at hmk
      simp only [Bool.not_true, Bool.false_eq_true, if_false] at hmk
      cases hrect : is_plain_rectangle w h hrl vcs with
      | true =>
        rw [hrect] at hmk
        simp at hmk
      | false =>
        rw [hrect] at hmk
        simp only [Bool.false_eq_true, if_false] at hmk
        by_cases hcnt : (build_slots_and_intersections w h hrl vcs).2.length < mi
        · rw [if_pos hcnt] at hmk
          cases hmk
        · rw [if_neg hcnt] at hmk
          rw [Option.some_inj] at hmk
          subst hmk
          refine ⟨maskH_buildMask, maskW_buildMask hh, ?_, connected_sound hcn,
            filledCount_buildMask, hradj, hcadj⟩
          intro r c hr hc
          exact buildMask_symm hL hV hr hc

theorem nv0_good {mi w h nH nV : Nat} {hrl : List (Nat × Nat)} {lay : Layout}
    (hh : 0 < h)
    (hL : ∀ p ∈ hrl, 4 ≤ p.2 ∧ p.2 ≤ w ∧ p.2 % 2 = w % 2)
    (hradj : ∀ a ∈ hrl.map Prod.fst, ∀ b ∈ hrl.map Prod.fst, a ≠ b →
      a + 2 ≤ b ∨ b + 2 ≤ a)
    (hmem : lay ∈ nv0_layouts mi w h nH nV hrl) : LayoutGoodCore lay := by
  unfold nv0_layouts at hmem
  cases hcn : connected (buildMask w h hrl []) with
  | false =>
    rw [hcn] at hmem
    simp at hmem
  | true =>
    rw [hcn] at hmem
    simp only [Bool.not_true, Bool.false_eq_true, if_false] at hmem
    cases hrect : is_plain_rectangle w h hrl [] with
    | true =>
      rw [hrect] at hmem
      simp at hmem
    | false =>
      rw [hrect] at hmem
      simp only [Bool.false_eq_true, if_false] at hmem
      by_cases hcnt : (build_slots_and_intersections w h hrl []).2.length < mi
      · rw [if_pos hcnt] at hmem
        cases hmem
      · rw [if_neg hcnt] at hmem
        rw [List.mem_singleton] at hmem
        subst hmem
        refine ⟨maskH_buildMask, maskW_buildMask hh, ?_, connected_sound hcn,
          filledCount_buildMask, hradj, ?_⟩
        · intro r c hr hc
          exact buildMask_symm hL (by intro p hp; cases hp) hr hc
        · intro a ha
          cases ha

theorem mkLayouts_v_good {mi w h nH nV : Nat} {hrl : List (Nat × Nat)}
    {v_opts : List (Nat × Nat)} {v_choice units : List VUnit}
    {lay : Layout} (hh : 0 < h)
    (hL : ∀ p ∈ hrl, 4 ≤ p.2 ∧ p.2 ≤ w ∧ p.2 % 2 = w % 2)
    (hradj : ∀ a ∈ hrl.map Prod.fst, ∀ b ∈ hrl.map Prod.fst, a ≠ b →
      a + 2 ≤ b ∨ b + 2 ≤ a)
    (hmir : ∀ u ∈ units, ∀ col ∈ ucols u, col < w ∧ (w - 1 - col) ∈ ucols u)
    (hsubu : ∀ u ∈ v_choice, u ∈ units)
    (hnadj : nonadjacent (expand_units_to_cols v_choice) = true)
    (hmem : lay ∈ mkLayouts_v mi w h nH nV hrl v_opts v_choice) :
    LayoutGoodCore lay := by
  unfold mkLayouts_v at hmem
  by_cases hnv : nV == 0
  · rw [if_pos hnv] at hmem
    exact nv0_good hh hL hradj hmem
  · rw [if_neg hnv] at hmem
    rw [List.mem_filterMap] at hmem
    obtain ⟨segs, hsegs, hmk⟩ := hmem
    apply mkLayoutOpt_good hh hL (buildVcs_mirror hmir hsubu) hradj ?_ hmk
    intro a ha b hb hne
    exact nonadjacent_spec hnadj a (mem_expand_units.mpr (buildVcs_fst a ha))
      b (mem_expand_units.mpr (buildVcs_fst b hb)) hne

theorem layouts_for_fam_good {mi w h : Nat} {units : List VUnit}
    {v_opts : List (Nat × Nat)} {h_lens : List Nat} {fam : Nat × Nat}
    {lay : Layout} (hh : 0 < h)
    (hHL : ∀ L1 ∈ h_lens, 4 ≤ L1 ∧ L1 ≤ w ∧ L1 % 2 = w % 2)
    (hmir : ∀ u ∈ units, ∀ col ∈ ucols u, col < w ∧ (w - 1 - col) ∈ ucols u)
    (hmem : lay ∈ layouts_for_fam mi w h units v_opts h_lens fam) :
    LayoutGoodCore lay := by
  unfold layouts_for_fam at hmem
  split_ifs at hmem
  · exact absurd hmem (List.not_mem_nil lay)
  · exact absurd hmem (List.not_mem_nil lay)
  · exact absurd hmem (List.not_mem_nil lay)
  rw [List.mem_flatMap] at hmem
  obtain ⟨rows, hrows, hmem⟩ := hmem
  rw [List.mem_flatMap] at hmem
  obtain ⟨Ls, hLs, hmem⟩ := hmem
  rw [List.mem_flatMap] at hmem
  obtain ⟨v_choice, hvch, hmem⟩ := hmem
  unfold hrow_sets at hrows
  rw [List.mem_filter] at hrows
  have hradj : ∀ a ∈ (rows.zip Ls).map Prod.fst,
      ∀ b ∈ (rows.zip Ls).map Prod.fst, a ≠ b → a + 2 ≤ b ∨ b + 2 ≤ a := by
    intro a ha b hb hne
    rw [List.mem_map] at ha hb
    obtain ⟨pa, hpa, rfl⟩ := ha
    obtain ⟨pb, hpb, rfl⟩ := hb
    exact nonadjacent_spec hrows.2 pa.1 (List.of_mem_zip hpa).1 pb.1
      (List.of_mem_zip hpb).1 hne
  have hL2 : ∀ p ∈ rows.zip Ls, 4 ≤ p.2 ∧ p.2 ≤ w ∧ p.2 % 2 = w % 2 := by
    intro p hp
    have hp2 := (List.of_mem_zip hp).2
    unfold h_len_combos at hLs
    by_cases hnh0 : fam.1 == 0
    · rw [if_pos hnh0] at hLs
      rw [List.mem_singleton] at hLs
      subst hLs
      exact absurd hp2 (List.not_mem_nil _)
    · rw [if_neg hnh0] at hLs
      exact hHL p.2 ((mem_replicateProd hLs).2 p.2 hp2)
  unfold unit_subsets at hvch
  by_cases hnv0 : fam.2 == 0
  · rw [if_pos hnv0] at hvch
    rw [List.mem_singleton] at hvch
    subst hvch
    apply mkLayouts_v_good hh hL2 hradj hmir ?_ ?_ hmem
    · intro u hu
      exact absurd hu (List.not_mem_nil u)
    · decide
  · rw [if_neg hnv0] at hvch
    rw [List.mem_flatMap] at hvch
    obtain ⟨k, _, hvch⟩ := hvch
    rw [List.mem_filter] at hvch
    have hsubu : ∀ u ∈ v_choice, u ∈ units :=
      fun u hu => (combinations_sublist hvch.1).subset hu
    have hnadj : nonadjacent (expand_units_to_cols v_choice) = true := by
      have hb := hvch.2
      rw [Bool.and_eq_true] at hb
      exact hb.2
    exact mkLayouts_v_good hh hL2 hradj hmir hsubu hnadj hmem

theorem layouts_for_wh_good {mi tw w h : Nat} {lay : Layout}
    (hw : w = 4 ∨ w = 5 ∨ w = 6 ∨ w = 7) (hh3 : h = 4 ∨ h = 5 ∨ h = 6)
    (hmem : lay ∈ layouts_for_wh mi tw w h) : LayoutGoodCore lay := by
  unfold layouts_for_wh at hmem
  by_cases hu : (symmetric_vertical_units w).isEmpty
  · rw [if_pos hu] at hmem
    exact absurd hmem (List.not_mem_nil lay)
  · rw [if_neg hu] at hmem
    rw [List.mem_flatMap] at hmem
    obtain ⟨fam, hfam, hmem⟩ := hmem
    have hh : 0 < h := by omega
    have hHL : ∀ L1 ∈ horizontal_lengths_allowed w,
        4 ≤ L1 ∧ L1 ≤ w ∧ L1 % 2 = w % 2 := by
      rcases hw with rfl | rfl | rfl | rfl <;>
        (intro L1 hL1; exact mem_horizontal_lengths hL1)
    exact layouts_for_fam_good hh hHL (units_mirror hw) hmem

theorem mem_dedupeByMask :
    ∀ {seen : List (List (List Nat))} {ls : List Layout} {lay : Layout},
      lay ∈ dedupeByMask seen ls → lay ∈ ls := by
  intro seen ls
  induction ls generalizing seen with
  | nil =>
    intro lay hmem
    exact absurd hmem (List.not_mem_nil lay)
  | cons l0 t ih =>
    intro lay hmem
    unfold dedupeByMask at hmem
    by_cases hs : l0.mask ∈ seen
    · rw [if_pos hs] at hmem
      exact List.mem_cons_of_mem l0 (ih hmem)
    · rw [if_neg hs] at hmem
      rcases List.mem_cons.mp hmem with rfl | hmem2
      · exact List.mem_cons_self _ _
      · exact List.mem_cons_of_mem l0 (ih hmem2)

theorem enumerate_layouts_good {mi tw : Nat} {lay : Layout}
    (hmem : lay ∈ enumerate_layouts mi tw) : LayoutGoodCore lay := by
  unfold enumerate_layouts at hmem
  have h2 := mem_dedupeByMask hmem
  rw [List.mem_flatMap] at h2
  obtain ⟨w, hw, h2⟩ := h2
  rw [List.mem_flatMap] at h2
  obtain ⟨h, hh, h2⟩ := h2
  exact layouts_for_wh_good (by simpa using hw) (by simpa using hh) h2

/-- C2: every layout that survives enumeration and the phrase-length filter
(the layouts `main` attempts) has a mask of its declared `h × w` dimensions
whose filled cells are 4-connected, left-right symmetric
(`mask[r][c] = mask[r][w-1-c]`), exactly `L` in number where `L` is the
cleaned phrase length used in the filter, and no two across rows and no two
down columns are adjacent. -/
theorem surviving_layouts_good (mi L : Nat) (modes : List Nat) :
    ∀ lay ∈ surviving_layouts mi modes L,
      maskH lay.mask = lay.h ∧ maskW lay.mask = lay.w ∧
      (∀ r c, r < lay.h → c < lay.w →
        mget lay.mask r c = mget lay.mask r (lay.w - 1 - c)) ∧
      MaskConnected lay.mask ∧
      filledCount lay.mask = L ∧
      (∀ a ∈ lay.hrl.map Prod.fst, ∀ b ∈ lay.hrl.map Prod.fst, a ≠ b →
        a + 2 ≤ b ∨ b + 2 ≤ a) ∧
      (∀ a ∈ lay.vcs.map Prod.fst, ∀ b ∈ lay.vcs.map Prod.fst, a ≠ b →
        a + 2 ≤ b ∨ b + 2 ≤ a) := by
  intro lay hmem
  unfold surviving_layouts at hmem
  have h2 := mem_dedupeByMask hmem
  rw [List.mem_filter] at h2
  obtain ⟨h3, htot⟩ := h2
  rw [List.mem_flatMap] at h3
  obtain ⟨tw, _, h3⟩ := h3
  obtain ⟨g1, g2, g3, g4, g5, g6, g7⟩ := enumerate_layouts_good h3
  rw [beq_iff_eq] at htot
  exact ⟨g1, g2, g3, g4, g5.trans htot, g6, g7⟩

/-- The first layout `main` would attempt for a 16-letter phrase in 5-word
mode: three across rows and the two outer columns of a 4×6 grid. -/
def wlayC2 : Layout :=
  { w := 4, h := 6, nH := 3, nV := 2,
    hrl := [(0, 4), (2, 4), (4, 4)],
    vcs := [(0, 0, 5), (3, 0, 5)],
    mask := [[1,1,1,1],[1,0,0,1],[1,1,1,1],[1,0,0,1],[1,1,1,1],[0,0,0,0]],
    total := 16,
    slots := [
      ⟨"H@R0:C0-3".data, "H".data, 4, [(0,0),(0,1),(0,2),(0,3)]⟩,
      ⟨"H@R2:C0-3".data, "H".data, 4, [(2,0),(2,1),(2,2),(2,3)]⟩,
      ⟨"H@R4:C0-3".data, "H".data, 4, [(4,0),(4,1),(4,2),(4,3)]⟩,
      ⟨"V@C0:R0-4".data, "V".data, 5, [(0,0),(1,0),(2,0),(3,0),(4,0)]⟩,
      ⟨"V@C3:R0-4".data, "V".data, 5, [(0,3),(1,3),(2,3),(3,3),(4,3)]⟩],
    inters := [
      ⟨"H@R0:C0-3".data, 0, "V@C0:R0-4".data, 0, (0,0)⟩,
      ⟨"H@R0:C0-3".data, 3, "V@C3:R0-4".data, 0, (0,3)⟩,
      ⟨"H@R2:C0-3".data, 0, "V@C0:R0-4".data, 2, (2,0)⟩,
      ⟨"H@R2:C0-3".data, 3, "V@C3:R0-4".data, 2, (2,3)⟩,
      ⟨"H@R4:C0-3".data, 0, "V@C0:R0-4".data, 4, (4,0)⟩,
      ⟨"H@R4:C0-3".data, 3, "V@C3:R0-4".data, 4, (4,3)⟩] }

theorem surviving_layouts_good_witness :
    wlayC2 ∈ surviving_layouts 0 [5] 16 ∧ MaskConnected wlayC2.mask := by
  have h : wlayC2 ∈ surviving_layouts 0 [5] 16 := by decide
  exact ⟨h, (surviving_layouts_good 0 16 [5] wlayC2 h).2.2.2.1⟩

/-! ### Layout ranking (main lines 757-775) -/

/-- `dup_cells`: the number of distinct crossing cells of a layout
(`len({x["cell"] for x in intersections})`). -/
def dupCells (lay : Layout) : Nat :=
  ((lay.inters.map (fun x => x.cell)).dedup).length

/-- `buckets[dup].append(lay)` on an insertion-ordered dict of lists
(`defaultdict(list)`). -/
def addBucket : List (Nat × List Layout) → Nat → Layout → List (Nat × List Layout)
  | [], d, lay => [(d, [lay])]
  | (k, v) :: rest, d, lay =>
      if k = d then (k, v ++ [lay]) :: rest else (k, v) :: addBucket rest d lay

/-- The bucket-filling loop (main lines 764-766). -/
def mkBuckets (ranked : List (Nat × Layout)) : List (Nat × List Layout) :=
  ranked.foldl (fun b p => addBucket b p.1 p.2) []

/-- The shuffle loop (main lines 767-768): shuffle each bucket in insertion
order, threading the generator state. -/
def shuffleBuckets {σ : Type} (shuf : σ → List Layout → List Layout × σ) :
    σ → List (Nat × List Layout) → List (Nat × List Layout) × σ
  | st, [] => ([], st)
  | st, (k, v) :: rest =>
      ((k, (shuf st v).1) ::
          (shuffleBuckets shuf (shuf st v).2 rest).1,
        (shuffleBuckets shuf (shuf st v).2 rest).2)

def shuffledBuckets {σ : Type} (shuf : σ → List Layout → List Layout × σ)
    (st0 : σ) (layouts : List Layout) : List (Nat × List Layout) :=
  (shuffleBuckets shuf st0
    (mkBuckets (layouts.map (fun lay => (dupCells lay, lay))))).1

/-- `ranked_layouts` (main lines 757-772): bucket by `dup_cells`, shuffle
each bucket with the seeded generator, then concatenate buckets by
descending key.  `random.Random(seed).shuffle` is Python stdlib; it is
modelled by the abstract state-threading `shuf` parameter (the claim
theorem assumes only that a shuffle permutes its input). -/
def ranked_layouts {σ : Type} (shuf : σ → List Layout → List Layout × σ)
    (st0 : σ) (layouts : List Layout) : List Layout :=
  (isort (fun a b : Nat => decide (b < a))
      ((shuffledBuckets shuf st0 layouts).map Prod.fst)).flatMap
    (fun d => (dlookup (shuffledBuckets shuf st0 layouts) d).getD [])

theorem dlookup_isSome_iff {κ ν : Type} [DecidableEq κ] :
    ∀ {l : List (κ × ν)} {k : κ},
      (dlookup l k).isSome = true ↔ k ∈ l.map Prod.fst := by
  intro l
  induction l with
  | nil => intro k; simp [dlookup]
  | cons p rest ih =>
    intro k
    simp only [dlookup, List.map_cons, List.mem_cons]
    by_cases hp : p.1 = k
    · rw [if_pos hp]
      simp [hp.symm]
    · rw [if_neg hp]
      rw [ih]
      constructor
      · intro h
        exact Or.inr h
      · rintro (h | h)
        · exact absurd h.symm hp
        · exact h

theorem addBucket_keys (bs : List (Nat × List Layout)) (d : Nat) (lay : Layout) :
    (addBucket bs d lay).map Prod.fst =
      if d ∈ bs.map Prod.fst then bs.map Prod.fst
      else bs.map Prod.fst ++ [d] := by
  induction bs with
  | nil => simp [addBucket]
  | cons p rest ih =>
    obtain ⟨k, v⟩ := p
    unfold addBucket
    by_cases hk : k = d
    · subst hk
      simp
    · rw [if_neg hk]
      simp only [List.map_cons, List.mem_cons]
      rw [ih]
      by_cases hd : d ∈ rest.map Prod.fst
      · rw [if_pos hd, if_pos (Or.inr hd)]
      · rw [if_neg hd, if_neg ?_, List.cons_append]
        rintro (h | h)
        · exact hk h.symm
        · exact hd h

theorem addBucket_lookup (bs : List (Nat × List Layout)) (d : Nat) (lay : Layout)
    (k : Nat) :
    dlookup (addBucket bs d lay) k =
      if k = d then some ((dlookup bs d).getD [] ++ [lay])
      else dlookup bs k := by
  induction bs with
  | nil =>
    simp only [addBucket, dlookup]
    by_cases hk : k = d
    · rw [if_pos (hk.symm), if_pos hk]
      simp [dlookup]
    · rw [if_neg (fun h => hk h.symm), if_neg hk]
  | cons p rest ih =>
    obtain ⟨k2, v⟩ := p
    unfold addBucket
    by_cases hk2 : k2 = d
    · subst hk2
      simp only [dlookup]
      by_cases hkk : k2 = k
      · rw [if_pos hkk, if_pos hkk.symm]
        simp
      · rw [if_neg hkk, if_neg (fun h => hkk h.symm)]
        simp [dlookup, hkk]
    · rw [if_neg hk2]
      simp only [dlookup]
      by_cases hkk : k2 = k
      · rw [if_pos hkk, if_pos hkk, if_neg (fun h => hk2 (hkk.trans h))]
      · rw [if_neg hkk, if_neg hkk, ih]
        by_cases hkd : k = d
        · rw [if_pos hkd, if_pos hkd, if_neg hk2]
        · rw [if_neg hkd, if_neg hkd]

theorem mkBucketsAux_spec :
    ∀ (ranked : List (Nat × Layout)) (bs : List (Nat × List Layout)),
      (bs.map Prod.fst).Nodup →
      ((ranked.foldl (fun b p => addBucket b p.1 p.2) bs).map Prod.fst).Nodup ∧
      (∀ d, (dlookup (ranked.foldl (fun b p => addBucket b p.1 p.2) bs) d).getD []
          = (dlookup bs d).getD [] ++
            (ranked.filter (fun p => decide (p.1 = d))).map Prod.snd) ∧
      (∀ d, ((dlookup (ranked.foldl (fun b p => addBucket b p.1 p.2) bs) d).isSome
            = true ↔
          (dlookup bs d).isSome = true ∨ d ∈ ranked.map Prod.fst)) := by
  intro ranked
  induction ranked with
  | nil =>
    intro bs hnd
    refine ⟨hnd, ?_, ?_⟩ <;> intro d <;> simp
  | cons p rest ih =>
    intro bs hnd
    simp only [List.foldl_cons]
    have hnd2 : ((addBucket bs p.1 p.2).map Prod.fst).Nodup := by
      rw [addBucket_keys]
      by_cases hd : p.1 ∈ bs.map Prod.fst
      · rw [if_pos hd]
        exact hnd
      · rw [if_neg hd]
        refine List.Nodup.append hnd (List.nodup_singleton _) ?_
        intro x hx hx2
        rw [List.mem_singleton] at hx2
        subst hx2
        exact hd hx
    obtain ⟨g1, g2, g3⟩ := ih (addBucket bs p.1 p.2) hnd2
    refine ⟨g1, ?_, ?_⟩
    · intro d
      rw [g2 d, addBucket_lookup]
      by_cases hpd : d = p.1
      · subst hpd
        rw [if_pos rfl]
        simp [List.filter_cons, List.append_assoc]
      · rw [if_neg hpd]
        have hss : ¬(p.1 = d) := fun h => hpd h.symm
        simp [List.filter_cons, hss]
    · intro d
      rw [g3 d, addBucket_lookup]
      by_cases hpd : d = p.1
      · subst hpd
        rw [if_pos rfl]
        simp
      · rw [if_neg hpd]
        have hss : ¬(p.1 = d) := fun h => hpd h.symm
        simp only [List.map_cons, List.mem_cons]
        constructor
        · rintro (h | h)
          · exact Or.inl h
          · exact Or.inr (Or.inr h)
        · rintro (h | h | h)
          · exact Or.inl h
          · exact absurd h.symm hss
          · exact Or.inr h

theorem mkBuckets_spec (ranked : List (Nat × Layout)) :
    ((mkBuckets ranked).map Prod.fst).Nodup ∧
    (∀ d, (dlookup (mkBuckets ranked) d).getD [] =
      (ranked.filter (fun p => decide (p.1 = d))).map Prod.snd) ∧
    (∀ d, ((dlookup (mkBuckets ranked) d).isSome = true ↔
      d ∈ ranked.map Prod.fst)) := by
  obtain ⟨g1, g2, g3⟩ := mkBucketsAux_spec ranked [] (by simp)
  refine ⟨g1, ?_, ?_⟩
  · intro d
    have := g2 d
    simpa [dlookup] using this
  · intro d
    have := g3 d
    simpa [dlookup] using this

theorem shuffleBuckets_spec {σ : Type} (shuf : σ → List Layout → List Layout × σ)
    (hshuf : ∀ st v, (shuf st v).1.Perm v) :
    ∀ (bs : List (Nat × List Layout)) (st : σ),
      List.Forall₂ (fun q p => q.1 = p.1 ∧ q.2.Perm p.2)
        ((shuffleBuckets shuf st bs).1) bs := by
  intro bs
  induction bs with
  | nil => intro st; exact List.Forall₂.nil
  | cons p rest ih =>
    intro st
    obtain ⟨k, v⟩ := p
    exact List.Forall₂.cons ⟨rfl, hshuf st v⟩ (ih ((shuf st v).2))

theorem forall2_keys {sb bs : List (Nat × List Layout)}
    (h : List.Forall₂ (fun q p => q.1 = p.1 ∧ q.2.Perm p.2) sb bs) :
    sb.map Prod.fst = bs.map Prod.fst := by
  induction h with
  | nil => rfl
  | cons hqp _ ih => simp [hqp.1, ih]

theorem forall2_dlookup :
    ∀ {sb bs : List (Nat × List Layout)},
      List.Forall₂ (fun q p => q.1 = p.1 ∧ q.2.Perm p.2) sb bs →
      ∀ d : Nat, ((dlookup sb d).getD []).Perm ((dlookup bs d).getD []) := by
  intro sb
  induction sb with
  | nil =>
    intro bs h d
    cases h
    exact List.Perm.refl _
  | cons q sbt ih =>
    intro bs h d
    cases h with
    | cons hqp htail =>
      rename_i p bst
      simp only [dlookup]
      by_cases hd : q.1 = d
      · rw [if_pos hd, if_pos (hqp.1.symm.trans hd)]
        exact hqp.2
      · rw [if_neg hd, if_neg (fun hc => hd (hqp.1.trans hc))]
        exact ih htail d

theorem flatMap_congr_mem {α β : Type} {l : List α} {f g : α → List β}
    (h : ∀ a ∈ l, f a = g a) : l.flatMap f = l.flatMap g := by
  induction l with
  | nil => rfl
  | cons x t ih =>
    rw [List.flatMap_cons, List.flatMap_cons, h x (List.mem_cons_self x t),
      ih (fun a ha => h a (List.mem_cons_of_mem x ha))]

theorem flatMap_perm_mem {α β : Type} {l : List α} {f g : α → List β}
    (h : ∀ a ∈ l, (f a).Perm (g a)) : (l.flatMap f).Perm (l.flatMap g) := by
  induction l with
  | nil => exact List.Perm.refl _
  | cons x t ih =>
    rw [List.flatMap_cons, List.flatMap_cons]
    exact (h x (List.mem_cons_self x t)).append
      (ih (fun a ha => h a (List.mem_cons_of_mem x ha)))

theorem perm_flatMap_filter {l : List (Nat × Layout)} :
    ∀ {ks : List Nat}, ks.Nodup → (∀ p ∈ l, p.1 ∈ ks) →
      (ks.flatMap (fun d => l.filter (fun p => decide (p.1 = d)))).Perm l := by
  intro ks
  induction ks generalizing l with
  | nil =>
    intro _ hall
    have : l = [] := by
      cases l with
      | nil => rfl
      | cons p t => exact absurd (hall p (List.mem_cons_self p t)) (List.not_mem_nil _)
    subst this
    exact List.Perm.refl _
  | cons d ks2 ih =>
    intro hnd hall
    rw [List.flatMap_cons]
    have hcongr : ks2.flatMap (fun k => l.filter (fun p => decide (p.1 = k))) =
        ks2.flatMap (fun k => (l.filter (fun p => !(decide (p.1 = d)))).filter
          (fun p => decide (p.1 = k))) := by
      apply flatMap_congr_mem
      intro k hk
      rw [List.filter_filter]
      apply List.filter_congr
      intro p _
      by_cases hpk : p.1 = k
      · have hkd : ¬(k = d) := fun hc => (List.nodup_cons.mp hnd).1 (hc ▸ hk)
        rw [hpk]
        simp [hkd]
      · simp [hpk]
    rw [hcongr]
    have hperm2 := ih (List.nodup_cons.mp hnd).2 (l := l.filter (fun p => !(decide (p.1 = d))))
      (by
        intro p hp
        rw [List.mem_filter] at hp
        have := hall p hp.1
        rcases List.mem_cons.mp this with hc | hc
        · exfalso
          have := hp.2
          simp only [Bool.not_eq_true', decide_eq_false_iff_not] at this
          exact this hc
        · exact hc)
    exact (List.Perm.append_left _ hperm2).trans
      (List.filter_append_perm (fun p => decide (p.1 = d)) l)

theorem insSorted_desc {x : Nat} :
    ∀ {l : List Nat}, l.Pairwise (fun a b : Nat => b ≤ a) →
      (insSorted (fun a b : Nat => decide (b < a)) x l).Pairwise
        (fun a b => b ≤ a) := by
  intro l
  induction l with
  | nil => intro _; simp [insSorted]
  | cons y ys ih =>
    intro hp
    unfold insSorted
    by_cases hlt : x < y
    · rw [if_pos (by simpa using hlt)]
      refine List.Pairwise.cons ?_ (ih (List.pairwise_cons.mp hp).2)
      intro z hz
      have hz2 : z ∈ x :: ys := (insSorted_perm _ x ys).mem_iff.mp hz
      rcases List.mem_cons.mp hz2 with rfl | h1
      · omega
      · exact (List.pairwise_cons.mp hp).1 z h1
    · rw [if_neg (by simpa using hlt)]
      refine List.Pairwise.cons ?_ hp
      intro z hz
      rcases List.mem_cons.mp hz with rfl | h1
      · omega
      · have := (List.pairwise_cons.mp hp).1 z h1
        omega

theorem isort_desc_sorted (l : List Nat) :
    (isort (fun a b : Nat => decide (b < a)) l).Pairwise
      (fun a b => b ≤ a) := by
  induction l with
  | nil => simp [isort]
  | cons x t ih => exact insSorted_desc ih

theorem pairwise_flatMap_of {α : Type} {R : α → α → Prop} {f : Nat → List α} :
    ∀ {ks : List Nat},
      ks.Pairwise (fun d e => ∀ a ∈ f d, ∀ b ∈ f e, R a b) →
      (∀ d ∈ ks, ∀ a ∈ f d, ∀ b ∈ f d, R a b) →
      (ks.flatMap f).Pairwise R := by
  intro ks
  induction ks with
  | nil => intro _ _; simp
  | cons d t ih =>
    intro h1 h2
    rw [List.flatMap_cons, List.pairwise_append]
    refine ⟨pairwise_of_all (h2 d (List.mem_cons_self d t)),
      ih (List.pairwise_cons.mp h1).2
        (fun e he => h2 e (List.mem_cons_of_mem d he)), ?_⟩
    intro a ha b hb
    rw [List.mem_flatMap] at hb
    obtain ⟨e, he, hbe⟩ := hb
    exact (List.pairwise_cons.mp h1).1 e he a ha b hbe

theorem map_snd_pairing : ∀ l : List Layout,
    (l.map (fun lay => (dupCells lay, lay))).map Prod.snd = l := by
  intro l
  induction l with
  | nil => rfl
  | cons a t ih =>
    simp only [List.map_cons]
    rw [ih]

/-- C7: for any shuffle model that permutes its input (as
`random.Random(seed).shuffle` does), the ranking of main lines 757-775 is a
pure function of the layout list and the initial generator state (same seed
gives the identical order), returns a permutation of its input in which
`dup_cells` is non-increasing (denser interlock first), and preserves each
tie class as a set: within a `dup_cells` value the order comes from the
seeded shuffle of that bucket, not from insertion order. -/
theorem ranked_layouts_spec {σ : Type} (shuf : σ → List Layout → List Layout × σ)
    (hshuf : ∀ st v, (shuf st v).1.Perm v) (st0 : σ) (layouts : List Layout) :
    (ranked_layouts shuf st0 layouts).Perm layouts ∧
    (ranked_layouts shuf st0 layouts).Pairwise
      (fun a b => dupCells b ≤ dupCells a) ∧
    (∀ d : Nat, ((ranked_layouts shuf st0 layouts).filter
        (fun lay => dupCells lay == d)).Perm
      (layouts.filter (fun lay => dupCells lay == d))) := by
  have hF2 := shuffleBuckets_spec shuf hshuf
    (mkBuckets (layouts.map (fun lay => (dupCells lay, lay)))) st0
  obtain ⟨hk1, hk2, hk3⟩ :=
    mkBuckets_spec (layouts.map (fun lay => (dupCells lay, lay)))
  have hkeys : (shuffledBuckets shuf st0 layouts).map Prod.fst =
      (mkBuckets (layouts.map (fun lay => (dupCells lay, lay)))).map Prod.fst :=
    forall2_keys hF2
  set ks := isort (fun a b : Nat => decide (b < a))
    ((shuffledBuckets shuf st0 layouts).map Prod.fst) with hks
  have hksperm : ks.Perm
      ((mkBuckets (layouts.map (fun lay => (dupCells lay, lay)))).map Prod.fst) :=
    (isort_perm _ _).trans (by rw [hkeys])
  have hksnd : ks.Nodup := hksperm.nodup_iff.mpr hk1
  have helem : ∀ d : Nat,
      ∀ x ∈ (dlookup (shuffledBuckets shuf st0 layouts) d).getD [],
        dupCells x = d := by
    intro d x hx
    have hx2 : x ∈ (dlookup
        (mkBuckets (layouts.map (fun lay => (dupCells lay, lay)))) d).getD [] :=
      (forall2_dlookup hF2 d).mem_iff.mp hx
    rw [hk2 d] at hx2
    rw [List.mem_map] at hx2
    obtain ⟨p, hp, rfl⟩ := hx2
    rw [List.mem_filter] at hp
    have hp1 := hp.2
    rw [decide_eq_true_eq] at hp1
    have hp0 := hp.1
    rw [List.mem_map] at hp0
    obtain ⟨lay, _, rfl⟩ := hp0
    exact hp1
  have hall : ∀ p ∈ layouts.map (fun lay => (dupCells lay, lay)), p.1 ∈ ks := by
    intro p hp
    have hiss : (dlookup
        (mkBuckets (layouts.map (fun lay => (dupCells lay, lay)))) p.1).isSome
        = true :=
      (hk3 p.1).mpr (List.mem_map_of_mem Prod.fst hp)
    exact hksperm.mem_iff.mpr (dlookup_isSome_iff.mp hiss)
  have hpermA : (ranked_layouts shuf st0 layouts).Perm layouts := by
    unfold ranked_layouts
    rw [← hks]
    have step1 : (ks.flatMap
        (fun d => (dlookup (shuffledBuckets shuf st0 layouts) d).getD [])).Perm
        (ks.flatMap (fun d => (dlookup
          (mkBuckets (layouts.map (fun lay => (dupCells lay, lay)))) d).getD [])) :=
      flatMap_perm_mem (fun d _ => forall2_dlookup hF2 d)
    have step2 : ks.flatMap (fun d => (dlookup
          (mkBuckets (layouts.map (fun lay => (dupCells lay, lay)))) d).getD []) =
        (ks.flatMap (fun d =>
          ((layouts.map (fun lay => (dupCells lay, lay))).filter
            (fun p => decide (p.1 = d))))).map Prod.snd := by
      rw [flatMap_congr_mem (fun d _ => hk2 d), List.map_flatMap]
    have step3 := (perm_flatMap_filter hksnd hall).map Prod.snd
    have step4 : ((layouts.map (fun lay => (dupCells lay, lay))).map Prod.snd)
        = layouts := map_snd_pairing layouts
    refine step1.trans ?_
    rw [step2]
    refine step3.trans ?_
    rw [step4]
  refine ⟨hpermA, ?_, ?_⟩
  · unfold ranked_layouts
    rw [← hks]
    apply pairwise_flatMap_of
    · have hsorted := isort_desc_sorted
        ((shuffledBuckets shuf st0 layouts).map Prod.fst)
      rw [← hks] at hsorted
      refine hsorted.imp ?_
      intro d e hde a ha b hb
      rw [helem d a ha, helem e b hb]
      exact hde
    · intro d _ a ha b hb
      rw [helem d a ha, helem d b hb]
  · intro d
    exact hpermA.filter _

/-- A trivial shuffle model (identity permutation) for the witness. -/
def wshufC7 : Unit → List Layout → List Layout × Unit := fun st v => (v, st)

def wlayC7 : Layout := ⟨4, 4, 1, 1, [], [], [], 0, [], []⟩

theorem ranked_layouts_spec_witness :
    (∀ (st : Unit) (v : List Layout), ((wshufC7 st v).1).Perm v) ∧
    (ranked_layouts wshufC7 () [wlayC7]).Perm [wlayC7] := by
  have h : ∀ (st : Unit) (v : List Layout), ((wshufC7 st v).1).Perm v :=
    fun st v => List.Perm.refl v
  exact ⟨h, (ranked_layouts_spec wshufC7 h () [wlayC7]).1⟩
